import Mathlib

set_option maxRecDepth 4096

/-!
# Verification of the telegram-news-poster content-curation pipeline

Shallow embedding of the pipeline's pure logic:

* `src/app/main.py` — `deduplicate_articles` (content-hash / URL dedup with
  bounded history and bulk eviction);
* `src/app/config.py` — `filter_articles` (allowlist/blocklist keyword filter
  with relevance scoring);
* `src/app/summarize.py` — `count_tokens`, `extract_sentences`,
  `score_sentence`, `create_summary`;
* `src/app/url_cleaner.py` — `TRACKING_PARAMS`, `is_blocked_domain`,
  `has_banned_path_keywords`, `clean_url`, `is_shortened_url`,
  `clean_and_resolve_url`, together with the parts of CPython's
  `urllib.parse` (3.11) that these functions call.

Python strings are modelled as `List Char`.  `str.lower()` is modelled
ASCII-only (all concrete inputs below are ASCII).  Python `float` scores are
modelled in `ℚ` (the exact values of all score constants are dyadic or tenths,
so only sub-ulp rounding of float accumulation is abstracted away; no theorem
below depends on score values).  `hashlib.sha256(...).hexdigest()[:16]`
(`utils.hash_item`) is modelled as an opaque parameter `hash : Str → Str`,
since the deduplication logic uses nothing about it except equality of
outputs.  Network calls (`follow_redirects_and_validate`) are modelled as an
explicit `resolve : Str → Option Str` parameter (`none` = any network failure
or non-HTML content).
-/

/-! ## Basic string machinery -/

/-- Python `str` modelled as a list of characters. -/
abbrev Str := List Char

/-- Python `str.lower()` (ASCII part; CPython lowercases the full Unicode
range, identical on the ASCII inputs used throughout). -/
def asciiLower (s : Str) : Str := s.map Char.toLower

/-- Python substring test `needle in haystack`. -/
def inStr (needle haystack : Str) : Bool := decide (needle <:+: haystack)

/-- Convenience: turn a Lean string literal into a `Str`. -/
def strOf (s : String) : Str := s.data

/-! ## Deduplication (`src/app/main.py`, `deduplicate_articles`)

The Python code keeps a module-global `processed_articles : set`, a per-batch
`current_hashes : set` and `current_urls : set`, appends non-duplicates to
`unique_articles`, merges `current_hashes` into the global set after the loop
and, when the merged set exceeds 1000 entries, replaces it by
`set(list(processed_articles)[500:])`.

Python's `set` iterates in an arbitrary (but concrete) order; it is modelled
as a duplicate-free `List Str` in insertion order — one concrete realisation
of that arbitrary order.  All properties proved below (membership and sizes)
are independent of the iteration order. -/

/-- The fields of an article dict that `deduplicate_articles` reads. -/
structure Article where
  title : Str
  description : Str
  link : Str
deriving DecidableEq

/-- `s.add(x)` on a Python set modelled as a duplicate-free list. -/
def setAdd (s : List Str) (x : Str) : List Str := if x ∈ s then s else s ++ [x]

/-- `s.update(xs)` on a Python set modelled as a duplicate-free list. -/
def setUnionList (s : List Str) (xs : List Str) : List Str := xs.foldl setAdd s

/-- Loop state of the `for article in articles` loop. -/
structure DedupState where
  unique : List Article
  curHashes : List Str
  curUrls : List Str
deriving DecidableEq

/-- One iteration of the dedup loop (`main.py` lines 111-126). -/
def dedupStep (hash : Str → Str) (processed : List Str) (st : DedupState)
    (article : Article) : DedupState :=
  if hash (article.title ++ article.description) ∉ processed ∧
     hash (article.title ++ article.description) ∉ st.curHashes ∧
     asciiLower article.link ∉ st.curUrls then
    { unique := st.unique ++ [article]
      curHashes := setAdd st.curHashes (hash (article.title ++ article.description))
      curUrls := if asciiLower article.link ≠ [] then setAdd st.curUrls (asciiLower article.link)
                 else st.curUrls }
  else st

/-- The state after the whole batch loop. -/
def batchState (hash : Str → Str) (processed : List Str) (articles : List Article) :
    DedupState :=
  articles.foldl (dedupStep hash processed) ⟨[], [], []⟩

/-- `deduplicate_articles` (`main.py` lines 103-134): returns the unique
articles and the updated global history (merge, then bulk eviction
`set(list(processed_articles)[500:])` once the size exceeds 1000). -/
def mergedHistory (hash : Str → Str) (processed : List Str)
    (articles : List Article) : List Str :=
  setUnionList processed (batchState hash processed articles).curHashes

def deduplicate_articles (hash : Str → Str) (processed : List Str)
    (articles : List Article) : List Article × List Str :=
  ((batchState hash processed articles).unique,
   if (mergedHistory hash processed articles).length > 1000
   then (mergedHistory hash processed articles).drop 500
   else mergedHistory hash processed articles)

/-- Content-hash key of an article (`hash_item(article['title'] + article['description'])`). -/
def hashKey (hash : Str → Str) (a : Article) : Str := hash (a.title ++ a.description)

/-! ### Helper lemmas about the dedup loop -/

theorem setAdd_of_not_mem {s : List Str} {x : Str} (h : x ∉ s) : setAdd s x = s ++ [x] := by
  simp [setAdd, h]

theorem setUnionList_of_disjoint :
    ∀ {xs s : List Str}, xs.Nodup → (∀ x ∈ xs, x ∉ s) → setUnionList s xs = s ++ xs := by
  intro xs
  induction xs with
  | nil => intro s _ _; simp [setUnionList]
  | cons x rest ih =>
    intro s hnd hdisj
    have hx : x ∉ s := hdisj x (by simp)
    have : setUnionList s (x :: rest) = setUnionList (s ++ [x]) rest := by
      simp [setUnionList, setAdd_of_not_mem hx]
    rw [this, ih (List.Nodup.of_cons hnd)]
    · simp
    · intro y hy
      have hys : y ∉ s := hdisj y (by simp [hy])
      have hyx : y ≠ x := by
        rintro rfl
        exact (List.nodup_cons.mp hnd).1 hy
      simp [hys, hyx]

theorem dedupStep_fresh (hash : Str → Str) (processed : List Str) (st : DedupState)
    (a : Article) (h1 : hashKey hash a ∉ processed) (h2 : hashKey hash a ∉ st.curHashes)
    (h3 : asciiLower a.link ∉ st.curUrls) :
    dedupStep hash processed st a =
      { unique := st.unique ++ [a]
        curHashes := setAdd st.curHashes (hashKey hash a)
        curUrls := if asciiLower a.link ≠ [] then setAdd st.curUrls (asciiLower a.link)
                   else st.curUrls } := by
  unfold dedupStep
  unfold hashKey at h1 h2
  rw [if_pos ⟨h1, h2, h3⟩]
  rfl

theorem dedupStep_dup (hash : Str → Str) (processed : List Str) (st : DedupState)
    (a : Article)
    (h : ¬(hashKey hash a ∉ processed ∧ hashKey hash a ∉ st.curHashes ∧
           asciiLower a.link ∉ st.curUrls)) :
    dedupStep hash processed st a = st := by
  unfold dedupStep
  unfold hashKey at h
  rw [if_neg h]

theorem foldl_dedupStep_all_fresh (hash : Str → Str) (processed : List Str) :
    ∀ (articles : List Article) (st : DedupState),
      st.curUrls = [] →
      (∀ a ∈ articles, a.link = []) →
      (∀ a ∈ articles, hashKey hash a ∉ processed) →
      (∀ a ∈ articles, hashKey hash a ∉ st.curHashes) →
      (articles.map (hashKey hash)).Nodup →
      articles.foldl (dedupStep hash processed) st =
        ⟨st.unique ++ articles, st.curHashes ++ articles.map (hashKey hash), []⟩ := by
  intro articles
  induction articles with
  | nil => intro st hurls _ _ _ _; cases st; simp_all
  | cons a rest ih =>
    intro st hurls hlinks hfreshP hfreshC hnd
    have hlink : a.link = [] := hlinks a (by simp)
    have hurl : asciiLower a.link = [] := by simp [hlink, asciiLower]
    have hstep := dedupStep_fresh hash processed st a
      (hfreshP a (by simp)) (hfreshC a (by simp)) (by rw [hurl, hurls]; simp)
    rw [List.foldl_cons, hstep]
    have hrest := ih
      { unique := st.unique ++ [a]
        curHashes := setAdd st.curHashes (hashKey hash a)
        curUrls := if asciiLower a.link ≠ [] then setAdd st.curUrls (asciiLower a.link)
                   else st.curUrls }
      (by simp [hurl, hurls])
      (fun b hb => hlinks b (by simp [hb]))
      (fun b hb => hfreshP b (by simp [hb]))
      (fun b hb => by
        have h1 : hashKey hash b ∉ st.curHashes := hfreshC b (by simp [hb])
        have h2 : hashKey hash b ≠ hashKey hash a := by
          intro he
          have : hashKey hash a ∈ rest.map (hashKey hash) :=
            he ▸ List.mem_map_of_mem (hashKey hash) hb
          exact (List.nodup_cons.mp (by simpa using hnd)).1 this
        rw [setAdd_of_not_mem (hfreshC a (by simp))]
        simp [h1, h2])
      (by simpa using (List.nodup_cons.mp (by simpa using hnd)).2
)
    rw [hrest]
    rw [setAdd_of_not_mem (hfreshC a (by simp))]
    simp

theorem mem_setAdd {s : List Str} {x y : Str} : y ∈ setAdd s x ↔ y ∈ s ∨ y = x := by
  by_cases h : x ∈ s
  · simp only [setAdd, if_pos h]
    exact ⟨Or.inl, fun h' => h'.elim id (fun he => he ▸ h)⟩
  · simp [setAdd, if_neg h]

theorem batch_hashes_invariant (hash : Str → Str) (processed : List Str) :
    ∀ (articles : List Article) (st : DedupState),
      (st.unique.map (hashKey hash)).Nodup →
      (∀ a ∈ st.unique, hashKey hash a ∈ st.curHashes) →
      ((articles.foldl (dedupStep hash processed) st).unique.map (hashKey hash)).Nodup ∧
      (∀ a ∈ (articles.foldl (dedupStep hash processed) st).unique,
        hashKey hash a ∈ (articles.foldl (dedupStep hash processed) st).curHashes) := by
  intro articles
  induction articles with
  | nil => intro st h1 h2; exact ⟨h1, h2⟩
  | cons a rest ih =>
    intro st h1 h2
    rw [List.foldl_cons]
    by_cases hc : hashKey hash a ∉ processed ∧ hashKey hash a ∉ st.curHashes ∧
        asciiLower a.link ∉ st.curUrls
    · rw [dedupStep_fresh hash processed st a hc.1 hc.2.1 hc.2.2]
      apply ih
      · simp only [List.map_append, List.map_cons, List.map_nil]
        rw [List.nodup_append]
        refine ⟨h1, List.nodup_singleton _, ?_⟩
        intro k hk
        simp only [List.mem_singleton]
        intro hke
        obtain ⟨b, hb, rfl⟩ := List.mem_map.mp hk
        exact hc.2.1 (hke ▸ h2 b hb)
      · intro b hb
        simp only [List.mem_append, List.mem_singleton] at hb
        rcases hb with hb | rfl
        · exact mem_setAdd.mpr (Or.inl (h2 b hb))
        · exact mem_setAdd.mpr (Or.inr rfl)
    · rw [dedupStep_dup hash processed st a hc]
      exact ih st h1 h2

/-- C1 (amended): whenever the merged history exceeds 1000 entries after a
batch, the eviction `set(list(processed_articles)[500:])` removes exactly 500
entries, so the history is left with (merged size − 500) entries — which is
strictly more than 500, not "at most 500". -/
theorem history_eviction_removes_exactly_500 (hash : Str → Str) (processed : List Str)
    (articles : List Article)
    (h : (mergedHistory hash processed articles).length > 1000) :
    (deduplicate_articles hash processed articles).2.length
        = (mergedHistory hash processed articles).length - 500 ∧
    500 < (deduplicate_articles hash processed articles).2.length := by
  show (if (mergedHistory hash processed articles).length > 1000
        then (mergedHistory hash processed articles).drop 500
        else mergedHistory hash processed articles).length = _ ∧ 500 < (if (mergedHistory hash processed articles).length > 1000
        then (mergedHistory hash processed articles).drop 500
        else mergedHistory hash processed articles).length
  rw [if_pos h]
  refine ⟨List.length_drop 500 _, ?_⟩
  rw [List.length_drop]
  omega

/-- The batch used for C1's concrete instances: 1001 pairwise-distinct articles. -/
def evictBatch : List Article :=
  (List.range 1001).map (fun i => ⟨List.replicate i 'a', [], []⟩)

theorem evictBatch_hashes :
    evictBatch.map (hashKey id) = (List.range 1001).map (fun i => List.replicate i 'a') := by
  unfold evictBatch
  rw [List.map_map]
  apply List.map_congr_left
  intro i _
  simp [hashKey]

theorem evictBatch_hashes_nodup : (evictBatch.map (hashKey id)).Nodup := by
  rw [evictBatch_hashes]
  apply List.Nodup.map _ (List.nodup_range 1001)
  intro i j hij
  have := congrArg List.length hij
  simpa using this

theorem evictBatch_batchState :
    batchState id [] evictBatch = ⟨evictBatch, evictBatch.map (hashKey id), []⟩ := by
  have hlinks : ∀ a ∈ evictBatch, a.link = [] := by
    intro a ha
    obtain ⟨i, _, rfl⟩ := List.mem_map.mp ha
    rfl
  have hfold := foldl_dedupStep_all_fresh id [] evictBatch ⟨[], [], []⟩ rfl hlinks
    (by intro a _; simp) (by intro a _; simp) evictBatch_hashes_nodup
  unfold batchState
  rw [hfold]
  simp only [List.nil_append]

theorem evictBatch_merged_length : (mergedHistory id [] evictBatch).length = 1001 := by
  unfold mergedHistory
  rw [evictBatch_batchState]
  rw [setUnionList_of_disjoint evictBatch_hashes_nodup (by intro x _; simp)]
  rw [List.nil_append, List.length_map]
  simp [evictBatch]

/-- Witness for `history_eviction_removes_exactly_500`: the 1001-article batch
merged into an empty history. -/
theorem history_eviction_removes_exactly_500_witness :
    500 < (deduplicate_articles id [] evictBatch).2.length :=
  (history_eviction_removes_exactly_500 id [] evictBatch
    (by rw [evictBatch_merged_length]; omega)).2

/-- C1 (counterexample): merging a batch of 1001 distinct articles into an
empty history makes the history 1001 > 1000 entries large, and the eviction
that immediately follows leaves 501 entries — not at most 500. -/
theorem history_eviction_counterexample :
    (mergedHistory id [] evictBatch).length > 1000 ∧
    (deduplicate_articles id [] evictBatch).2.length = 501 ∧
    ¬ (deduplicate_articles id [] evictBatch).2.length ≤ 500 := by
  have hlen := evictBatch_merged_length
  refine ⟨by omega, ?_, ?_⟩
  · simp only [deduplicate_articles]
    rw [if_pos (show (mergedHistory id [] evictBatch).length > 1000 by omega)]
    rw [List.length_drop]
    omega
  · simp only [deduplicate_articles]
    rw [if_pos (show (mergedHistory id [] evictBatch).length > 1000 by omega)]
    rw [List.length_drop]
    omega

/-- C6 (counterexample): in the batch `[x, a, b]`, articles `a` and `b` have
identical `title + description`, yet it is the *second* of the two (`b`) that
survives: `a` is rejected for a within-batch URL collision with `x`, so its
content hash is never recorded, and `b` then passes every check. -/
theorem dedup_second_survives_counterexample :
    (⟨strOf "t", [], strOf "L"⟩ : Article).title ++ (⟨strOf "t", [], strOf "L"⟩ : Article).description
      = (⟨strOf "t", [], strOf "m"⟩ : Article).title ++ (⟨strOf "t", [], strOf "m"⟩ : Article).description ∧
    (deduplicate_articles id []
      [⟨strOf "x", [], strOf "l"⟩, ⟨strOf "t", [], strOf "L"⟩, ⟨strOf "t", [], strOf "m"⟩]).1
      = [⟨strOf "x", [], strOf "l"⟩, ⟨strOf "t", [], strOf "m"⟩] := by
  constructor
  · rfl
  · decide

/-- C6 (amended): at most one of two identical-content items survives a batch
— the content hashes of the dedup output are pairwise distinct — and in a
batch consisting of exactly the two items (the first's hash not in the
history), only the first survives.  The second *can* survive instead of the
first when the first is rejected for a within-batch URL collision (see the
counterexample). -/
theorem dedup_within_batch_amended :
    (∀ (hash : Str → Str) (processed : List Str) (articles : List Article),
      ((deduplicate_articles hash processed articles).1.map (hashKey hash)).Nodup) ∧
    (∀ (hash : Str → Str) (processed : List Str) (a b : Article),
      hashKey hash a ∉ processed →
      b.title ++ b.description = a.title ++ a.description →
      (deduplicate_articles hash processed [a, b]).1 = [a]) := by
  constructor
  · intro hash processed articles
    exact (batch_hashes_invariant hash processed articles ⟨[], [], []⟩
      (by simp) (by simp)).1
  · intro hash processed a b hfresh hsame
    show (batchState hash processed [a, b]).unique = [a]
    unfold batchState
    rw [List.foldl_cons]
    rw [dedupStep_fresh hash processed ⟨[], [], []⟩ a hfresh (by simp) (by simp)]
    rw [List.foldl_cons]
    rw [dedupStep_dup]
    · rfl
    · intro hc
      apply hc.2.1
      show hash (b.title ++ b.description) ∈ _
      rw [hsame]
      simp only [List.nil_append]
      rw [setAdd_of_not_mem (by simp)]
      simp [hashKey]

/-- Witness for `dedup_within_batch_amended`: two equal-content articles with
distinct links, empty history. -/
theorem dedup_within_batch_amended_witness :
    (deduplicate_articles id [] [⟨strOf "t", [], strOf "u"⟩, ⟨strOf "t", [], strOf "v"⟩]).1
      = [⟨strOf "t", [], strOf "u"⟩] :=
  dedup_within_batch_amended.2 id [] ⟨strOf "t", [], strOf "u"⟩ ⟨strOf "t", [], strOf "v"⟩
    (by simp) rfl

theorem batch_urls_nonempty (hash : Str → Str) (processed : List Str) :
    ∀ (articles : List Article) (st : DedupState),
      (∀ u ∈ st.curUrls, u ≠ []) →
      ∀ u ∈ (articles.foldl (dedupStep hash processed) st).curUrls, u ≠ [] := by
  intro articles
  induction articles with
  | nil => intro st h; exact h
  | cons a rest ih =>
    intro st h
    rw [List.foldl_cons]
    by_cases hc : hashKey hash a ∉ processed ∧ hashKey hash a ∉ st.curHashes ∧
        asciiLower a.link ∉ st.curUrls
    · rw [dedupStep_fresh hash processed st a hc.1 hc.2.1 hc.2.2]
      apply ih
      intro u hu
      by_cases hne : asciiLower a.link ≠ []
      · rw [if_pos hne] at hu
        rcases mem_setAdd.mp hu with h' | rfl
        · exact h u h'
        · exact hne
      · rw [if_neg hne] at hu
        exact h u hu
    · rw [dedupStep_dup hash processed st a hc]
      exact ih st h

/-- C10: an item with an empty link is never recorded in the within-batch
seen-URL set (every recorded URL is non-empty, so the empty URL never causes a
rejection), and two empty-link items with different content hashes (fresh
w.r.t. the history) both survive the batch. -/
theorem dedup_empty_link_never_url_blocked :
    (∀ (hash : Str → Str) (processed : List Str) (articles : List Article),
      ∀ u ∈ (batchState hash processed articles).curUrls, u ≠ []) ∧
    (∀ (hash : Str → Str) (processed : List Str) (a b : Article),
      a.link = [] → b.link = [] →
      hashKey hash a ∉ processed → hashKey hash b ∉ processed →
      hashKey hash b ≠ hashKey hash a →
      (deduplicate_articles hash processed [a, b]).1 = [a, b]) := by
  constructor
  · intro hash processed articles
    exact batch_urls_nonempty hash processed articles ⟨[], [], []⟩ (by simp)
  · intro hash processed a b ha hb hfa hfb hne
    show (batchState hash processed [a, b]).unique = [a, b]
    unfold batchState
    rw [List.foldl_cons]
    rw [dedupStep_fresh hash processed ⟨[], [], []⟩ a hfa (by simp) (by simp)]
    rw [List.foldl_cons]
    rw [dedupStep_fresh hash processed _ b hfb ?h2 ?h3]
    case h2 =>
      simp only [List.nil_append]
      rw [setAdd_of_not_mem (by simp)]
      simpa [hashKey] using hne
    case h3 =>
      simp only [ha, hb]
      simp [asciiLower]
    rfl

/-- Witness for `dedup_empty_link_never_url_blocked`: two empty-link articles
with different titles, empty history. -/
theorem dedup_empty_link_never_url_blocked_witness :
    (deduplicate_articles id [] [⟨strOf "t", [], []⟩, ⟨strOf "s", [], []⟩]).1
      = [⟨strOf "t", [], []⟩, ⟨strOf "s", [], []⟩] :=
  dedup_empty_link_never_url_blocked.2 id [] ⟨strOf "t", [], []⟩ ⟨strOf "s", [], []⟩
    rfl rfl (by simp) (by simp) (by decide)

/-! ## Relevance filter (`src/app/config.py`, `filter_articles`)

`filter_articles(articles, settings)` drops an article when a compiled
blocklist URL pattern matches its link, or when a blocklist keyword occurs
(case-insensitively) in its title or description; otherwise it scans the
allowlist accumulating `title_score`/`desc_score` (first qualifying field per
keyword), accepts when at least one keyword matched with
`relevance_score = title_score * 2 + desc_score`, and finally sorts accepted
articles by descending score (Python's stable sort).

The compiled regexes from `data/blocklist.yml` (a data file, not code) are
modelled as an abstract list of predicates `patterns : List (Str → Bool)`
(`re.search` on the raw link). -/

structure KeywordSettings where
  allowlist_keywords : List Str
  blocklist_keywords : List Str

/-- One allowlist-keyword step of the scan loop (`config.py` lines 245-252):
state is `(has_allowed_content, title_score, desc_score)`; `title` and
`description` are already lowercased by the caller. -/
def allowStep (title description : Str) (st : Bool × Nat × Nat) (w : Str) :
    Bool × Nat × Nat :=
  if inStr (asciiLower w) title then (true, st.2.1 + 1, st.2.2)
  else if inStr (asciiLower w) description then (true, st.2.1, st.2.2 + 1)
  else st

/-- The whole allowlist scan. -/
def allowScan (allowlist : List Str) (title description : Str) : Bool × Nat × Nat :=
  allowlist.foldl (allowStep title description) (false, 0, 0)

/-- Body of the `for article in articles` loop of `filter_articles`. -/
def filterStep (patterns : List (Str → Bool)) (s : KeywordSettings)
    (acc : List (Article × Nat)) (article : Article) : List (Article × Nat) :=
  if patterns.any (fun p => p article.link) then acc
  else if s.blocklist_keywords.any (fun w =>
      inStr (asciiLower w) (asciiLower article.title) ||
      inStr (asciiLower w) (asciiLower article.description)) then acc
  else if (allowScan s.allowlist_keywords (asciiLower article.title)
      (asciiLower article.description)).1 then
    acc ++ [(article,
      (allowScan s.allowlist_keywords (asciiLower article.title)
        (asciiLower article.description)).2.1 * 2 +
      (allowScan s.allowlist_keywords (asciiLower article.title)
        (asciiLower article.description)).2.2)]
  else acc

/-- `filter_articles` (`config.py` lines 196-263).  The accepted article dicts
carry their `relevance_score`; the final `filtered_articles.sort(key=...,
reverse=True)` is Python's stable descending sort, modelled by a stable merge
sort. -/
def filter_articles (patterns : List (Str → Bool)) (s : KeywordSettings)
    (articles : List Article) : List (Article × Nat) :=
  List.insertionSort (fun x y => y.2 ≤ x.2) (articles.foldl (filterStep patterns s) [])

/-- The relevance score exactly as the spec words it (C5): the sum over all
allowlist keywords of 2 for a title match, else 1 for a description match
(first qualifying field only). -/
def specRelevanceScore (allowlist : List Str) (a : Article) : Nat :=
  (allowlist.map (fun w =>
    if inStr (asciiLower w) (asciiLower a.title) then 2
    else if inStr (asciiLower w) (asciiLower a.description) then 1
    else 0)).sum

theorem allowScan_aux (title description : Str) :
    ∀ (ws : List Str) (st : Bool × Nat × Nat),
      (ws.foldl (allowStep title description) st).2.1 * 2
          + (ws.foldl (allowStep title description) st).2.2
        = st.2.1 * 2 + st.2.2 + (ws.map (fun w =>
            if inStr (asciiLower w) title then 2
            else if inStr (asciiLower w) description then 1
            else 0)).sum ∧
      (ws.foldl (allowStep title description) st).1
        = (st.1 || ws.any (fun w =>
            inStr (asciiLower w) title || inStr (asciiLower w) description)) := by
  intro ws
  induction ws with
  | nil => intro st; simp
  | cons w rest ih =>
    intro st
    rw [List.foldl_cons]
    by_cases h1 : inStr (asciiLower w) title = true
    · have := ih (allowStep title description st w)
      unfold allowStep at this ⊢
      rw [if_pos h1] at this ⊢
      refine ⟨?_, ?_⟩
      · rw [this.1]; simp [h1]; ring
      · rw [this.2]; simp [h1]
    · by_cases h2 : inStr (asciiLower w) description = true
      · have := ih (allowStep title description st w)
        unfold allowStep at this ⊢
        rw [if_neg h1, if_pos h2] at this ⊢
        refine ⟨?_, ?_⟩
        · rw [this.1]; simp [h1, h2]; ring
        · rw [this.2]; simp [h1, h2]
      · have := ih (allowStep title description st w)
        unfold allowStep at this ⊢
        rw [if_neg h1, if_neg h2] at this ⊢
        refine ⟨?_, ?_⟩
        · rw [this.1]
          simp only [Bool.not_eq_true] at h1 h2
          simp [h1, h2]
        · rw [this.2]
          simp only [Bool.not_eq_true] at h1 h2
          simp [h1, h2]

/-- Characterisation of membership in the filter's accumulating loop. -/
theorem mem_filter_fold (patterns : List (Str → Bool)) (s : KeywordSettings) :
    ∀ (articles : List Article) (acc : List (Article × Nat)) (p : Article × Nat),
      p ∈ articles.foldl (filterStep patterns s) acc →
      p ∈ acc ∨
        (patterns.any (fun q => q p.1.link) = false ∧
         s.blocklist_keywords.any (fun w =>
           inStr (asciiLower w) (asciiLower p.1.title) ||
           inStr (asciiLower w) (asciiLower p.1.description)) = false ∧
         (allowScan s.allowlist_keywords (asciiLower p.1.title)
           (asciiLower p.1.description)).1 = true ∧
         p.2 = (allowScan s.allowlist_keywords (asciiLower p.1.title)
             (asciiLower p.1.description)).2.1 * 2 +
           (allowScan s.allowlist_keywords (asciiLower p.1.title)
             (asciiLower p.1.description)).2.2) := by
  intro articles
  induction articles with
  | nil => intro acc p hp; exact Or.inl hp
  | cons b rest ih =>
    intro acc p hp
    rw [List.foldl_cons] at hp
    rcases ih (filterStep patterns s acc b) p hp with hmem | hgood
    · unfold filterStep at hmem
      by_cases c1 : patterns.any (fun q => q b.link) = true
      · rw [if_pos c1] at hmem; exact Or.inl hmem
      · rw [if_neg c1] at hmem
        by_cases c2 : s.blocklist_keywords.any (fun w =>
            inStr (asciiLower w) (asciiLower b.title) ||
            inStr (asciiLower w) (asciiLower b.description)) = true
        · rw [if_pos c2] at hmem; exact Or.inl hmem
        · rw [if_neg c2] at hmem
          by_cases c3 : (allowScan s.allowlist_keywords (asciiLower b.title)
              (asciiLower b.description)).1 = true
          · rw [if_pos c3] at hmem
            rcases List.mem_append.mp hmem with h' | h'
            · exact Or.inl h'
            · rcases List.mem_singleton.mp h' with rfl
              refine Or.inr ⟨?_, ?_, c3, rfl⟩
              · simpa using c1
              · simpa using c2
          · rw [if_neg c3] at hmem; exact Or.inl hmem
    · exact Or.inr hgood

/-- C4: any article containing a blocklist keyword (case-insensitively, in its
title or description) is rejected by `filter_articles`, irrespective of how
many allowlist keywords also match: the blocklist check runs before the
allowlist scan and skips the article. -/
theorem blocklist_always_wins (patterns : List (Str → Bool)) (s : KeywordSettings)
    (articles : List Article) (a : Article) (n : Nat)
    (hblocked : ∃ w ∈ s.blocklist_keywords,
      inStr (asciiLower w) (asciiLower a.title) = true ∨
      inStr (asciiLower w) (asciiLower a.description) = true) :
    (a, n) ∉ filter_articles patterns s articles := by
  intro hmem
  unfold filter_articles at hmem
  rw [List.mem_insertionSort] at hmem
  rcases mem_filter_fold patterns s articles [] (a, n) hmem with h | h
  · simp at h
  · obtain ⟨w, hw, hmatch⟩ := hblocked
    have : s.blocklist_keywords.any (fun w =>
        inStr (asciiLower w) (asciiLower a.title) ||
        inStr (asciiLower w) (asciiLower a.description)) = true := by
      rw [List.any_eq_true]
      exact ⟨w, hw, by rcases hmatch with h' | h' <;> simp [h']⟩
    rw [h.2.1] at this
    exact Bool.false_ne_true this

/-- Witness for `blocklist_always_wins`: an article matching both the
allowlist keyword "ai" and the blocklist keyword "review". -/
theorem blocklist_always_wins_witness :
    (⟨strOf "AI chip review", strOf "d", strOf "u"⟩, 2) ∉
      filter_articles [] ⟨[strOf "ai"], [strOf "review"]⟩
        [⟨strOf "AI chip review", strOf "d", strOf "u"⟩] := by
  apply blocklist_always_wins
  exact ⟨strOf "review", by simp, Or.inl (by decide)⟩

/-- C5: every article accepted by `filter_articles` carries
`relevance_score = title_score * 2 + desc_score`, which equals the sum over
all allowlist keywords of 2 for a title match else 1 for a description match
(first qualifying field only, per keyword); and an accepted article's score is
never 0, since acceptance requires at least one allowlist match. -/
theorem relevance_score_spec (patterns : List (Str → Bool)) (s : KeywordSettings)
    (articles : List Article) (p : Article × Nat)
    (hp : p ∈ filter_articles patterns s articles) :
    p.2 = specRelevanceScore s.allowlist_keywords p.1 ∧ p.2 ≠ 0 := by
  unfold filter_articles at hp
  rw [List.mem_insertionSort] at hp
  rcases mem_filter_fold patterns s articles [] p hp with h | h
  · simp at h
  · have haux := allowScan_aux (asciiLower p.1.title) (asciiLower p.1.description)
      s.allowlist_keywords (false, 0, 0)
    have hscore : p.2 = specRelevanceScore s.allowlist_keywords p.1 := by
      rw [h.2.2.2]
      unfold allowScan at haux ⊢
      rw [haux.1]
      simp [specRelevanceScore]
    refine ⟨hscore, ?_⟩
    rw [hscore]
    have hany := h.2.2.1
    unfold allowScan at hany
    rw [haux.2] at hany
    simp only [Bool.false_or] at hany
    rw [List.any_eq_true] at hany
    obtain ⟨w, hw, hmatch⟩ := hany
    have hweight : (1 : Nat) ≤ (if inStr (asciiLower w) (asciiLower p.1.title) then 2
        else if inStr (asciiLower w) (asciiLower p.1.description) then 1 else 0) := by
      have hmatch2 : inStr (asciiLower w) (asciiLower p.1.title) = true ∨
          inStr (asciiLower w) (asciiLower p.1.description) = true := by simpa using hmatch
      rcases hmatch2 with h' | h'
      · rw [if_pos h']; omega
      · by_cases h'' : inStr (asciiLower w) (asciiLower p.1.title) = true
        · rw [if_pos h'']; omega
        · rw [if_neg h'', if_pos h']
    have hle : (if inStr (asciiLower w) (asciiLower p.1.title) then 2
        else if inStr (asciiLower w) (asciiLower p.1.description) then 1 else 0)
        ≤ specRelevanceScore s.allowlist_keywords p.1 := by
      apply List.single_le_sum (by intro x _; omega)
      exact List.mem_map_of_mem _ hw
    omega

/-- Witness for `relevance_score_spec`: one accepted article with a title and
a description match (score 3). -/
theorem relevance_score_spec_witness :
    ((⟨strOf "AI news", strOf "about vr", strOf "u"⟩ : Article), 3).2
        = specRelevanceScore [strOf "ai", strOf "vr"] ⟨strOf "AI news", strOf "about vr", strOf "u"⟩ ∧
    ((⟨strOf "AI news", strOf "about vr", strOf "u"⟩ : Article), 3).2 ≠ 0 :=
  relevance_score_spec [] ⟨[strOf "ai", strOf "vr"], []⟩
    [⟨strOf "AI news", strOf "about vr", strOf "u"⟩]
    (⟨strOf "AI news", strOf "about vr", strOf "u"⟩, 3)
    (by rw [filter_articles, List.mem_insertionSort]; decide)

/-! ## Summarizer (`src/app/summarize.py`)

`count_tokens` is modelled by its documented estimation branch
`len(text) // 4` (the `tiktoken` path needs an optional external package; the
spec fixes the token proxy as a deterministic character-based estimate).
Scores (`float` in Python) are modelled in `ℚ`; all constants are exact.
The `int` comparison `count_tokens(t) <= max_tokens - 3` is modelled as
`count_tokens t + 3 ≤ max_tokens`, which is equivalent over ℤ for the
non-negative values involved. -/

/-- `count_tokens` (`summarize.py` lines 17-35), estimation branch. -/
def count_tokens (text : Str) : Nat := text.length / 4

/-- ASCII whitespace, as matched by Python's `\s`, `str.strip()` and
`str.split()`. -/
def isSpace (c : Char) : Bool :=
  c = ' ' || c = '\t' || c = '\n' || c = '\r' || c = '\x0b' || c = '\x0c'

/-- Python `str.strip()`. -/
def stripWs (s : Str) : Str :=
  ((s.dropWhile isSpace).reverse.dropWhile isSpace).reverse

/-- Python `re.sub(r'\s+', ' ', s)`: every maximal whitespace run becomes a
single space. -/
def collapseWs (s : Str) : Str :=
  (s.foldl (fun (acc : Str × Bool) c =>
    if isSpace c then (if acc.2 then acc else (acc.1 ++ [' '], true))
    else (acc.1 ++ [c], false)) ([], false)).1

/-- Python `str.split()` (split on whitespace runs, no empty fragments);
`cur` is the current word reversed. -/
def splitWordsAux : Str → Str → List Str
  | [], cur => if cur = [] then [] else [cur.reverse]
  | c :: rest, cur =>
    if isSpace c then
      (if cur = [] then splitWordsAux rest [] else cur.reverse :: splitWordsAux rest [])
    else splitWordsAux rest (c :: cur)

def splitWords (s : Str) : List Str := splitWordsAux s []

/-- `.`, `!`, `?` — the sentence-ending characters of
`re.split(r'[.!?]+\s+', text)`. -/
def isEnder (c : Char) : Bool := c = '.' || c = '!' || c = '?'

/-- Character-by-character emulation of `re.split(r'[.!?]+\s+', text)`:
`cur` is the current fragment (reversed), `pending` a run of sentence enders
(reversed) not yet known to be followed by whitespace, and `skipping` records
that we are inside the `\s+` of a match.  A run of enders followed by a
whitespace character is a delimiter (the enders and the whole whitespace run
are consumed); a run of enders not followed by whitespace stays in the
fragment. -/
def splitSentGo : Str → Str → Str → Bool → List Str
  | [], cur, pending, skipping =>
      if skipping then [[]] else [(pending ++ cur).reverse]
  | c :: rest, cur, pending, skipping =>
    if skipping then
      (if isSpace c then splitSentGo rest [] [] true
       else if isEnder c then splitSentGo rest [] [c] false
       else splitSentGo rest [c] [] false)
    else
      if isEnder c then splitSentGo rest cur (c :: pending) false
      else if isSpace c then
        (match pending with
         | [] => splitSentGo rest (c :: cur) [] false
         | _ :: _ => cur.reverse :: splitSentGo rest [] [] true)
      else splitSentGo rest (c :: (pending ++ cur)) [] false

/-- `re.split(r'[.!?]+\s+', text)`. -/
def splitSentences (s : Str) : List Str := splitSentGo s [] [] false

/-- `extract_sentences` (`summarize.py` lines 38-64). -/
def extract_sentences (text : Str) : List Str :=
  if text = [] then []
  else
    (splitSentences (collapseWs (stripWs text))).foldl (fun acc s0 =>
      if 20 < (stripWs s0).length ∧ 3 < (splitWords (stripWs s0)).length
      then acc ++ [stripWs s0] else acc) []

/-- The attribution cues of `score_sentence`. -/
def qualityPhrases : List Str :=
  [strOf "according to", strOf "researchers found", strOf "study shows",
   strOf "announced", strOf "revealed"]

/-- Python `s.count(c)` for a single character. -/
def countChar (c : Char) (s : Str) : Nat := (s.filter (· = c)).length

/-- `score_sentence` (`summarize.py` lines 67-122). -/
def score_sentence (keywords : List Str) (sentence : Str) (position : Nat)
    (total_sentences : Nat) : ℚ :=
  let sl := asciiLower sentence
  let keyword_score : ℚ := keywords.foldl (fun acc k =>
    if inStr (asciiLower k) sl then acc + 2 else acc) 0
  let s1 : ℚ := min keyword_score 5
  let s2 : ℚ :=
    if position = 0 then s1 + 1.5
    else if position = total_sentences - 1 ∧ 1 < total_sentences then s1 + 0.5
    else if position < 3 then s1 + 1
    else s1
  let wc := (splitWords sentence).length
  let s3 : ℚ := if 10 ≤ wc ∧ wc ≤ 25 then s2 + 1
    else if 5 ≤ wc ∧ wc ≤ 35 then s2 + 0.5 else s2
  let s4 : ℚ := if qualityPhrases.any (fun p => inStr p sl) then s3 + 1 else s3
  let s5 : ℚ := if 0 < countChar '?' sentence then s4 - 0.5 else s4
  let s6 : ℚ := if 2 < countChar '"' sentence then s5 - 0.3 else s5
  let s7 : ℚ := if wc < 5 then s6 - 1 else if 40 < wc then s6 - 0.5 else s6
  max s7 0

/-- The word-by-word truncation loop (`summarize.py` lines 155-163, 196-203
and 214-221): grow `truncated` while
`count_tokens(test_text) <= max_tokens - 3`, stop at the first word that does
not fit. -/
def truncateWords (max_tokens : Nat) : Str → List Str → Str
  | truncated, [] => truncated
  | truncated, w :: ws =>
    if count_tokens (stripWs (truncated ++ ' ' :: w)) + 3 ≤ max_tokens then
      truncateWords max_tokens (stripWs (truncated ++ ' ' :: w)) ws
    else truncated

/-- The greedy selection loop (`summarize.py` lines 175-187): take sentences
in score order while under `max_sentences` and while the running token total
stays within budget; `break` at the first violation. -/
def selectSentences (max_tokens max_sentences : Nat) :
    List (Str × ℚ × Nat) → List (Str × Nat) → Nat → List (Str × Nat)
  | [], selected, _ => selected
  | (s, _, pos) :: rest, selected, current =>
    if max_sentences ≤ selected.length ∨ max_tokens < current + count_tokens s then
      selected
    else
      selectSentences max_tokens max_sentences rest (selected ++ [(s, pos)])
        (current + count_tokens s)

/-- Python `' '.join(l)`. -/
def joinSpace : List Str → Str
  | [] => []
  | [s] => s
  | s :: s2 :: rest => s ++ ' ' :: joinSpace (s2 :: rest)

/-- `scored_sentences` before sorting (`summarize.py` lines 166-169):
`(sentence, score, original index)` triples. -/
def scoredOf (keywords : List Str) (sentences : List Str) : List (Str × ℚ × Nat) :=
  sentences.enum.map (fun p =>
    (p.2, score_sentence keywords p.2 p.1 sentences.length, p.1))

/-- `scored_sentences.sort(key=lambda x: x[1], reverse=True)` — Python's
stable descending sort. -/
def scoredSortedOf (keywords : List Str) (sentences : List Str) :
    List (Str × ℚ × Nat) :=
  List.insertionSort (fun x y => y.2.1 ≤ x.2.1) (scoredOf keywords sentences)

/-- `selected_sentences` after the greedy loop. -/
def selectedOf (keywords : List Str) (max_tokens max_sentences : Nat)
    (sentences : List Str) : List (Str × Nat) :=
  selectSentences max_tokens max_sentences (scoredSortedOf keywords sentences) [] 0

/-- `' '.join(...)` of the selected sentences re-sorted by original position
(`summarize.py` lines 206-210). -/
def joinSummary (keywords : List Str) (max_tokens max_sentences : Nat)
    (sentences : List Str) : Str :=
  joinSpace ((List.insertionSort (fun x y => x.2 ≤ y.2)
    (selectedOf keywords max_tokens max_sentences sentences)).map Prod.fst)

/-- The multi-sentence branch of `create_summary` (`summarize.py` lines
165-224), taking the extracted sentence list.  The word-truncated result ends
in `"..."`, hence is non-empty, so Python's trailing
`return summary if summary else text[:200] + "..."` falls back only when the
un-truncated join is empty. -/
def multiSummary (keywords : List Str) (text : Str) (max_tokens max_sentences : Nat)
    (sentences : List Str) : Str :=
  if selectedOf keywords max_tokens max_sentences sentences = [] ∧
     scoredSortedOf keywords sentences ≠ [] then
    match scoredSortedOf keywords sentences with
    | [] => []
    | (best, _, _) :: _ =>
      if count_tokens best ≤ max_tokens then best
      else truncateWords max_tokens [] (splitWords best) ++ strOf "..."
  else
    if max_tokens < count_tokens (joinSummary keywords max_tokens max_sentences sentences) then
      truncateWords max_tokens []
        (splitWords (joinSummary keywords max_tokens max_sentences sentences)) ++ strOf "..."
    else
      if joinSummary keywords max_tokens max_sentences sentences = [] then
        text.take 200 ++ strOf "..."
      else joinSummary keywords max_tokens max_sentences sentences

/-- `create_summary` (`summarize.py` lines 125-224). -/
def create_summary (keywords : List Str) (text : Str) (max_tokens : Nat)
    (max_sentences : Nat) : Str :=
  if text = [] then []
  else
    match extract_sentences text with
    | [] => if 200 < text.length then text.take 200 ++ strOf "..." else text
    | [sentence] =>
      if count_tokens sentence ≤ max_tokens then sentence
      else truncateWords max_tokens [] (splitWords sentence) ++ strOf "..."
    | s1 :: s2 :: srest =>
      multiSummary keywords text max_tokens max_sentences (s1 :: s2 :: srest)

/-! ### Budget lemmas for the summarizer -/

theorem truncateWords_budget (mt : Nat) :
    ∀ (ws : List Str) (t : Str), (t = [] ∨ count_tokens t + 3 ≤ mt) →
      (truncateWords mt t ws = [] ∨ count_tokens (truncateWords mt t ws) + 3 ≤ mt) := by
  intro ws
  induction ws with
  | nil => intro t ht; exact ht
  | cons w rest ih =>
    intro t ht
    unfold truncateWords
    by_cases hc : count_tokens (stripWs (t ++ ' ' :: w)) + 3 ≤ mt
    · rw [if_pos hc]
      exact ih _ (Or.inr hc)
    · rw [if_neg hc]
      exact ht

theorem trunc_dots_budget (mt : Nat) (r : Str) (h : r = [] ∨ count_tokens r + 3 ≤ mt) :
    count_tokens (r ++ strOf "...") ≤ mt := by
  rcases h with rfl | h
  · simp [count_tokens, strOf]
  · unfold count_tokens at *
    rw [List.length_append]
    have h3 : (strOf "...").length = 3 := rfl
    rw [h3]
    omega

theorem truncate_result_budget (mt : Nat) (ws : List Str) :
    count_tokens (truncateWords mt [] ws ++ strOf "...") ≤ mt :=
  trunc_dots_budget mt _ (truncateWords_budget mt ws [] (Or.inl rfl))

theorem truncate_result_ne_nil (mt : Nat) (t : Str) (ws : List Str) :
    truncateWords mt t ws ++ strOf "..." ≠ [] := by
  intro h
  have := congrArg List.length h
  rw [List.length_append] at this
  simp [strOf] at this

theorem mem_selectSentences (mt ms : Nat) :
    ∀ (input : List (Str × ℚ × Nat)) (sel : List (Str × Nat)) (cur : Nat) (x : Str × Nat),
      x ∈ selectSentences mt ms input sel cur →
      x ∈ sel ∨ x.1 ∈ input.map (fun t => t.1) := by
  intro input
  induction input with
  | nil => intro sel cur x hx; exact Or.inl hx
  | cons t rest ih =>
    intro sel cur x hx
    obtain ⟨s, sc, pos⟩ := t
    unfold selectSentences at hx
    by_cases hc : ms ≤ sel.length ∨ mt < cur + count_tokens s
    · rw [if_pos hc] at hx
      exact Or.inl hx
    · rw [if_neg hc] at hx
      rcases ih _ _ x hx with h | h
      · rcases List.mem_append.mp h with h' | h'
        · exact Or.inl h'
        · rcases List.mem_singleton.mp h' with rfl
          right; simp
      · right
        simp only [List.map_cons, List.mem_cons]
        exact Or.inr h
    
theorem joinSpace_cons_ne_nil (s : Str) (rest : List Str) (hs : s ≠ []) :
    joinSpace (s :: rest) ≠ [] := by
  cases rest with
  | nil => exact hs
  | cons s2 rs =>
    unfold joinSpace
    intro h
    have := congrArg List.length h
    rw [List.length_append] at this
    simp at this

theorem foldl_keep_filter (P : Str → Prop) [DecidablePred P] :
    ∀ (l : List Str) (acc : List Str),
      l.foldl (fun acc s0 => if P (stripWs s0) then acc ++ [stripWs s0] else acc) acc
        = acc ++ (l.map stripWs).filter (fun s => decide (P s)) := by
  intro l
  induction l with
  | nil => intro acc; simp
  | cons s0 rest ih =>
    intro acc
    rw [List.foldl_cons]
    by_cases h : P (stripWs s0)
    · rw [if_pos h, ih]
      simp [List.filter_cons, h]
    · rw [if_neg h, ih]
      simp [List.filter_cons, h]

/-- C9 (amended): `extract_sentences` splits the (whitespace-normalised) text
on runs of `.!?` followed by whitespace and keeps exactly the trimmed
fragments that are *strictly longer than 20* characters (not "at least 20")
and have strictly more than 3 words, in original order. -/
theorem extract_sentences_is_filter (text : Str) :
    extract_sentences text =
      ((splitSentences (collapseWs (stripWs text))).map stripWs).filter
        (fun s => decide (20 < s.length ∧ 3 < (splitWords s).length)) := by
  unfold extract_sentences
  by_cases h : text = []
  · subst h
    rfl
  · rw [if_neg h]
    rw [foldl_keep_filter (fun s => 20 < s.length ∧ 3 < (splitWords s).length)]
    simp

/-- C9 (counterexample): the fragment `"abcde bcde cdef defg"` has exactly 20
characters and 4 words — by the claim it should be kept — but the code's
`len(sentence) > 20` check discards it. -/
theorem extract_sentences_20char_counterexample :
    (strOf "abcde bcde cdef defg").length = 20 ∧
    3 < (splitWords (strOf "abcde bcde cdef defg")).length ∧
    extract_sentences (strOf "abcde bcde cdef defg") = [] := by decide

theorem extract_sentences_long (text : Str) :
    ∀ s ∈ extract_sentences text, 20 < s.length := by
  intro s hs
  rw [extract_sentences_is_filter] at hs
  have := List.of_mem_filter hs
  simp only [decide_eq_true_eq] at this
  exact this.1

theorem scoredOf_map_fst (keywords : List Str) (sentences : List Str) :
    (scoredOf keywords sentences).map (fun t => t.1) = sentences := by
  unfold scoredOf
  rw [List.map_map]
  exact List.enum_map_snd sentences

/-- Budget bound for the multi-sentence branch. -/
theorem multiSummary_budget (keywords : List Str) (text : Str) (mt ms : Nat)
    (sentences : List Str) (hne : sentences ≠ [])
    (hlong : ∀ s ∈ sentences, s ≠ []) :
    count_tokens (multiSummary keywords text mt ms sentences) ≤ mt := by
  unfold multiSummary
  by_cases hc : selectedOf keywords mt ms sentences = [] ∧
      scoredSortedOf keywords sentences ≠ []
  · rw [if_pos hc]
    rcases h : scoredSortedOf keywords sentences with _ | ⟨⟨best, sc, pos⟩, rest⟩
    · simp [count_tokens]
    · dsimp only
      by_cases hb : count_tokens best ≤ mt
      · rw [if_pos hb]; exact hb
      · rw [if_neg hb]; exact truncate_result_budget mt _
  · rw [if_neg hc]
    by_cases hover : mt < count_tokens (joinSummary keywords mt ms sentences)
    · rw [if_pos hover]
      exact truncate_result_budget mt _
    · rw [if_neg hover]
      have hjoin_ne : joinSummary keywords mt ms sentences ≠ [] := by
        have hscored_ne : scoredSortedOf keywords sentences ≠ [] := by
          unfold scoredSortedOf
          intro h
          have hperm := List.perm_insertionSort
            (fun (x y : Str × ℚ × Nat) => y.2.1 ≤ x.2.1) (scoredOf keywords sentences)
          rw [h] at hperm
          have : scoredOf keywords sentences = [] := hperm.symm.eq_nil
          have := congrArg (List.map (fun t => t.1)) this
          rw [scoredOf_map_fst] at this
          exact hne this
        have hsel_ne : selectedOf keywords mt ms sentences ≠ [] := by
          intro h
          exact hc ⟨h, hscored_ne⟩
        unfold joinSummary
        rcases hord : List.insertionSort (fun (x y : Str × Nat) => x.2 ≤ y.2)
            (selectedOf keywords mt ms sentences) with _ | ⟨x, xs⟩
        · exfalso
          have hperm := List.perm_insertionSort
            (fun (x y : Str × Nat) => x.2 ≤ y.2) (selectedOf keywords mt ms sentences)
          rw [hord] at hperm
          exact hsel_ne hperm.symm.eq_nil
        · rw [List.map_cons]
          apply joinSpace_cons_ne_nil
          have hx_mem : x ∈ List.insertionSort (fun (x y : Str × Nat) => x.2 ≤ y.2)
              (selectedOf keywords mt ms sentences) := by rw [hord]; simp
          rw [List.mem_insertionSort] at hx_mem
          have := mem_selectSentences mt ms (scoredSortedOf keywords sentences) [] 0 x hx_mem
          rcases this with h | h
          · simp at h
          · have : x.1 ∈ (scoredOf keywords sentences).map (fun t => t.1) := by
              have hperm := List.perm_insertionSort
                (fun (x y : Str × ℚ × Nat) => y.2.1 ≤ x.2.1) (scoredOf keywords sentences)
              have := (hperm.map (fun t => t.1)).mem_iff.mp h
              exact this
            rw [scoredOf_map_fst] at this
            exact hlong x.1 this
      rw [if_neg hjoin_ne]
      omega

/-- C2 (amended): whenever at least one sentence survives extraction, the
summary's estimated token count never exceeds the requested budget — in the
single-sentence branch, the greedy multi-sentence branch (including its final
re-check and word-by-word truncation) and the none-fit fallback.  The
zero-surviving-sentences fallback ignores the budget entirely, returning the
first 200 characters of the raw text (plus ellipsis), which is only bounded
by 50 estimated tokens. -/
theorem summary_budget_amended (keywords : List Str) (text : Str) (mt ms : Nat) :
    (extract_sentences text ≠ [] → count_tokens (create_summary keywords text mt ms) ≤ mt) ∧
    (extract_sentences text = [] → count_tokens (create_summary keywords text mt ms) ≤ 50) := by
  unfold create_summary
  by_cases htext : text = []
  · rw [if_pos htext]
    subst htext
    constructor
    · intro h
      exact absurd rfl h
    · intro _
      simp [count_tokens]
  · rw [if_neg htext]
    rcases hext : extract_sentences text with _ | ⟨s1, rest⟩
    · dsimp only
      constructor
      · intro h; exact absurd rfl h
      · intro _
        by_cases hlen : 200 < text.length
        · rw [if_pos hlen]
          unfold count_tokens
          rw [List.length_append, List.length_take]
          have h3 : (strOf "...").length = 3 := rfl
          rw [h3]
          omega
        · rw [if_neg hlen]
          unfold count_tokens
          omega
    · rcases rest with _ | ⟨s2, srest⟩
      · dsimp only
        constructor
        · intro _
          by_cases hb : count_tokens s1 ≤ mt
          · rw [if_pos hb]; exact hb
          · rw [if_neg hb]; exact truncate_result_budget mt _
        · intro h; exact absurd h (by simp)
      · dsimp only
        constructor
        · intro _
          apply multiSummary_budget keywords text mt ms (s1 :: s2 :: srest) (by simp)
          intro s hs
          have : 20 < s.length := by
            apply extract_sentences_long text
            rw [hext]
            exact hs
          intro hnil
          rw [hnil] at this
          simp at this
        · intro h; exact absurd h (by simp)

/-- Witness for `summary_budget_amended`: a one-sentence text within budget. -/
theorem summary_budget_amended_witness :
    count_tokens (create_summary []
      (strOf "Just one single slightly longer sentence") 150 3) ≤ 150 :=
  (summary_budget_amended [] (strOf "Just one single slightly longer sentence") 150 3).1
    (by decide)

/-- C2 (counterexample): a 30-character single-word text yields no extracted
sentence (one word ≤ 3 words), so `create_summary` returns the raw text —
7 estimated tokens — even with a budget of 1 token. -/
theorem summary_budget_counterexample :
    count_tokens (create_summary [] (List.replicate 30 'a') 1 3) = 7 ∧
    ¬ count_tokens (create_summary [] (List.replicate 30 'a') 1 3) ≤ 1 := by decide

/-! ## CPython `urllib.parse` model (3.11)

Only the pieces `url_cleaner.py` calls: `urlparse` / `urlunparse` (with the
WHATWG pre-cleaning, the scheme/netloc/query/fragment/params splits,
`uses_netloc` / `uses_params`), `parse_qs(..., keep_blank_values=True)`,
`urlencode(..., doseq=True)` (`quote_plus`) and `unquote`.  Modelled choices:

* `urlsplit`'s bracket-host handling: CPython raises `ValueError` for
  unbalanced `[`/`]` in the netloc and validates bracketed hosts as IP
  literals (`_check_bracketed_host`, not modelled — it needs a full IP
  parser); the model treats *any* bracket in the netloc as the exception
  path.  The `ValueError` is caught by each caller in `url_cleaner.py`
  (`clean_url` returns the URL unchanged, the predicate helpers return
  `False`), so `urlparseE` returns `Option`.  The NFKC check for non-ASCII
  netlocs (`_checknetloc`) is not modelled.
* Percent-decoding decodes byte runs as UTF-8 with U+FFFD replacement
  (maximal-subpart policy), as `bytes.decode('utf-8', 'replace')` does. -/

/-- The split components of a URL (`ParseResult`). -/
structure UrlParts where
  scheme : Str
  netloc : Str
  path : Str
  params : Str
  query : Str
  fragment : Str
deriving DecidableEq

/-- CPython `scheme_chars`. -/
def isSchemeChar (c : Char) : Bool :=
  c.isAlpha || c.isDigit || c = '+' || c = '-' || c = '.'

/-- WHATWG pre-clean in `urlsplit`: strip leading C0 controls and spaces,
then remove every tab, CR and LF. -/
def preclean (url : Str) : Str :=
  (url.dropWhile (fun c => c.val ≤ 0x20)).filter
    (fun c => ¬(c = '\t' ∨ c = '\r' ∨ c = '\n'))

/-- Scheme extraction of `urlsplit`: the part before the first `:` if it is a
valid scheme (first char an ASCII letter, all chars in `scheme_chars`),
lowercased; the returned second component is the remainder. -/
def splitScheme (url : Str) : Str × Str :=
  match url.findIdx? (· = ':') with
  | none => ([], url)
  | some i =>
    if 0 < i ∧ (url.take i).all isSchemeChar ∧ (url.headD ' ').isAlpha then
      (asciiLower (url.take i), url.drop (i + 1))
    else ([], url)

/-- `_splitnetloc`: after a leading `//`, the netloc extends to the first of
`/`, `?`, `#`. -/
def isNetlocEnd (c : Char) : Bool := c = '/' || c = '?' || c = '#'

def splitNetloc (url : Str) : Str × Str :=
  if url.take 2 = ['/', '/'] then
    ((url.drop 2).takeWhile (fun c => ¬ isNetlocEnd c),
     (url.drop 2).dropWhile (fun c => ¬ isNetlocEnd c))
  else ([], url)

/-- `s.split(c, 1)`: the part before the first occurrence of `c`, and
(`some`) the part after it. -/
def splitOnFirst (c : Char) (s : Str) : Str × Option Str :=
  match s.findIdx? (· = c) with
  | none => (s, none)
  | some i => (s.take i, some (s.drop (i + 1)))

/-- `rfind`-style index of the last occurrence. -/
def rlastIdx (c : Char) (s : Str) : Nat :=
  match (s.reverse).findIdx? (· = c) with
  | none => 0
  | some j => s.length - 1 - j

/-- `_splitparams`: split path params at the first `;` after the last `/`
(or the first `;` overall when there is no `/`).  Only called when `;` is in
the path (guarded by the caller, as in `urlparse`). -/
def splitParams (url : Str) : Str × Str :=
  if '/' ∈ url then
    match ((url.drop (rlastIdx '/' url)).findIdx? (· = ';')).map (· + rlastIdx '/' url) with
    | none => (url, [])
    | some i => (url.take i, url.drop (i + 1))
  else
    match url.findIdx? (· = ';') with
    | none => (url.take (url.length - 1), url)
    | some i => (url.take i, url.drop (i + 1))

/-- `uses_params` (schemes whose path params are split off). -/
def uses_params : List Str :=
  [[], strOf "ftp", strOf "hdl", strOf "prospero", strOf "http", strOf "imap",
   strOf "https", strOf "shttp", strOf "rtsp", strOf "rtsps", strOf "rtspu",
   strOf "sip", strOf "sips", strOf "mms", strOf "sftp", strOf "tel"]

/-- `uses_netloc` (schemes that get `//` in `urlunsplit`). -/
def uses_netloc : List Str :=
  [[], strOf "ftp", strOf "http", strOf "gopher", strOf "nntp", strOf "telnet",
   strOf "imap", strOf "wais", strOf "file", strOf "mms", strOf "https",
   strOf "shttp", strOf "snews", strOf "prospero", strOf "rtsp", strOf "rtsps",
   strOf "rtspu", strOf "rsync", strOf "svn", strOf "svn+ssh", strOf "sftp",
   strOf "nfs", strOf "git", strOf "git+ssh", strOf "ws", strOf "wss"]

/-- `urlparse` without the netloc validation: pre-clean, split scheme, netloc,
fragment, query, and (for `uses_params` schemes with `;` in the path) the
params. -/
def urlparseRaw (url0 : Str) : UrlParts :=
  match splitScheme (preclean url0) with
  | (scheme, rest1) =>
    match splitNetloc rest1 with
    | (netloc, rest2) =>
      match splitOnFirst '#' rest2 with
      | (rest3, fragment) =>
        match splitOnFirst '?' rest3 with
        | (rest4, query) =>
          if scheme ∈ uses_params ∧ ';' ∈ rest4 then
            match splitParams rest4 with
            | (path, params) =>
              ⟨scheme, netloc, path, params, query.getD [], fragment.getD []⟩
          else ⟨scheme, netloc, rest4, [], query.getD [], fragment.getD []⟩

/-- `urlparse` with the bracket `ValueError` modelled as `none` (see the
section comment). -/
def urlparseE (url : Str) : Option UrlParts :=
  if '[' ∈ (urlparseRaw url).netloc ∨ ']' ∈ (urlparseRaw url).netloc then none
  else some (urlparseRaw url)

/-- `urlunparse` = params recombination + `urlunsplit`. -/
def urlunparse (p : UrlParts) : Str :=
  (fun url2 =>
    (fun url3 => if p.fragment ≠ [] then url3 ++ '#' :: p.fragment else url3)
    (if p.query ≠ [] then url2 ++ '?' :: p.query else url2))
  ((fun url0 =>
    (fun url1 => if p.scheme ≠ [] then p.scheme ++ ':' :: url1 else url1)
    (if p.netloc ≠ [] ∨ (p.scheme ≠ [] ∧ p.scheme ∈ uses_netloc ∧ url0.take 2 ≠ ['/', '/']) then
      '/' :: '/' :: (p.netloc ++
        (if url0 ≠ [] ∧ url0.take 1 ≠ ['/'] then '/' :: url0 else url0))
    else url0))
  (if p.params ≠ [] then p.path ++ ';' :: p.params else p.path))

/-! ### Percent-encoding -/

def isHexDigit (c : Char) : Bool :=
  c.isDigit || ('a' ≤ c ∧ c ≤ 'f') || ('A' ≤ c ∧ c ≤ 'F')

def hexVal (c : Char) : Nat :=
  if c.isDigit then c.toNat - '0'.toNat
  else if 'a' ≤ c ∧ c ≤ 'f' then c.toNat - 'a'.toNat + 10
  else c.toNat - 'A'.toNat + 10

def hexDigitUpper (n : Nat) : Char :=
  if n < 10 then Char.ofNat ('0'.toNat + n) else Char.ofNat ('A'.toNat + n - 10)

/-- UTF-8 encoding of one scalar value (as `str.encode('utf-8')` does per
character). -/
def utf8Encode (c : Char) : List Nat :=
  if c.toNat < 0x80 then [c.toNat]
  else if c.toNat < 0x800 then
    [0xC0 + c.toNat / 0x40, 0x80 + c.toNat % 0x40]
  else if c.toNat < 0x10000 then
    [0xE0 + c.toNat / 0x1000, 0x80 + c.toNat / 0x40 % 0x40, 0x80 + c.toNat % 0x40]
  else
    [0xF0 + c.toNat / 0x40000, 0x80 + c.toNat / 0x1000 % 0x40,
     0x80 + c.toNat / 0x40 % 0x40, 0x80 + c.toNat % 0x40]

def replChar : Char := Char.ofNat 0xFFFD

def isCont (b : Nat) : Bool := 0x80 ≤ b ∧ b ≤ 0xBF

/-- `bytes.decode('utf-8', errors='replace')` with the maximal-subpart
replacement policy CPython implements. -/
def utf8DecodeReplace : List Nat → Str
  | [] => []
  | b :: rest =>
    if b < 0x80 then Char.ofNat b :: utf8DecodeReplace rest
    else if 0xC2 ≤ b ∧ b ≤ 0xDF then
      match rest with
      | [] => [replChar]
      | b2 :: rest2 =>
        if isCont b2 then
          Char.ofNat ((b - 0xC0) * 0x40 + (b2 - 0x80)) :: utf8DecodeReplace rest2
        else replChar :: utf8DecodeReplace (b2 :: rest2)
    else if 0xE0 ≤ b ∧ b ≤ 0xEF then
      match rest with
      | [] => [replChar]
      | b2 :: rest2 =>
        if (b = 0xE0 ∧ 0xA0 ≤ b2 ∧ b2 ≤ 0xBF) ∨
           (0xE1 ≤ b ∧ b ≤ 0xEC ∧ isCont b2) ∨
           (b = 0xED ∧ 0x80 ≤ b2 ∧ b2 ≤ 0x9F) ∨
           (0xEE ≤ b ∧ b ≤ 0xEF ∧ isCont b2) then
          match rest2 with
          | [] => [replChar]
          | b3 :: rest3 =>
            if isCont b3 then
              Char.ofNat ((b - 0xE0) * 0x1000 + (b2 - 0x80) * 0x40 + (b3 - 0x80))
                :: utf8DecodeReplace rest3
            else replChar :: utf8DecodeReplace (b3 :: rest3)
        else replChar :: utf8DecodeReplace (b2 :: rest2)
    else if 0xF0 ≤ b ∧ b ≤ 0xF4 then
      match rest with
      | [] => [replChar]
      | b2 :: rest2 =>
        if (b = 0xF0 ∧ 0x90 ≤ b2 ∧ b2 ≤ 0xBF) ∨
           (0xF1 ≤ b ∧ b ≤ 0xF3 ∧ isCont b2) ∨
           (b = 0xF4 ∧ 0x80 ≤ b2 ∧ b2 ≤ 0x8F) then
          match rest2 with
          | [] => [replChar]
          | b3 :: rest3 =>
            if isCont b3 then
              match rest3 with
              | [] => [replChar]
              | b4 :: rest4 =>
                if isCont b4 then
                  Char.ofNat ((b - 0xF0) * 0x40000 + (b2 - 0x80) * 0x1000 +
                    (b3 - 0x80) * 0x40 + (b4 - 0x80)) :: utf8DecodeReplace rest4
                else replChar :: utf8DecodeReplace (b4 :: rest4)
            else replChar :: utf8DecodeReplace (b3 :: rest3)
        else replChar :: utf8DecodeReplace (b2 :: rest2)
    else replChar :: utf8DecodeReplace rest

/-- CPython `_ALWAYS_SAFE`: ASCII letters, digits, `_.-~`. -/
def isAlwaysSafe (c : Char) : Bool :=
  c.isAlpha || c.isDigit || c = '_' || c = '.' || c = '-' || c = '~'

/-- `quote_plus(s, safe='')` on one character: safe chars unchanged, space to
`+`, everything else percent-encoded bytewise (UTF-8, uppercase hex). -/
def quotePlusChar (c : Char) : Str :=
  if isAlwaysSafe c then [c]
  else if c = ' ' then ['+']
  else (utf8Encode c).flatMap (fun b => ['%', hexDigitUpper (b / 16), hexDigitUpper (b % 16)])

def quotePlus (s : Str) : Str := s.flatMap quotePlusChar

/-- Tokenise for `unquote`: each `%XY` (valid hex) becomes a byte, everything
else stays a character. -/
def pctTokens : Str → List (Char ⊕ Nat)
  | [] => []
  | '%' :: h1 :: h2 :: rest2 =>
    if isHexDigit h1 ∧ isHexDigit h2 then
      Sum.inr (hexVal h1 * 16 + hexVal h2) :: pctTokens rest2
    else Sum.inl '%' :: pctTokens (h1 :: h2 :: rest2)
  | c :: rest => Sum.inl c :: pctTokens rest

/-- Decode token runs: maximal byte runs are UTF-8-decoded together
(`unquote` collects consecutive `%XY` bytes and decodes them as one
sequence); `pending` holds the current run reversed. -/
def renderTokens : List (Char ⊕ Nat) → List Nat → Str
  | [], pending => utf8DecodeReplace pending.reverse
  | Sum.inl c :: rest, pending =>
    utf8DecodeReplace pending.reverse ++ c :: renderTokens rest []
  | Sum.inr b :: rest, pending => renderTokens rest (b :: pending)

/-- `unquote(s, errors='replace')`. -/
def unquote (s : Str) : Str := renderTokens (pctTokens s) []

/-- `unquote_plus` via `parse_qsl`'s `.replace('+', ' ')` then `unquote`. -/
def unquotePlus (s : Str) : Str :=
  unquote (s.map (fun c => if c = '+' then ' ' else c))

/-! ### Query-string parsing and encoding -/

/-- `s.split(sep)` (all occurrences). -/
def splitAllOn (sep : Char) : Str → List Str
  | [] => [[]]
  | c :: rest =>
    if c = sep then [] :: splitAllOn sep rest
    else
      match splitAllOn sep rest with
      | [] => [[c]]
      | f :: fs => (c :: f) :: fs

/-- `parse_qsl(qs, keep_blank_values=True)`: split on `&`, skip empty fields,
split each field on the first `=` (no `=` means empty value), `+` to space
then percent-decode names and values. -/
def parse_qsl_kb (qs : Str) : List (Str × Str) :=
  if qs = [] then []
  else (splitAllOn '&' qs).filterMap (fun nv =>
    if nv = [] then none
    else
      match splitOnFirst '=' nv with
      | (n, some v) => some (unquotePlus n, unquotePlus v)
      | (n, none) => some (unquotePlus n, []))

/-- `parse_qs` grouping: per-name value lists, names in first-occurrence
order (Python dict insertion order). -/
def addPair (acc : List (Str × List Str)) (p : Str × Str) : List (Str × List Str) :=
  if acc.any (fun q => q.1 = p.1) then
    acc.map (fun q => if q.1 = p.1 then (q.1, q.2 ++ [p.2]) else q)
  else acc ++ [(p.1, [p.2])]

def parse_qs_kb (qs : Str) : List (Str × List Str) :=
  (parse_qsl_kb qs).foldl addPair []

/-- `'&'.join`. -/
def joinAmp : List Str → Str
  | [] => []
  | [s] => s
  | s :: s2 :: rest => s ++ '&' :: joinAmp (s2 :: rest)

/-- `urlencode(mapping, doseq=True)` for a str→list-of-str mapping. -/
def urlencode_seq (groups : List (Str × List Str)) : Str :=
  joinAmp ((groups.map (fun g =>
    g.2.map (fun v => quotePlus g.1 ++ '=' :: quotePlus v))).flatten)

/-! ## `src/app/url_cleaner.py` -/

/-- `TRACKING_PARAMS` (`url_cleaner.py` lines 13-46). -/
def TRACKING_PARAMS : List Str :=
  [strOf "utm_source", strOf "utm_medium", strOf "utm_campaign", strOf "utm_term",
   strOf "utm_content", strOf "utm_id", strOf "utm_source_platform",
   strOf "utm_creative_format", strOf "utm_marketing_tactic",
   strOf "fbclid", strOf "fb_action_ids", strOf "fb_action_types", strOf "fb_ref",
   strOf "fb_source",
   strOf "gclid", strOf "gclsrc", strOf "gbraid", strOf "wbraid", strOf "dclid",
   strOf "msclkid",
   strOf "mc_cid", strOf "mc_eid", strOf "ml_subscriber", strOf "ml_subscriber_hash",
   strOf "aff", strOf "affiliate", strOf "aff_id", strOf "affiliate_id",
   strOf "partner", strOf "partner_id",
   strOf "ref", strOf "ref_src", strOf "referrer", strOf "source", strOf "campaign",
   strOf "igshid", strOf "igsh", strOf "si", strOf "share", strOf "shared",
   strOf "ver", strOf "version", strOf "v", strOf "_ga", strOf "_gl",
   strOf "_hsenc", strOf "_hsmi",
   strOf "feature", strOf "app", strOf "at_medium", strOf "at_campaign",
   strOf "at_custom1", strOf "at_custom2",
   strOf "iesrc", strOf "mkt_tok", strOf "trk", strOf "trkCampaign",
   strOf "sc_campaign", strOf "sc_channel",
   strOf "newsletter", strOf "email", strOf "em", strOf "subscriber", strOf "sub_id",
   strOf "hash", strOf "track", strOf "tracking", strOf "tid", strOf "cid", strOf "eid"]

/-- `settings.blocked_domains` defaults (`config.py` lines 89-114). -/
def blocked_domains : List Str :=
  [strOf "accounts.google.com", strOf "login.microsoftonline.com", strOf "auth0.com",
   strOf "okta.com", strOf "id.atlassian.com", strOf "github.com/login",
   strOf "gitlab.com/users/sign_in",
   strOf "subscribe.", strOf "paywall.", strOf "premium.", strOf "plus.",
   strOf "pro.", strOf "upgrade.",
   strOf "google-analytics.com", strOf "googletagmanager.com", strOf "facebook.com/tr",
   strOf "doubleclick.net", strOf "googlesyndication.com", strOf "amazon-adsystem.com",
   strOf "adsystem.amazon.com", strOf "googlepubads.g.doubleclick.net",
   strOf "ct.sendgrid.net", strOf "sendgrid.net", strOf "mailchi.mp",
   strOf "l.facebook.com", strOf "l.messenger.com",
   strOf "t.co", strOf "lnkd.in", strOf "mail.google.com", strOf "click.email.*",
   strOf "links.mail.*", strOf "go.pardot.com", strOf "urldefense.com",
   strOf "mandrillapp.com", strOf "click.icptrack.com",
   strOf "sparkloop.app", strOf "beehiiv.com", strOf "verge.link",
   strOf "bit.ly", strOf "tinyurl.com", strOf "goo.gl", strOf "ow.ly",
   strOf "short.link"]

/-- `settings.banned_path_keywords` defaults (`config.py` lines 116-145). -/
def banned_path_keywords : List Str :=
  [strOf "/login", strOf "/signin", strOf "/sign-in", strOf "/register",
   strOf "/signup", strOf "/sign-up",
   strOf "/auth", strOf "/oauth", strOf "/sso", strOf "/authenticate",
   strOf "/account", strOf "/profile", strOf "/dashboard", strOf "/settings",
   strOf "/subscribe", strOf "/subscription", strOf "/premium", strOf "/upgrade",
   strOf "/pricing",
   strOf "/checkout", strOf "/payment", strOf "/billing", strOf "/paywall",
   strOf "/plus", strOf "/pro", strOf "/member", strOf "/membership",
   strOf "/track", strOf "/analytics", strOf "/pixel", strOf "/beacon",
   strOf "/metrics",
   strOf "/utm_", strOf "?utm_", strOf "&utm_", strOf "/click", strOf "/redirect",
   strOf "/admin", strOf "/wp-admin", strOf "/administrator", strOf "/control",
   strOf "/api/", strOf "/webhook", strOf "/callback", strOf "/ping", strOf "/health",
   strOf "/unsubscribe", strOf "/newsletter", strOf "/email", strOf "/mailchimp",
   strOf "/campaign", strOf "/drip", strOf "/convertkit", strOf "/mailgun",
   strOf "/ss/c", strOf "/list-manage", strOf "/r/?u=", strOf "/tracking",
   strOf "/ref", strOf "mc_cid", strOf "mc_eid"]

/-- The shortener domains of `is_shortened_url` (`url_cleaner.py` lines
210-215). -/
def shortening_domains : List Str :=
  [strOf "bit.ly", strOf "tinyurl.com", strOf "short.link", strOf "ow.ly",
   strOf "t.co", strOf "goo.gl",
   strOf "buff.ly", strOf "amzn.to", strOf "youtu.be", strOf "l.facebook.com",
   strOf "l.messenger.com",
   strOf "lnkd.in", strOf "is.gd", strOf "j.mp", strOf "po.st", strOf "bc.vc",
   strOf "smarturl.it",
   strOf "tiny.cc", strOf "cli.re", strOf "go2l.ink", strOf "cutt.ly",
   strOf "rb.gy", strOf "short.io"]

/-- `is_blocked_domain` (`url_cleaner.py` lines 48-59): substring test of each
blocked entry against the lowercased netloc; a parse error yields `False`. -/
def is_blocked_domain (blocked : List Str) (url : Str) : Bool :=
  match urlparseE url with
  | none => false
  | some p => blocked.any (fun b => inStr b (asciiLower p.netloc))

/-- `has_banned_path_keywords` (`url_cleaner.py` lines 61-72): substring test
of each banned entry against the lowercased *path only* (the query is never
inspected); a parse error yields `False`. -/
def has_banned_path_keywords (banned : List Str) (url : Str) : Bool :=
  match urlparseE url with
  | none => false
  | some p => banned.any (fun k => inStr k (asciiLower p.path))

/-- The query-cleaning core of `clean_url`: `parse_qs(query,
keep_blank_values=True)`, drop groups whose lowercased name is in
`TRACKING_PARAMS`, re-encode with `urlencode(..., doseq=True)` (empty dict
encodes to the empty string). -/
def cleanQuery (q : Str) : Str :=
  if (parse_qs_kb q).filter
      (fun g => decide (asciiLower g.1 ∉ TRACKING_PARAMS)) = [] then []
  else urlencode_seq ((parse_qs_kb q).filter
    (fun g => decide (asciiLower g.1 ∉ TRACKING_PARAMS)))

/-- `clean_url` (`url_cleaner.py` lines 74-93): rebuild the URL with the
cleaned query; any `urlparse` error is caught and the URL returned
unchanged. -/
def clean_url (url : Str) : Str :=
  match urlparseE url with
  | none => url
  | some p => urlunparse { p with query := cleanQuery p.query }

/-- `is_shortened_url` (`url_cleaner.py` lines 208-221). -/
def is_shortened_url (url : Str) : Bool :=
  match urlparseE url with
  | none => false
  | some p => shortening_domains.any (fun d => inStr d (asciiLower p.netloc))

/-- `clean_and_resolve_url` (`url_cleaner.py` lines 223-259).  The network
probe `follow_redirects_and_validate` is modelled by the `resolve` parameter
(`none` = network failure or non-HTML content). -/
def clean_and_resolve_url (resolve : Str → Option Str) (blocked banned : List Str)
    (url : Str) : Option Str :=
  if is_blocked_domain blocked url then none
  else if has_banned_path_keywords banned url then none
  else
    if is_shortened_url (clean_url url) then
      match resolve (clean_url url) with
      | none => none
      | some final =>
        if is_blocked_domain blocked final || has_banned_path_keywords banned final then
          none
        else some (clean_url final)
    else some (clean_url url)

/-- C3: the pre-network block check never inspects the query string.
`"mc_cid"` is an entry of `banned_path_keywords` (as are `"?utm_"` and
`"&utm_"`, which can *only* ever occur in a query, never in a parsed path),
the query of `https://example.com/article?mc_cid=5` contains it, yet
`has_banned_path_keywords` — which tests `parsed.path` only — returns
`False` and `clean_and_resolve_url` accepts the URL instead of rejecting
it. -/
theorem banned_query_keyword_not_rejected :
    strOf "mc_cid" ∈ banned_path_keywords ∧
    inStr (strOf "mc_cid")
      ((urlparseRaw (strOf "https://example.com/article?mc_cid=5")).query) = true ∧
    has_banned_path_keywords banned_path_keywords
      (strOf "https://example.com/article?mc_cid=5") = false ∧
    clean_and_resolve_url (fun _ => none) blocked_domains banned_path_keywords
      (strOf "https://example.com/article?mc_cid=5")
      = some (strOf "https://example.com/article") := by decide

/-- C8 (counterexample): `clean_url` — and with it the whole
non-network path of `clean_and_resolve_url` — is *not* idempotent: each pass
over a scheme-relative URL with an empty netloc and a `//`-prefixed path
strips one level of `//`.  The URL "resolves successfully" (the pipeline
returns a value), yet normalising twice differs from normalising once.
Moreover the pipeline is not even stable on its own successful output:
`http:login` is accepted and rewritten to `http:///login` (unparsing inserts
`//` before the path of a `uses_netloc` scheme), and on the second pass the
new `/login` path trips the banned-path-keyword check, so the pipeline
rejects its own previous output. -/
theorem clean_url_not_idempotent_counterexample :
    clean_url (strOf "/////x?a=1") = strOf "///x?a=1" ∧
    clean_url (clean_url (strOf "/////x?a=1")) = strOf "/x?a=1" ∧
    clean_url (clean_url (strOf "/////x?a=1")) ≠ clean_url (strOf "/////x?a=1") ∧
    clean_and_resolve_url (fun _ => none) blocked_domains banned_path_keywords
        (strOf "/////x?a=1") = some (strOf "///x?a=1") ∧
    clean_and_resolve_url (fun _ => none) blocked_domains banned_path_keywords
        (strOf "///x?a=1") = some (strOf "/x?a=1") ∧
    clean_and_resolve_url (fun _ => none) blocked_domains banned_path_keywords
        (strOf "http:login") = some (strOf "http:///login") ∧
    clean_and_resolve_url (fun _ => none) blocked_domains banned_path_keywords
        (strOf "http:///login") = none := by decide

/-- C7 (counterexample): `parse_qs` groups duplicate parameter names, so
interleaved duplicate keys are reordered: `a=1&b=2&a=3` becomes
`a=1&a=3&b=2` — the surviving parameters are *not* preserved in their
original relative order. -/
theorem tracking_strip_order_counterexample :
    clean_url (strOf "https://e.com/p?a=1&b=2&a=3")
      = strOf "https://e.com/p?a=1&a=3&b=2" ∧
    parse_qsl_kb ((urlparseRaw (clean_url (strOf "https://e.com/p?a=1&b=2&a=3"))).query)
      = [(strOf "a", strOf "1"), (strOf "a", strOf "3"), (strOf "b", strOf "2")] ∧
    (parse_qsl_kb ((urlparseRaw (strOf "https://e.com/p?a=1&b=2&a=3")).query)).filter
      (fun pr => decide (asciiLower pr.1 ∉ TRACKING_PARAMS))
      = [(strOf "a", strOf "1"), (strOf "b", strOf "2"), (strOf "a", strOf "3")] ∧
    parse_qsl_kb ((urlparseRaw (clean_url (strOf "https://e.com/p?a=1&b=2&a=3"))).query)
      ≠ (parse_qsl_kb ((urlparseRaw (strOf "https://e.com/p?a=1&b=2&a=3")).query)).filter
        (fun pr => decide (asciiLower pr.1 ∉ TRACKING_PARAMS)) := by decide

/-! ### Percent-encoding roundtrip -/

theorem char_valid_nat (c : Char) :
    c.toNat < 0xD800 ∨ (0xE000 ≤ c.toNat ∧ c.toNat < 0x110000) := by
  rcases c.valid with h | h
  · left; exact_mod_cast h
  · right; exact ⟨by exact_mod_cast h.1, by exact_mod_cast h.2⟩

theorem isCont_true {b : Nat} (h1 : 0x80 ≤ b) (h2 : b ≤ 0xBF) : isCont b = true := by
  simp [isCont]; omega

theorem utf8_decode_encode (c : Char) (rest : List Nat) :
    utf8DecodeReplace (utf8Encode c ++ rest) = c :: utf8DecodeReplace rest := by
  have hv := char_valid_nat c
  unfold utf8Encode
  by_cases h1 : c.toNat < 0x80
  · rw [if_pos h1]
    show utf8DecodeReplace (c.toNat :: rest) = _
    conv_lhs => unfold utf8DecodeReplace
    rw [if_pos h1, Char.ofNat_toNat]
  · rw [if_neg h1]
    by_cases h2 : c.toNat < 0x800
    · rw [if_pos h2]
      show utf8DecodeReplace ((0xC0 + c.toNat / 0x40) :: (0x80 + c.toNat % 0x40) :: rest) = _
      conv_lhs => unfold utf8DecodeReplace
      rw [if_neg (by omega), if_pos (by omega : 0xC2 ≤ 0xC0 + c.toNat / 0x40 ∧ 0xC0 + c.toNat / 0x40 ≤ 0xDF)]
      dsimp only
      rw [if_pos (isCont_true (by omega) (by omega))]
      have he : (0xC0 + c.toNat / 0x40 - 0xC0) * 0x40 + (0x80 + c.toNat % 0x40 - 0x80) = c.toNat := by
        omega
      rw [he, Char.ofNat_toNat]
    · rw [if_neg h2]
      by_cases h3 : c.toNat < 0x10000
      · rw [if_pos h3]
        show utf8DecodeReplace ((0xE0 + c.toNat / 0x1000) :: (0x80 + c.toNat / 0x40 % 0x40)
          :: (0x80 + c.toNat % 0x40) :: rest) = _
        conv_lhs => unfold utf8DecodeReplace
        rw [if_neg (by omega), if_neg (by omega),
          if_pos (by omega : 0xE0 ≤ 0xE0 + c.toNat / 0x1000 ∧ 0xE0 + c.toNat / 0x1000 ≤ 0xEF)]
        dsimp only
        have hcond : (0xE0 + c.toNat / 0x1000 = 0xE0 ∧ 0xA0 ≤ 0x80 + c.toNat / 0x40 % 0x40 ∧
              0x80 + c.toNat / 0x40 % 0x40 ≤ 0xBF) ∨
            (0xE1 ≤ 0xE0 + c.toNat / 0x1000 ∧ 0xE0 + c.toNat / 0x1000 ≤ 0xEC ∧
              isCont (0x80 + c.toNat / 0x40 % 0x40) = true) ∨
            (0xE0 + c.toNat / 0x1000 = 0xED ∧ 0x80 ≤ 0x80 + c.toNat / 0x40 % 0x40 ∧
              0x80 + c.toNat / 0x40 % 0x40 ≤ 0x9F) ∨
            (0xEE ≤ 0xE0 + c.toNat / 0x1000 ∧ 0xE0 + c.toNat / 0x1000 ≤ 0xEF ∧
              isCont (0x80 + c.toNat / 0x40 % 0x40) = true) := by
          by_cases hE0 : c.toNat < 0x1000
          · left; omega
          · by_cases hED : c.toNat < 0xD000
            · right; left
              refine ⟨by omega, by omega, isCont_true (by omega) (by omega)⟩
            · by_cases hEE : c.toNat < 0xE000
              · right; right; left
                have hlt : c.toNat < 0xD800 := by omega
                omega
              · right; right; right
                refine ⟨by omega, by omega, isCont_true (by omega) (by omega)⟩
        rw [if_pos hcond, if_pos (isCont_true (by omega) (by omega))]
        have he : (0xE0 + c.toNat / 0x1000 - 0xE0) * 0x1000 +
            (0x80 + c.toNat / 0x40 % 0x40 - 0x80) * 0x40 + (0x80 + c.toNat % 0x40 - 0x80)
            = c.toNat := by omega
        rw [he, Char.ofNat_toNat]
      · rw [if_neg h3]
        have h4 : c.toNat < 0x110000 := by omega
        show utf8DecodeReplace ((0xF0 + c.toNat / 0x40000) :: (0x80 + c.toNat / 0x1000 % 0x40)
          :: (0x80 + c.toNat / 0x40 % 0x40) :: (0x80 + c.toNat % 0x40) :: rest) = _
        conv_lhs => unfold utf8DecodeReplace
        rw [if_neg (by omega), if_neg (by omega), if_neg (by omega),
          if_pos (by omega : 0xF0 ≤ 0xF0 + c.toNat / 0x40000 ∧ 0xF0 + c.toNat / 0x40000 ≤ 0xF4)]
        dsimp only
        have hcond : (0xF0 + c.toNat / 0x40000 = 0xF0 ∧ 0x90 ≤ 0x80 + c.toNat / 0x1000 % 0x40 ∧
              0x80 + c.toNat / 0x1000 % 0x40 ≤ 0xBF) ∨
            (0xF1 ≤ 0xF0 + c.toNat / 0x40000 ∧ 0xF0 + c.toNat / 0x40000 ≤ 0xF3 ∧
              isCont (0x80 + c.toNat / 0x1000 % 0x40) = true) ∨
            (0xF0 + c.toNat / 0x40000 = 0xF4 ∧ 0x80 ≤ 0x80 + c.toNat / 0x1000 % 0x40 ∧
              0x80 + c.toNat / 0x1000 % 0x40 ≤ 0x8F) := by
          by_cases hF0 : c.toNat < 0x40000
          · left; omega
          · by_cases hF4 : c.toNat < 0x100000
            · right; left
              refine ⟨by omega, by omega, isCont_true (by omega) (by omega)⟩
            · right; right; omega
        rw [if_pos hcond, if_pos (isCont_true (by omega) (by omega)),
          if_pos (isCont_true (by omega) (by omega))]
        have he : (0xF0 + c.toNat / 0x40000 - 0xF0) * 0x40000 +
            (0x80 + c.toNat / 0x1000 % 0x40 - 0x80) * 0x1000 +
            (0x80 + c.toNat / 0x40 % 0x40 - 0x80) * 0x40 + (0x80 + c.toNat % 0x40 - 0x80)
            = c.toNat := by omega
        rw [he, Char.ofNat_toNat]

theorem hexDigitUpper_isHex {n : Nat} (h : n < 16) : isHexDigit (hexDigitUpper n) = true := by
  interval_cases n <;> decide

theorem hexVal_hexDigitUpper {n : Nat} (h : n < 16) : hexVal (hexDigitUpper n) = n := by
  interval_cases n <;> decide

theorem hexDigitUpper_not_special {n : Nat} (h : n < 16) :
    hexDigitUpper n ≠ '%' ∧ hexDigitUpper n ≠ '+' := by
  interval_cases n <;> decide

theorem utf8Encode_bytes_lt (c : Char) : ∀ b ∈ utf8Encode c, b < 256 := by
  have hv := char_valid_nat c
  intro b hb
  unfold utf8Encode at hb
  by_cases h1 : c.toNat < 0x80
  · rw [if_pos h1] at hb
    simp at hb
    omega
  · rw [if_neg h1] at hb
    by_cases h2 : c.toNat < 0x800
    · rw [if_pos h2] at hb
      simp at hb
      rcases hb with rfl | rfl <;> omega
    · rw [if_neg h2] at hb
      by_cases h3 : c.toNat < 0x10000
      · rw [if_pos h3] at hb
        simp at hb
        rcases hb with rfl | rfl | rfl <;> omega
      · rw [if_neg h3] at hb
        simp at hb
        rcases hb with rfl | rfl | rfl | rfl <;> omega

theorem pctTokens_cons_ne_pct {c : Char} (h : c ≠ '%') (r : Str) :
    pctTokens (c :: r) = Sum.inl c :: pctTokens r := by
  conv_lhs => unfold pctTokens
  split
  · rename_i heq
    exact absurd heq (by simp)
  · rename_i heq
    injection heq with hc _
    exact absurd hc h
  · rename_i heq
    injection heq with hc hr
    rw [hc, hr]

theorem pctTokens_triple {b : Nat} (hb : b < 256) (r : Str) :
    pctTokens ('%' :: hexDigitUpper (b / 16) :: hexDigitUpper (b % 16) :: r)
      = Sum.inr b :: pctTokens r := by
  have hd1 : b / 16 < 16 := by omega
  have hd2 : b % 16 < 16 := by omega
  conv_lhs => unfold pctTokens
  split
  · rename_i heq
    exact absurd heq (by simp)
  · rename_i h1 h2 rest2 heq
    injection heq with hp heq
    injection heq with hh1 heq
    injection heq with hh2 heq
    subst hh1; subst hh2; subst heq
    rw [if_pos ⟨hexDigitUpper_isHex hd1, hexDigitUpper_isHex hd2⟩]
    rw [hexVal_hexDigitUpper hd1, hexVal_hexDigitUpper hd2]
    congr 2
    omega
  · rename_i hno heq
    injection heq with hc hrest
    exact absurd (hno (hexDigitUpper (b / 16)) (hexDigitUpper (b % 16)) r hc.symm hrest.symm)
      (fun h => h)

/-- One character of the original string, as the tokens its encoding produces
after the `+`-to-space step. -/
def tokenBlock (c : Char) : List (Char ⊕ Nat) :=
  if isAlwaysSafe c then [Sum.inl c]
  else if c = ' ' then [Sum.inl ' ']
  else (utf8Encode c).map Sum.inr

theorem pctTokens_triples (bs : List Nat) (hbs : ∀ b ∈ bs, b < 256) (r : Str) :
    pctTokens ((bs.flatMap (fun b =>
        ['%', hexDigitUpper (b / 16), hexDigitUpper (b % 16)])) ++ r)
      = bs.map Sum.inr ++ pctTokens r := by
  induction bs with
  | nil => rfl
  | cons b rest ih =>
    rw [List.flatMap_cons, List.append_assoc]
    show pctTokens ('%' :: hexDigitUpper (b / 16) :: hexDigitUpper (b % 16) :: _) = _
    rw [pctTokens_triple (hbs b (by simp))]
    simp only [List.append_eq, List.nil_append]
    rw [ih (fun x hx => hbs x (by simp [hx]))]
    rfl

theorem map_noplus_id {l : Str} (h : ∀ d ∈ l, d ≠ '+') :
    l.map (fun c => if c = '+' then ' ' else c) = l := by
  have : l.map (fun c => if c = '+' then ' ' else c) = l.map id := by
    apply List.map_congr_left
    intro d hd
    simp [h d hd]
  rw [this, List.map_id]

theorem pctTokens_quotePlus (s : Str) :
    pctTokens ((quotePlus s).map (fun c => if c = '+' then ' ' else c)) =
      s.flatMap tokenBlock := by
  induction s with
  | nil => rfl
  | cons c rest ih =>
    show pctTokens ((quotePlusChar c ++ quotePlus rest).map
      (fun c => if c = '+' then ' ' else c)) = tokenBlock c ++ rest.flatMap tokenBlock
    rw [List.map_append]
    unfold quotePlusChar tokenBlock
    by_cases h1 : isAlwaysSafe c = true
    · rw [if_pos h1, if_pos h1]
      have hplus : c ≠ '+' := by
        intro hc; rw [hc] at h1; exact absurd h1 (by decide)
      have hpct : c ≠ '%' := by
        intro hc; rw [hc] at h1; exact absurd h1 (by decide)
      show pctTokens ((if c = '+' then ' ' else c) :: _) = _
      rw [if_neg hplus, pctTokens_cons_ne_pct hpct]
      simp only [List.append_eq, List.map_nil, List.nil_append]
      rw [ih]
      rfl
    · rw [if_neg h1, if_neg h1]
      by_cases h2 : c = ' '
      · rw [if_pos h2, if_pos h2]
        show pctTokens ((if '+' = '+' then ' ' else '+') :: _) = _
        rw [if_pos rfl, pctTokens_cons_ne_pct (by decide)]
        simp only [List.append_eq, List.map_nil, List.nil_append]
        rw [ih]
        rfl
      · rw [if_neg h2, if_neg h2]
        have hmap : ((utf8Encode c).flatMap (fun b =>
            ['%', hexDigitUpper (b / 16), hexDigitUpper (b % 16)])).map
            (fun c => if c = '+' then ' ' else c)
            = (utf8Encode c).flatMap (fun b =>
            ['%', hexDigitUpper (b / 16), hexDigitUpper (b % 16)]) := by
          apply map_noplus_id
          intro d hd
          rw [List.mem_flatMap] at hd
          obtain ⟨b, hb, hd⟩ := hd
          have hblt := utf8Encode_bytes_lt c b hb
          simp only [List.mem_cons, List.not_mem_nil, or_false] at hd
          rcases hd with rfl | rfl | rfl
          · decide
          · exact (hexDigitUpper_not_special (by omega : b / 16 < 16)).2
          · exact (hexDigitUpper_not_special (by omega : b % 16 < 16)).2
        rw [hmap, pctTokens_triples _ (utf8Encode_bytes_lt c), ih]
        rfl


theorem utf8_decode_encode_nil (c : Char) : utf8DecodeReplace (utf8Encode c) = [c] := by
  have h := utf8_decode_encode c []
  rw [List.append_nil] at h
  rw [h]
  rfl

theorem tokenBlock_safe {c : Char} (h : isAlwaysSafe c = true) : tokenBlock c = [Sum.inl c] := by
  unfold tokenBlock
  rw [if_pos h]

theorem tokenBlock_space : tokenBlock ' ' = [Sum.inl ' '] := by decide

theorem tokenBlock_enc {c : Char} (h1 : ¬ isAlwaysSafe c = true) (h2 : ¬ c = ' ') :
    tokenBlock c = (utf8Encode c).map Sum.inr := by
  unfold tokenBlock
  rw [if_neg h1, if_neg h2]

theorem renderTokens_inr_append (bs : List Nat) (ts : List (Char ⊕ Nat)) :
    ∀ pending, renderTokens (bs.map Sum.inr ++ ts) pending
      = renderTokens ts (bs.reverse ++ pending) := by
  induction bs with
  | nil => intro pending; simp
  | cons b rest ih =>
    intro pending
    rw [List.map_cons, List.cons_append]
    rw [show renderTokens (Sum.inr b :: (rest.map Sum.inr ++ ts)) pending
        = renderTokens (rest.map Sum.inr ++ ts) (b :: pending) from rfl]
    rw [ih (b :: pending)]
    simp

/-- A byte run whose decoding is unaffected by what follows it: decoding it
concatenated with anything splits cleanly. Encoded-character runs have this
property. -/
def SelfDelim (pending : List Nat) : Prop :=
  ∀ Y, utf8DecodeReplace (pending.reverse ++ Y) =
    utf8DecodeReplace pending.reverse ++ utf8DecodeReplace Y

theorem selfDelim_nil : SelfDelim [] := by
  intro Y
  rfl

theorem selfDelim_extend (c : Char) {pending : List Nat} (h : SelfDelim pending) :
    SelfDelim ((utf8Encode c).reverse ++ pending) := by
  intro Y
  rw [show ((utf8Encode c).reverse ++ pending).reverse
      = pending.reverse ++ utf8Encode c by simp]
  rw [List.append_assoc, h (utf8Encode c ++ Y), utf8_decode_encode c Y,
      h (utf8Encode c), utf8_decode_encode_nil]
  simp

theorem renderTokens_blocks (s : Str) : ∀ pending, SelfDelim pending →
    renderTokens (s.flatMap tokenBlock) pending =
      utf8DecodeReplace pending.reverse ++ s := by
  induction s with
  | nil =>
    intro pending _
    rw [List.append_nil]
    rfl
  | cons c rest ih =>
    intro pending hp
    rw [List.flatMap_cons]
    by_cases h1 : isAlwaysSafe c = true
    · rw [tokenBlock_safe h1, List.singleton_append]
      rw [show renderTokens (Sum.inl c :: rest.flatMap tokenBlock) pending
          = utf8DecodeReplace pending.reverse ++ c :: renderTokens (rest.flatMap tokenBlock) []
          from rfl]
      rw [ih [] selfDelim_nil]
      rfl
    · by_cases h2 : c = ' '
      · subst h2
        rw [tokenBlock_space, List.singleton_append]
        rw [show renderTokens (Sum.inl ' ' :: rest.flatMap tokenBlock) pending
            = utf8DecodeReplace pending.reverse
              ++ ' ' :: renderTokens (rest.flatMap tokenBlock) [] from rfl]
        rw [ih [] selfDelim_nil]
        rfl
      · rw [tokenBlock_enc h1 h2, renderTokens_inr_append]
        rw [ih _ (selfDelim_extend c hp)]
        rw [show ((utf8Encode c).reverse ++ pending).reverse
            = pending.reverse ++ utf8Encode c by simp]
        rw [hp (utf8Encode c), utf8_decode_encode_nil]
        simp

theorem unquotePlus_quotePlus (s : Str) : unquotePlus (quotePlus s) = s := by
  unfold unquotePlus unquote
  rw [pctTokens_quotePlus, renderTokens_blocks s [] selfDelim_nil]
  rfl

/-! ### Query-string roundtrip -/

theorem splitAllOn_no_sep {sep : Char} {s : Str} (h : sep ∉ s) : splitAllOn sep s = [s] := by
  induction s with
  | nil => rfl
  | cons c rest ih =>
    rw [List.mem_cons, not_or] at h
    obtain ⟨h1, h2⟩ := h
    conv_lhs => unfold splitAllOn
    rw [if_neg (fun hc => h1 hc.symm), ih h2]

theorem splitAllOn_sep_cons (sep : Char) {xs : Str} (h : sep ∉ xs) (ys : Str) :
    splitAllOn sep (xs ++ sep :: ys) = xs :: splitAllOn sep ys := by
  induction xs with
  | nil =>
    rw [List.nil_append]
    conv_lhs => unfold splitAllOn
    rw [if_pos rfl]
  | cons c xs2 ih =>
    rw [List.mem_cons, not_or] at h
    obtain ⟨h1, h2⟩ := h
    rw [List.cons_append]
    conv_lhs => unfold splitAllOn
    rw [if_neg (fun hc => h1 hc.symm), ih h2]

theorem joinAmp_cons_cons (s s2 : Str) (rest : List Str) :
    joinAmp (s :: s2 :: rest) = s ++ '&' :: joinAmp (s2 :: rest) := rfl

theorem joinAmp_cons_ne_nil {p : Str} (hp : p ≠ []) (rest : List Str) :
    joinAmp (p :: rest) ≠ [] := by
  cases rest with
  | nil => exact hp
  | cons p2 r2 =>
    rw [joinAmp_cons_cons]
    cases p with
    | nil => exact absurd rfl hp
    | cons c p2 => simp

theorem splitAllOn_joinAmp {ps : List Str} (h : ∀ p ∈ ps, '&' ∉ p) (hne : ps ≠ []) :
    splitAllOn '&' (joinAmp ps) = ps := by
  induction ps with
  | nil => exact absurd rfl hne
  | cons p rest ih =>
    cases rest with
    | nil =>
      show splitAllOn '&' p = [p]
      exact splitAllOn_no_sep (h p (by simp))
    | cons p2 rest2 =>
      rw [joinAmp_cons_cons, splitAllOn_sep_cons '&' (h p (by simp))]
      rw [ih (fun q hq => h q (by simp [hq])) (by simp)]

theorem joinAmp_mem {d : Char} : ∀ {ps : List Str}, d ∈ joinAmp ps →
    d = '&' ∨ ∃ p ∈ ps, d ∈ p := by
  intro ps
  induction ps with
  | nil => intro h; cases h
  | cons p rest ih =>
    cases rest with
    | nil =>
      intro hd
      exact Or.inr ⟨p, by simp, hd⟩
    | cons p2 rest2 =>
      rw [joinAmp_cons_cons]
      intro hd
      rw [List.mem_append, List.mem_cons] at hd
      rcases hd with hd | hd | hd
      · exact Or.inr ⟨p, by simp, hd⟩
      · exact Or.inl hd
      · rcases ih hd with hd | ⟨q, hq, hd⟩
        · exact Or.inl hd
        · exact Or.inr ⟨q, by simp [hq], hd⟩

theorem splitOnFirst_not_mem {c : Char} {s : Str} (h : c ∉ s) : splitOnFirst c s = (s, none) := by
  unfold splitOnFirst
  rw [show s.findIdx? (· = c) = none from List.findIdx?_eq_none_iff.mpr
    (fun x hx => by simp; intro he; exact h (he ▸ hx))]

theorem splitOnFirst_append {c : Char} {xs : Str} (h : c ∉ xs) (ys : Str) :
    splitOnFirst c (xs ++ c :: ys) = (xs, some ys) := by
  unfold splitOnFirst
  have h1 : List.findIdx? (· = c) xs = none := List.findIdx?_eq_none_iff.mpr
    (fun x hx => by simp; intro he; exact h (he ▸ hx))
  have h2 : List.findIdx? (· = c) (c :: ys) = some 0 := by
    rw [List.findIdx?_cons, if_pos (by simp)]
  have h3 : List.findIdx? (· = c) (xs ++ c :: ys) = some xs.length := by
    rw [List.findIdx?_append, h1, h2]
    simp
  rw [h3]
  show (List.take xs.length (xs ++ c :: ys), some (List.drop (xs.length + 1) (xs ++ c :: ys)))
    = (xs, some ys)
  rw [List.take_left, List.drop_append_eq_append_drop,
      List.drop_eq_nil_of_le (by omega), List.nil_append]
  have : xs.length + 1 - xs.length = 1 := by omega
  rw [this]
  rfl

theorem hexDigitUpper_safe {n : Nat} (h : n < 16) : isAlwaysSafe (hexDigitUpper n) = true := by
  interval_cases n <;> decide

theorem quotePlus_mem {d : Char} {s : Str} (hd : d ∈ quotePlus s) :
    isAlwaysSafe d = true ∨ d = '+' ∨ d = '%' := by
  unfold quotePlus at hd
  rw [List.mem_flatMap] at hd
  obtain ⟨c, _, hd⟩ := hd
  unfold quotePlusChar at hd
  by_cases h1 : isAlwaysSafe c = true
  · rw [if_pos h1] at hd
    rw [List.mem_singleton] at hd
    subst hd
    exact Or.inl h1
  · rw [if_neg h1] at hd
    by_cases h2 : c = ' '
    · rw [if_pos h2] at hd
      rw [List.mem_singleton] at hd
      subst hd
      exact Or.inr (Or.inl rfl)
    · rw [if_neg h2] at hd
      rw [List.mem_flatMap] at hd
      obtain ⟨b, hb, hd⟩ := hd
      have hblt := utf8Encode_bytes_lt c b hb
      simp only [List.mem_cons, List.not_mem_nil, or_false] at hd
      rcases hd with rfl | rfl | rfl
      · exact Or.inr (Or.inr rfl)
      · exact Or.inl (hexDigitUpper_safe (by omega))
      · exact Or.inl (hexDigitUpper_safe (by omega))

theorem quotePlus_no_eq {s : Str} : '=' ∉ quotePlus s := by
  intro hd
  rcases quotePlus_mem hd with h | h | h <;> exact absurd h (by decide)

theorem quotePlus_no_amp {s : Str} : '&' ∉ quotePlus s := by
  intro hd
  rcases quotePlus_mem hd with h | h | h <;> exact absurd h (by decide)

/-- One name/value pair as `urlencode` renders it. -/
def encPair (pr : Str × Str) : Str := quotePlus pr.1 ++ '=' :: quotePlus pr.2

/-- Ungrouping of `parse_qs`-style groups back to a `parse_qsl`-style pair
list. -/
def flattenGroups (G : List (Str × List Str)) : List (Str × Str) :=
  G.flatMap (fun g => g.2.map (fun v => (g.1, v)))

theorem encPair_ne_nil (pr : Str × Str) : encPair pr ≠ [] := by
  unfold encPair
  cases h : quotePlus pr.1 with
  | nil => simp
  | cons c r => simp

theorem encPair_no_amp {d : Char} {pr : Str × Str} (hd : d ∈ encPair pr) : d ≠ '&' := by
  unfold encPair at hd
  rw [List.mem_append, List.mem_cons] at hd
  rcases hd with hd | hd | hd
  · intro he; exact quotePlus_no_amp (he ▸ hd)
  · subst hd; decide
  · intro he; exact quotePlus_no_amp (he ▸ hd)

theorem filterMap_some_eq {α : Type} {g : α → Option α} {l : List α}
    (h : ∀ a ∈ l, g a = some a) : l.filterMap g = l := by
  induction l with
  | nil => rfl
  | cons a l2 ih =>
    rw [List.filterMap_cons, h a (by simp), ih (fun x hx => h x (by simp [hx]))]

theorem urlencode_seq_eq (G : List (Str × List Str)) :
    urlencode_seq G = joinAmp ((flattenGroups G).map encPair) := by
  unfold urlencode_seq flattenGroups
  congr 1
  rw [List.map_flatMap, ← List.flatMap_def]
  congr 1
  funext g
  rw [List.map_map]
  rfl

theorem parse_qsl_joinAmp (L : List (Str × Str)) :
    parse_qsl_kb (joinAmp (L.map encPair)) = L := by
  cases L with
  | nil => rfl
  | cons pr L2 =>
    have hne : joinAmp ((pr :: L2).map encPair) ≠ [] := by
      rw [List.map_cons]
      exact joinAmp_cons_ne_nil (encPair_ne_nil pr) _
    unfold parse_qsl_kb
    rw [if_neg hne]
    rw [splitAllOn_joinAmp (fun p hp hd => by
      rw [List.mem_map] at hp
      obtain ⟨q, _, rfl⟩ := hp
      exact encPair_no_amp hd rfl) (by simp)]
    rw [List.filterMap_map]
    apply filterMap_some_eq
    intro q _
    show (if encPair q = [] then none
      else match splitOnFirst '=' (encPair q) with
      | (n, some v) => some (unquotePlus n, unquotePlus v)
      | (n, none) => some (unquotePlus n, [])) = some q
    rw [if_neg (encPair_ne_nil q)]
    unfold encPair
    rw [splitOnFirst_append quotePlus_no_eq]
    show some (unquotePlus (quotePlus q.1), unquotePlus (quotePlus q.2)) = some q
    rw [unquotePlus_quotePlus, unquotePlus_quotePlus]

theorem flattenGroups_cons (g : Str × List Str) (G : List (Str × List Str)) :
    flattenGroups (g :: G) = g.2.map (fun v => (g.1, v)) ++ flattenGroups G := by
  unfold flattenGroups
  rw [List.flatMap_cons]

theorem addPair_fresh {acc : List (Str × List Str)} {k v : Str}
    (h : ∀ q ∈ acc, q.1 ≠ k) : addPair acc (k, v) = acc ++ [(k, [v])] := by
  unfold addPair
  rw [if_neg (fun hc => by
    rw [List.any_eq_true] at hc
    obtain ⟨q, hq, he⟩ := hc
    exact h q hq (by simpa using he))]

theorem addPair_last {acc : List (Str × List Str)} {k : Str} {vs0 : List Str} {v : Str}
    (h : ∀ q ∈ acc, q.1 ≠ k) :
    addPair (acc ++ [(k, vs0)]) (k, v) = acc ++ [(k, vs0 ++ [v])] := by
  unfold addPair
  rw [if_pos (by
    rw [List.any_eq_true]
    exact ⟨(k, vs0), by simp, by simp⟩)]
  rw [List.map_append]
  congr 1
  · rw [show acc.map (fun q => if q.1 = (k, v).1 then (q.1, q.2 ++ [(k, v).2]) else q)
      = acc.map id from List.map_congr_left (fun q hq => by
        rw [if_neg (h q hq)]
        rfl), List.map_id]
  · simp

theorem foldl_addPair_run {k : Str} (vs : List Str) :
    ∀ {acc : List (Str × List Str)} (vs0 : List Str), (∀ q ∈ acc, q.1 ≠ k) →
    List.foldl addPair (acc ++ [(k, vs0)]) (vs.map (fun v => (k, v)))
      = acc ++ [(k, vs0 ++ vs)] := by
  induction vs with
  | nil => intro acc vs0 _; simp
  | cons v vs2 ih =>
    intro acc vs0 h
    rw [List.map_cons, List.foldl_cons, addPair_last h, ih (vs0 ++ [v]) h]
    simp

theorem foldl_addPair_groups : ∀ (G : List (Str × List Str))
    (acc : List (Str × List Str)),
    (∀ q ∈ acc, ∀ g ∈ G, q.1 ≠ g.1) → (G.map Prod.fst).Nodup → (∀ g ∈ G, g.2 ≠ []) →
    List.foldl addPair acc (flattenGroups G) = acc ++ G := by
  intro G
  induction G with
  | nil => intro acc _ _ _; simp [flattenGroups]
  | cons g G2 ih =>
    intro acc hdisj hnd hne
    obtain ⟨k, vs⟩ := g
    cases vs with
    | nil => exact absurd rfl (hne (k, []) (by simp))
    | cons v vs2 =>
      rw [flattenGroups_cons, List.foldl_append]
      have hfr : ∀ q ∈ acc, q.1 ≠ k := fun q hq => hdisj q hq (k, v :: vs2) (by simp)
      dsimp only
      rw [List.map_cons, List.foldl_cons]
      rw [show addPair acc (k, v) = acc ++ [(k, [v])] from addPair_fresh hfr]
      rw [foldl_addPair_run vs2 [v] hfr]
      rw [show ([v] ++ vs2 : List Str) = v :: vs2 from rfl]
      rw [ih (acc ++ [(k, v :: vs2)]) ?disj ?nd ?ne]
      · simp
      case disj =>
        intro q hq g2 hg2
        rw [List.mem_append] at hq
        rcases hq with hq | hq
        · exact hdisj q hq g2 (by simp [hg2])
        · rw [List.mem_singleton] at hq
          subst hq
          show k ≠ g2.1
          rw [List.map_cons, List.nodup_cons] at hnd
          exact fun he => hnd.1 (by
            show k ∈ List.map Prod.fst G2
            rw [he]
            exact List.mem_map_of_mem Prod.fst hg2)
      case nd =>
        rw [List.map_cons, List.nodup_cons] at hnd
        exact hnd.2
      case ne => exact fun g2 hg2 => hne g2 (by simp [hg2])

theorem parse_qs_of_groups {G : List (Str × List Str)} (hnd : (G.map Prod.fst).Nodup)
    (hne : ∀ g ∈ G, g.2 ≠ []) : (flattenGroups G).foldl addPair [] = G := by
  have h := foldl_addPair_groups G [] (fun q hq => absurd hq (List.not_mem_nil q)) hnd hne
  simpa using h

theorem foldl_addPair_inv (l : List (Str × Str)) :
    ∀ acc : List (Str × List Str), (acc.map Prod.fst).Nodup → (∀ g ∈ acc, g.2 ≠ []) →
    (((l.foldl addPair acc).map Prod.fst).Nodup ∧ ∀ g ∈ l.foldl addPair acc, g.2 ≠ []) := by
  induction l with
  | nil => intro acc h1 h2; exact ⟨h1, h2⟩
  | cons p l2 ih =>
    intro acc h1 h2
    rw [List.foldl_cons]
    apply ih
    · unfold addPair
      by_cases hc : (acc.any fun q => q.1 = p.1) = true
      · rw [if_pos hc, List.map_map]
        rw [show acc.map (Prod.fst ∘ fun q => if q.1 = p.1 then (q.1, q.2 ++ [p.2]) else q)
            = acc.map Prod.fst from List.map_congr_left (fun q hq => by
              show (if q.1 = p.1 then (q.1, q.2 ++ [p.2]) else q).1 = q.1
              by_cases hq1 : q.1 = p.1
              · rw [if_pos hq1]
              · rw [if_neg hq1])]
        exact h1
      · rw [if_neg hc, List.map_append, List.nodup_append]
        refine ⟨h1, by simp, ?_⟩
        intro x hx hx2
        simp at hx2
        subst hx2
        rw [List.mem_map] at hx
        obtain ⟨q, hq, hq1⟩ := hx
        rw [List.any_eq_true] at hc
        exact hc ⟨q, hq, by simp [hq1]⟩
    · unfold addPair
      by_cases hc : (acc.any fun q => q.1 = p.1) = true
      · rw [if_pos hc]
        intro g hg
        rw [List.mem_map] at hg
        obtain ⟨q, hq, rfl⟩ := hg
        by_cases hq1 : q.1 = p.1
        · rw [if_pos hq1]; simp
        · rw [if_neg hq1]; exact h2 q hq
      · rw [if_neg hc]
        intro g hg
        rw [List.mem_append] at hg
        rcases hg with hg | hg
        · exact h2 g hg
        · rw [List.mem_singleton] at hg; subst hg; simp

theorem parse_qs_kb_names_nodup (qs : Str) : ((parse_qs_kb qs).map Prod.fst).Nodup := by
  unfold parse_qs_kb
  exact (foldl_addPair_inv (parse_qsl_kb qs) [] (by simp) (by simp)).1

theorem parse_qs_kb_values_ne (qs : Str) : ∀ g ∈ parse_qs_kb qs, g.2 ≠ [] := by
  unfold parse_qs_kb
  exact (foldl_addPair_inv (parse_qsl_kb qs) [] (by simp) (by simp)).2

theorem parse_qs_urlencode {G : List (Str × List Str)} (hnd : (G.map Prod.fst).Nodup)
    (hne : ∀ g ∈ G, g.2 ≠ []) : parse_qs_kb (urlencode_seq G) = G := by
  unfold parse_qs_kb
  rw [urlencode_seq_eq, parse_qsl_joinAmp]
  exact parse_qs_of_groups hnd hne

theorem cleanQuery_parse_qsl (q : Str) :
    parse_qsl_kb (cleanQuery q) = flattenGroups ((parse_qs_kb q).filter
      (fun g => decide (asciiLower g.1 ∉ TRACKING_PARAMS))) := by
  unfold cleanQuery
  by_cases hc : (parse_qs_kb q).filter (fun g => decide (asciiLower g.1 ∉ TRACKING_PARAMS)) = []
  · rw [if_pos hc, hc]
    rfl
  · rw [if_neg hc, urlencode_seq_eq, parse_qsl_joinAmp]

theorem cleanQuery_no_tracking {q : Str} {pr : Str × Str}
    (h : pr ∈ parse_qsl_kb (cleanQuery q)) : asciiLower pr.1 ∉ TRACKING_PARAMS := by
  rw [cleanQuery_parse_qsl] at h
  unfold flattenGroups at h
  rw [List.mem_flatMap] at h
  obtain ⟨g, hg, h⟩ := h
  rw [List.mem_map] at h
  obtain ⟨v, _, rfl⟩ := h
  have h2 := List.of_mem_filter hg
  simpa using h2

theorem cleanQuery_stable (q : Str) : cleanQuery (cleanQuery q) = cleanQuery q := by
  by_cases hc : (parse_qs_kb q).filter (fun g => decide (asciiLower g.1 ∉ TRACKING_PARAMS)) = []
  · have h1 : cleanQuery q = [] := by unfold cleanQuery; rw [if_pos hc]
    rw [h1]
    decide
  · have h1 : cleanQuery q = urlencode_seq ((parse_qs_kb q).filter
        (fun g => decide (asciiLower g.1 ∉ TRACKING_PARAMS))) := by
      unfold cleanQuery; rw [if_neg hc]
    have hnd : (((parse_qs_kb q).filter
        (fun g => decide (asciiLower g.1 ∉ TRACKING_PARAMS))).map Prod.fst).Nodup :=
      ((List.filter_sublist (parse_qs_kb q)).map Prod.fst).nodup (parse_qs_kb_names_nodup q)
    have hne : ∀ g ∈ (parse_qs_kb q).filter
        (fun g => decide (asciiLower g.1 ∉ TRACKING_PARAMS)), g.2 ≠ [] :=
      fun g hg => parse_qs_kb_values_ne q g (List.mem_of_mem_filter hg)
    have hqs := parse_qs_urlencode hnd hne
    have hfilt := List.filter_eq_self.mpr
      (fun (g : Str × List Str)
        (hg : g ∈ (parse_qs_kb q).filter (fun g => decide (asciiLower g.1 ∉ TRACKING_PARAMS)))
        => List.of_mem_filter hg)
    rw [h1]
    conv_lhs => unfold cleanQuery
    rw [hqs, hfilt, if_neg hc]

theorem cleanQuery_chars {q : Str} {d : Char} (hd : d ∈ cleanQuery q) :
    isAlwaysSafe d = true ∨ d = '+' ∨ d = '%' ∨ d = '=' ∨ d = '&' := by
  unfold cleanQuery at hd
  by_cases hc : (parse_qs_kb q).filter (fun g => decide (asciiLower g.1 ∉ TRACKING_PARAMS)) = []
  · rw [if_pos hc] at hd
    cases hd
  · rw [if_neg hc, urlencode_seq_eq] at hd
    rcases joinAmp_mem hd with hd | ⟨p, hp, hd⟩
    · exact Or.inr (Or.inr (Or.inr (Or.inr hd)))
    · rw [List.mem_map] at hp
      obtain ⟨pr, _, rfl⟩ := hp
      unfold encPair at hd
      rw [List.mem_append, List.mem_cons] at hd
      rcases hd with hd | hd | hd
      · rcases quotePlus_mem hd with h | h | h
        · exact Or.inl h
        · exact Or.inr (Or.inl h)
        · exact Or.inr (Or.inr (Or.inl h))
      · exact Or.inr (Or.inr (Or.inr (Or.inl hd)))
      · rcases quotePlus_mem hd with h | h | h
        · exact Or.inl h
        · exact Or.inr (Or.inl h)
        · exact Or.inr (Or.inr (Or.inl h))

/-! ### Parse/unparse roundtrip: character facts -/

theorem toNat_ofNat_valid {n : Nat} (h : n < 0xD800) : (Char.ofNat n).toNat = n := by
  unfold Char.ofNat
  rw [dif_pos (Or.inl h)]
  rfl

theorem isAlpha_iff (c : Char) :
    c.isAlpha = true ↔ (65 ≤ c.toNat ∧ c.toNat ≤ 90) ∨ (97 ≤ c.toNat ∧ c.toNat ≤ 122) := by
  simp only [Char.isAlpha, Char.isUpper, Char.isLower, Bool.or_eq_true, Bool.and_eq_true,
    decide_eq_true_eq]
  constructor
  · rintro (⟨h1, h2⟩ | ⟨h1, h2⟩)
    · exact Or.inl ⟨by exact_mod_cast h1, by exact_mod_cast h2⟩
    · exact Or.inr ⟨by exact_mod_cast h1, by exact_mod_cast h2⟩
  · rintro (⟨h1, h2⟩ | ⟨h1, h2⟩)
    · exact Or.inl ⟨by exact_mod_cast h1, by exact_mod_cast h2⟩
    · exact Or.inr ⟨by exact_mod_cast h1, by exact_mod_cast h2⟩

theorem isDigit_iff (c : Char) : c.isDigit = true ↔ 48 ≤ c.toNat ∧ c.toNat ≤ 57 := by
  simp only [Char.isDigit, Bool.and_eq_true, decide_eq_true_eq]
  constructor
  · rintro ⟨h1, h2⟩
    exact ⟨by exact_mod_cast h1, by exact_mod_cast h2⟩
  · rintro ⟨h1, h2⟩
    exact ⟨by exact_mod_cast h1, by exact_mod_cast h2⟩

theorem toNat_toLower (c : Char) :
    c.toLower.toNat = if c.toNat ≥ 65 ∧ c.toNat ≤ 90 then c.toNat + 32 else c.toNat := by
  show (if c.toNat ≥ 65 ∧ c.toNat ≤ 90 then Char.ofNat (c.toNat + 32) else c).toNat = _
  by_cases h : c.toNat ≥ 65 ∧ c.toNat ≤ 90
  · rw [if_pos h, if_pos h, toNat_ofNat_valid (by omega)]
  · rw [if_neg h, if_neg h]

theorem toLower_id_of {c : Char} (h : ¬(c.toNat ≥ 65 ∧ c.toNat ≤ 90)) : c.toLower = c := by
  show (if c.toNat ≥ 65 ∧ c.toNat ≤ 90 then Char.ofNat (c.toNat + 32) else c) = c
  rw [if_neg h]

theorem toLower_toLower (c : Char) : c.toLower.toLower = c.toLower := by
  by_cases h : c.toNat ≥ 65 ∧ c.toNat ≤ 90
  · apply toLower_id_of
    rw [toNat_toLower, if_pos h]
    omega
  · rw [toLower_id_of h]
    exact toLower_id_of h

theorem asciiLower_idem (s : Str) : asciiLower (asciiLower s) = asciiLower s := by
  unfold asciiLower
  rw [List.map_map]
  exact List.map_congr_left (fun c _ => toLower_toLower c)

theorem isAlpha_toLower {c : Char} (h : c.isAlpha = true) : c.toLower.isAlpha = true := by
  rw [isAlpha_iff] at h
  rw [isAlpha_iff, toNat_toLower]
  by_cases hr : c.toNat ≥ 65 ∧ c.toNat ≤ 90
  · rw [if_pos hr]
    omega
  · rw [if_neg hr]
    omega

theorem isSchemeChar_toLower {c : Char} (h : isSchemeChar c = true) :
    isSchemeChar c.toLower = true := by
  unfold isSchemeChar at h ⊢
  simp only [Bool.or_eq_true, decide_eq_true_eq] at h ⊢
  rcases h with ((((ha | hd) | hp) | hm) | hdot)
  · exact Or.inl (Or.inl (Or.inl (Or.inl (isAlpha_toLower ha))))
  · rw [isDigit_iff] at hd
    rw [toLower_id_of (by omega)]
    left; left; left; right
    rw [isDigit_iff]
    exact hd
  · subst hp; left; left; right; decide
  · subst hm; left; right; decide
  · subst hdot; right; decide

theorem toLower_colon {c : Char} (h : c.toLower = ':') : c = ':' := by
  by_cases hr : c.toNat ≥ 65 ∧ c.toNat ≤ 90
  · exfalso
    have h2 : c.toLower.toNat = (':' : Char).toNat := by rw [h]
    rw [toNat_toLower, if_pos hr] at h2
    have : (':' : Char).toNat = 58 := by decide
    omega
  · rw [toLower_id_of hr] at h
    exact h

theorem alpha_gt_space {c : Char} (h : c.isAlpha = true) : 0x20 < c.toNat := by
  rw [isAlpha_iff] at h
  omega

theorem findIdx_split {c : Char} {s : Str} {i : Nat}
    (h : List.findIdx? (· = c) s = some i) :
    s.take i ++ c :: s.drop (i + 1) = s ∧ c ∉ s.take i ∧ i < s.length := by
  rw [List.findIdx?_eq_some_iff_getElem] at h
  obtain ⟨hlen, hp, hbefore⟩ := h
  have hc : s[i] = c := by simpa using hp
  refine ⟨?_, ?_, hlen⟩
  · rw [← hc, ← List.drop_eq_getElem_cons hlen]
    exact List.take_append_drop i s
  · intro hmem
    obtain ⟨j, hj, hje⟩ := List.getElem_of_mem hmem
    have hjlen : j < i := by
      have h2 := List.length_take i s
      rw [h2] at hj
      omega
    apply hbefore j hjlen
    have hjs : j < s.length := lt_trans hjlen hlen
    have hge : (s.take i)[j] = s[j] := List.getElem_take s
    rw [hge] at hje
    simpa using hje

theorem findIdx_none {c : Char} {s : Str} (h : List.findIdx? (· = c) s = none) : c ∉ s := by
  rw [List.findIdx?_eq_none_iff] at h
  intro hm
  simpa using h c hm

theorem splitOnFirst_cases (c : Char) (s : Str) :
    (c ∉ s ∧ splitOnFirst c s = (s, none)) ∨
    ∃ a b, s = a ++ c :: b ∧ c ∉ a ∧ splitOnFirst c s = (a, some b) := by
  unfold splitOnFirst
  cases hf : List.findIdx? (· = c) s with
  | none => exact Or.inl ⟨findIdx_none hf, rfl⟩
  | some i =>
    obtain ⟨hdec, hnotin, hlen⟩ := findIdx_split hf
    exact Or.inr ⟨s.take i, s.drop (i + 1), hdec.symm, hnotin, rfl⟩

theorem splitScheme_cases (s : Str) :
    splitScheme s = ([], s) ∨
    ∃ a r, s = a ++ ':' :: r ∧ ':' ∉ a ∧ a ≠ [] ∧ a.all isSchemeChar = true ∧
      (a.headD ' ').isAlpha = true ∧ splitScheme s = (asciiLower a, r) := by
  unfold splitScheme
  cases hf : List.findIdx? (· = ':') s with
  | none => exact Or.inl rfl
  | some i =>
    dsimp only
    obtain ⟨hdec, hnotin, hlen⟩ := findIdx_split hf
    by_cases hc : 0 < i ∧ (s.take i).all isSchemeChar ∧ (s.headD ' ').isAlpha
    · right
      have htl : (s.take i).length = i := by rw [List.length_take]; omega
      have hane : s.take i ≠ [] := by
        intro he
        rw [he] at htl
        simp at htl
        omega
      have hhd : (s.take i).headD ' ' = s.headD ' ' := by
        cases s with
        | nil => simp
        | cons x s2 =>
          cases i with
          | zero => exact absurd hc.1 (by omega)
          | succ j => rfl
      refine ⟨s.take i, s.drop (i + 1), hdec.symm, hnotin, hane, hc.2.1, ?_, ?_⟩
      · rw [hhd]
        exact hc.2.2
      · rw [if_pos hc]
    · left
      rw [if_neg hc]

theorem asciiLower_all_scheme {a : Str} (h : a.all isSchemeChar = true) :
    (asciiLower a).all isSchemeChar = true := by
  rw [List.all_eq_true] at h ⊢
  intro c hc
  unfold asciiLower at hc
  rw [List.mem_map] at hc
  obtain ⟨d, hd, rfl⟩ := hc
  exact isSchemeChar_toLower (h d hd)

theorem asciiLower_ne_nil {a : Str} (h : a ≠ []) : asciiLower a ≠ [] := by
  unfold asciiLower
  intro he
  rw [List.map_eq_nil_iff] at he
  exact h he

theorem asciiLower_headD_alpha {a : Str} (h : (a.headD ' ').isAlpha = true) (hne : a ≠ []) :
    ((asciiLower a).headD ' ').isAlpha = true := by
  cases a with
  | nil => exact absurd rfl hne
  | cons c r => exact isAlpha_toLower h

theorem asciiLower_no_colon {a : Str} (h : ':' ∉ a) : ':' ∉ asciiLower a := by
  intro hm
  unfold asciiLower at hm
  rw [List.mem_map] at hm
  obtain ⟨d, hd, he⟩ := hm
  exact h (toLower_colon he ▸ hd)

theorem splitScheme_of_valid {a : Str} (r : Str) (h1 : a ≠ []) (h2 : a.all isSchemeChar = true)
    (h3 : (a.headD ' ').isAlpha = true) (hc : ':' ∉ a) :
    splitScheme (a ++ ':' :: r) = (asciiLower a, r) := by
  unfold splitScheme
  have hnone : List.findIdx? (· = ':') a = none := List.findIdx?_eq_none_iff.mpr
    (fun x hx => by simp; intro he; exact hc (he ▸ hx))
  have hf : List.findIdx? (· = ':') (a ++ ':' :: r) = some a.length := by
    rw [List.findIdx?_append, hnone, List.findIdx?_cons, if_pos (by simp)]
    simp
  rw [hf]
  dsimp only
  have hcond : 0 < a.length ∧ ((a ++ ':' :: r).take a.length).all isSchemeChar = true ∧
      (((a ++ ':' :: r)).headD ' ').isAlpha = true := by
    refine ⟨by cases a with | nil => exact absurd rfl h1 | cons x t => simp, ?_, ?_⟩
    · rw [List.take_left]
      exact h2
    · cases a with
      | nil => exact absurd rfl h1
      | cons x t => exact h3
  rw [if_pos hcond, List.take_left]
  congr 1
  rw [List.drop_append_eq_append_drop, List.drop_eq_nil_of_le (by omega), List.nil_append]
  have h4 : a.length + 1 - a.length = 1 := by omega
  rw [h4]
  rfl

theorem splitScheme_head_not_alpha {s : Str} (h : (s.headD ' ').isAlpha = false) :
    splitScheme s = ([], s) := by
  unfold splitScheme
  cases hf : List.findIdx? (· = ':') s with
  | none => rfl
  | some i =>
    dsimp only
    rw [if_neg (fun hcond => by rw [hcond.2.2] at h; cases h)]

theorem splitScheme_no_colon {s : Str} (h : ':' ∉ s) : splitScheme s = ([], s) := by
  unfold splitScheme
  rw [show List.findIdx? (· = ':') s = none from List.findIdx?_eq_none_iff.mpr
    (fun x hx => by simp; intro he; exact h (he ▸ hx))]

theorem splitScheme_invalid {a : Str} (r : Str) (hc : ':' ∉ a)
    (h : a = [] ∨ (a.headD ' ').isAlpha = false ∨ a.all isSchemeChar = false) :
    splitScheme (a ++ ':' :: r) = ([], a ++ ':' :: r) := by
  unfold splitScheme
  have hnone : List.findIdx? (· = ':') a = none := List.findIdx?_eq_none_iff.mpr
    (fun x hx => by simp; intro he; exact hc (he ▸ hx))
  have hf : List.findIdx? (· = ':') (a ++ ':' :: r) = some a.length := by
    rw [List.findIdx?_append, hnone, List.findIdx?_cons, if_pos (by simp)]
    simp
  rw [hf]
  dsimp only
  rw [if_neg]
  intro hcond
  rcases h with h | h | h
  · subst h
    exact absurd hcond.1 (by simp)
  · cases a with
    | nil => exact absurd hcond.1 (by simp)
    | cons x t =>
      have h2 := hcond.2.2
      rw [show ((x :: t ++ ':' :: r).headD ' ') = x from rfl] at h2
      rw [show ((x :: t : Str).headD ' ') = x from rfl] at h
      rw [h2] at h
      cases h
  · have h2 := hcond.2.1
    rw [List.take_left] at h2
    rw [h2] at h
    cases h

theorem takeWhile_append_all {p : Char → Bool} {n : Str} (h : ∀ c ∈ n, p c = true) (X : Str) :
    (n ++ X).takeWhile p = n ++ X.takeWhile p := by
  induction n with
  | nil => simp
  | cons c n2 ih =>
    rw [List.cons_append, List.takeWhile_cons, if_pos (h c (by simp)),
      ih (fun d hd => h d (by simp [hd]))]
    rfl

theorem dropWhile_append_all {p : Char → Bool} {n : Str} (h : ∀ c ∈ n, p c = true) (X : Str) :
    (n ++ X).dropWhile p = X.dropWhile p := by
  induction n with
  | nil => simp
  | cons c n2 ih =>
    rw [List.cons_append, List.dropWhile_cons, if_pos (h c (by simp)),
      ih (fun d hd => h d (by simp [hd]))]

theorem splitNetloc_slashes {n : Str} (hn : ∀ c ∈ n, isNetlocEnd c = false) {X : Str}
    (hX : X = [] ∨ isNetlocEnd (X.headD ' ') = true) :
    splitNetloc ('/' :: '/' :: (n ++ X)) = (n, X) := by
  unfold splitNetloc
  rw [if_pos (show List.take 2 ('/' :: '/' :: (n ++ X)) = ['/', '/'] from rfl)]
  have hp : ∀ c ∈ n, (fun c => ¬ isNetlocEnd c : Char → Bool) c = true := by
    intro c hc
    simp [hn c hc]
  show ((n ++ X).takeWhile _, (n ++ X).dropWhile _) = (n, X)
  rw [takeWhile_append_all hp, dropWhile_append_all hp]
  rcases hX with rfl | hX
  · simp
  · cases X with
    | nil => simp
    | cons x X2 =>
      rw [List.takeWhile_cons, List.dropWhile_cons]
      rw [if_neg (by simp [show isNetlocEnd x = true from hX]),
          if_neg (by simp [show isNetlocEnd x = true from hX])]
      simp

theorem splitNetloc_no_slashes {s : Str} (h : s.take 2 ≠ ['/', '/']) :
    splitNetloc s = ([], s) := by
  unfold splitNetloc
  rw [if_neg h]

theorem exists_first_split {c : Char} {s : Str} (h : c ∈ s) :
    ∃ a b, s = a ++ c :: b ∧ c ∉ a := by
  induction s with
  | nil => cases h
  | cons x s2 ih =>
    by_cases hx : x = c
    · exact ⟨[], s2, by rw [hx]; rfl, by simp⟩
    · have hs : c ∈ s2 := by
        rcases List.mem_cons.mp h with h2 | h2
        · exact absurd h2.symm hx
        · exact h2
      rcases ih hs with ⟨a, b, hdec, hna⟩
      refine ⟨x :: a, b, by rw [hdec]; rfl, ?_⟩
      rw [List.mem_cons, not_or]
      exact ⟨fun he => hx he.symm, hna⟩

theorem exists_last_split {c : Char} {s : Str} (h : c ∈ s) :
    ∃ a b, s = a ++ c :: b ∧ c ∉ b := by
  induction s with
  | nil => cases h
  | cons x s2 ih =>
    by_cases hs : c ∈ s2
    · rcases ih hs with ⟨a, b, hdec, hnb⟩
      exact ⟨x :: a, b, by rw [hdec]; rfl, hnb⟩
    · have hx : x = c := by
        rcases List.mem_cons.mp h with h2 | h2
        · exact h2.symm
        · exact absurd h2 hs
      exact ⟨[], s2, by rw [hx]; rfl, hs⟩

theorem findIdx?_first {c : Char} {A : Str} (h : c ∉ A) (ys : Str) :
    List.findIdx? (· = c) (A ++ c :: ys) = some A.length := by
  rw [List.findIdx?_append, List.findIdx?_eq_none_iff.mpr
    (fun x hx => by simp; intro he; exact h (he ▸ hx)), List.findIdx?_cons, if_pos (by simp)]
  simp

theorem rlastIdx_concat {a b : Str} (hb : '/' ∉ b) : rlastIdx '/' (a ++ '/' :: b) = a.length := by
  unfold rlastIdx
  have hrev : (a ++ '/' :: b).reverse = b.reverse ++ '/' :: a.reverse := by simp
  rw [hrev]
  have hf : List.findIdx? (· = '/') (b.reverse ++ '/' :: a.reverse) = some b.reverse.length :=
    findIdx?_first (fun hm => hb (List.mem_reverse.mp hm)) a.reverse
  rw [hf]
  simp

theorem splitParams_slash (a b params : Str) (hb : '/' ∉ b) (hbs : ';' ∉ b)
    (hp : '/' ∉ params) :
    splitParams ((a ++ '/' :: b) ++ ';' :: params) = (a ++ '/' :: b, params) := by
  have hassoc : (a ++ '/' :: b) ++ ';' :: params = a ++ '/' :: (b ++ ';' :: params) := by simp
  have hnb : '/' ∉ b ++ ';' :: params := by
    rw [List.mem_append, List.mem_cons]
    rintro (hm | hm | hm)
    · exact hb hm
    · cases hm
    · exact hp hm
  unfold splitParams
  rw [if_pos (by simp)]
  have hrl : rlastIdx '/' ((a ++ '/' :: b) ++ ';' :: params) = a.length := by
    rw [hassoc]
    exact rlastIdx_concat hnb
  rw [hrl]
  have hdrop : ((a ++ '/' :: b) ++ ';' :: params).drop a.length = '/' :: (b ++ ';' :: params) := by
    rw [hassoc, List.drop_left]
  rw [hdrop]
  have hfidx : List.findIdx? (· = ';') ('/' :: (b ++ ';' :: params)) = some (b.length + 1) := by
    rw [show '/' :: (b ++ ';' :: params) = ('/' :: b) ++ ';' :: params from rfl]
    rw [findIdx?_first (fun hm => by
      rcases List.mem_cons.mp hm with hm | hm
      · cases hm
      · exact hbs hm) params]
    rfl
  rw [hfidx]
  show (((a ++ '/' :: b) ++ ';' :: params).take (b.length + 1 + a.length),
    ((a ++ '/' :: b) ++ ';' :: params).drop (b.length + 1 + a.length + 1))
    = (a ++ '/' :: b, params)
  have hlen2 : b.length + 1 + a.length = (a ++ '/' :: b).length := by simp; omega
  rw [hlen2, List.take_left]
  congr 1
  rw [List.drop_append_eq_append_drop, List.drop_eq_nil_of_le (by omega), List.nil_append]
  have h4 : (a ++ '/' :: b).length + 1 - (a ++ '/' :: b).length = 1 := by omega
  rw [h4]
  rfl

theorem splitParams_slash_nil (a b : Str) (hb : '/' ∉ b) (hbs : ';' ∉ b) :
    splitParams (a ++ '/' :: b) = (a ++ '/' :: b, []) := by
  unfold splitParams
  rw [if_pos (by simp)]
  rw [rlastIdx_concat hb, List.drop_left]
  rw [List.findIdx?_eq_none_iff.mpr (fun x hx => by
    simp
    intro he
    subst he
    rcases List.mem_cons.mp hx with hm | hm
    · cases hm
    · exact hbs hm)]
  rfl

theorem splitParams_noslash (path params : Str) (h1 : '/' ∉ path) (h2 : ';' ∉ path)
    (h3 : '/' ∉ params) :
    splitParams (path ++ ';' :: params) = (path, params) := by
  unfold splitParams
  rw [if_neg (fun hm => by
    rw [List.mem_append, List.mem_cons] at hm
    rcases hm with hm | hm | hm
    · exact h1 hm
    · cases hm
    · exact h3 hm)]
  rw [findIdx?_first h2 params]
  show ((path ++ ';' :: params).take path.length,
    (path ++ ';' :: params).drop (path.length + 1)) = (path, params)
  rw [List.take_left]
  congr 1
  rw [List.drop_append_eq_append_drop, List.drop_eq_nil_of_le (by omega), List.nil_append]
  have h4 : path.length + 1 - path.length = 1 := by omega
  rw [h4]
  rfl

/-- The stage of `urlparse` that follows the fragment and query splits
(params handling); `urlparseRaw` is the composition of the stages
(`urlparseRaw_eq`). -/
def parseAfterSplits (scheme netloc rest4 : Str) (query fragment : Option Str) : UrlParts :=
  if scheme ∈ uses_params ∧ ';' ∈ rest4 then
    match splitParams rest4 with
    | (path, params) => ⟨scheme, netloc, path, params, query.getD [], fragment.getD []⟩
  else ⟨scheme, netloc, rest4, [], query.getD [], fragment.getD []⟩

/-- The stage of `urlparse` after the netloc split. -/
def parseAfterNetloc (scheme netloc rest2 : Str) : UrlParts :=
  match splitOnFirst '#' rest2 with
  | (rest3, fragment) =>
    match splitOnFirst '?' rest3 with
    | (rest4, query) => parseAfterSplits scheme netloc rest4 query fragment

/-- The stage of `urlparse` after the scheme split. -/
def parsePieces (scheme rest1 : Str) : UrlParts :=
  match splitNetloc rest1 with
  | (netloc, rest2) => parseAfterNetloc scheme netloc rest2

theorem urlparseRaw_eq (u : Str) :
    urlparseRaw u = parsePieces (splitScheme (preclean u)).1 (splitScheme (preclean u)).2 := by
  unfold urlparseRaw parsePieces parseAfterNetloc parseAfterSplits
  rcases hsc : splitScheme (preclean u) with ⟨sch, r1⟩
  rcases hnl : splitNetloc r1 with ⟨nl, r2⟩
  rcases hf : splitOnFirst '#' r2 with ⟨r3, frag⟩
  rcases hq : splitOnFirst '?' r3 with ⟨r4, qu⟩
  dsimp only
  rw [hnl]

theorem prefix_trans {x y z : Str} (h1 : ∃ t, x ++ t = y) (h2 : ∃ t, y ++ t = z) :
    ∃ t, x ++ t = z := by
  obtain ⟨t1, ht1⟩ := h1
  obtain ⟨t2, ht2⟩ := h2
  exact ⟨t1 ++ t2, by rw [← List.append_assoc, ht1, ht2]⟩

theorem prefix_mem {x y : Str} (h : ∃ t, x ++ t = y) {c : Char} (hc : c ∈ x) : c ∈ y := by
  obtain ⟨t, ht⟩ := h
  rw [← ht]
  exact List.mem_append_left t hc

theorem parseAfterSplits_spec (scheme netloc rest4 : Str) (query fragment : Option Str) :
    ∃ path params : Str,
      parseAfterSplits scheme netloc rest4 query fragment
        = ⟨scheme, netloc, path, params, query.getD [], fragment.getD []⟩ ∧
      (∃ t, path ++ t = rest4) ∧
      (∀ c ∈ params, c ∈ rest4) ∧
      '/' ∉ params ∧
      (params ≠ [] → scheme ∈ uses_params) ∧
      (params ≠ [] →
        (∃ a b, path = a ++ '/' :: b ∧ '/' ∉ b ∧ ';' ∉ b) ∨ ('/' ∉ path ∧ ';' ∉ path)) ∧
      (params = [] → scheme ∈ uses_params → ';' ∈ path →
        ∃ a b, path = a ++ '/' :: b ∧ '/' ∉ b ∧ ';' ∉ b) ∧
      (params ≠ [] → path = [] → rest4.headD ' ' = ';') := by
  unfold parseAfterSplits
  by_cases hg : scheme ∈ uses_params ∧ ';' ∈ rest4
  · rw [if_pos hg]
    by_cases hsl : '/' ∈ rest4
    · rcases exists_last_split hsl with ⟨a, b, hdec, hnb⟩
      by_cases hsb : ';' ∈ b
      · rcases exists_first_split hsb with ⟨b1, b2, hbdec, hnb1⟩
        have hr : rest4 = (a ++ '/' :: b1) ++ ';' :: b2 := by
          rw [hdec, hbdec]
          simp
        have hnb1s : '/' ∉ b1 := fun hm => hnb (by rw [hbdec]; exact List.mem_append_left _ hm)
        have hnb2s : '/' ∉ b2 := fun hm => hnb (by rw [hbdec]; simp [hm])
        rw [hr, splitParams_slash a b1 b2 hnb1s hnb1 hnb2s]
        refine ⟨a ++ '/' :: b1, b2, rfl, ⟨';' :: b2, rfl⟩, ?_, hnb2s, fun _ => hg.1, ?_, ?_, ?_⟩
        · intro c hc
          simp [hc]
        · intro _
          exact Or.inl ⟨a, b1, rfl, hnb1s, hnb1⟩
        · intro _ _ _
          exact ⟨a, b1, rfl, hnb1s, hnb1⟩
        · intro _ hpe
          exact absurd hpe (by simp)
      · rw [hdec, splitParams_slash_nil a b hnb hsb]
        refine ⟨a ++ '/' :: b, [], rfl, ⟨[], List.append_nil _⟩, by simp, by simp,
          fun h => absurd rfl h, fun h => absurd rfl h, ?_, fun h _ => absurd rfl h⟩
        intro _ _ _
        exact ⟨a, b, rfl, hnb, hsb⟩
    · rcases exists_first_split hg.2 with ⟨p1, p2, hdec, hnp1⟩
      have hs1 : '/' ∉ p1 := fun hm => hsl (by rw [hdec]; exact List.mem_append_left _ hm)
      have hs2 : '/' ∉ p2 := fun hm => hsl (by rw [hdec]; simp [hm])
      rw [hdec, splitParams_noslash p1 p2 hs1 hnp1 hs2]
      refine ⟨p1, p2, rfl, ⟨';' :: p2, rfl⟩, ?_, hs2, fun _ => hg.1, ?_, ?_, ?_⟩
      · intro c hc
        simp [hc]
      · intro _
        exact Or.inr ⟨hs1, hnp1⟩
      · intro _ _ hm
        exact absurd hm hnp1
      · intro _ hpe
        rw [hpe]
        rfl
  · rw [if_neg hg]
    refine ⟨rest4, [], rfl, ⟨[], List.append_nil rest4⟩, by simp, by simp,
      fun h => absurd rfl h, fun h => absurd rfl h, ?_, fun h _ => absurd rfl h⟩
    intro _ hus hsm
    exact absurd ⟨hus, hsm⟩ hg

theorem headD_of_prefix {x y : Str} (h : ∃ t, x ++ t = y) (hx : x.headD ' ' = ';') :
    y.headD ' ' = ';' := by
  obtain ⟨t, ht⟩ := h
  cases x with
  | nil => exact absurd hx (by decide)
  | cons c xt =>
    rw [← ht]
    exact hx

theorem parseAfterNetloc_spec (scheme netloc rest2 : Str) :
    ∃ path params query fragment : Str,
      parseAfterNetloc scheme netloc rest2 = ⟨scheme, netloc, path, params, query, fragment⟩ ∧
      (∃ t, path ++ t = rest2) ∧
      (∀ c ∈ params, c ∈ rest2) ∧ (∀ c ∈ fragment, c ∈ rest2) ∧
      '#' ∉ path ∧ '?' ∉ path ∧ '#' ∉ params ∧ '?' ∉ params ∧ '/' ∉ params ∧
      (params ≠ [] → scheme ∈ uses_params) ∧
      (params ≠ [] →
        (∃ a b, path = a ++ '/' :: b ∧ '/' ∉ b ∧ ';' ∉ b) ∨ ('/' ∉ path ∧ ';' ∉ path)) ∧
      (params = [] → scheme ∈ uses_params → ';' ∈ path →
        ∃ a b, path = a ++ '/' :: b ∧ '/' ∉ b ∧ ';' ∉ b) ∧
      (params ≠ [] → path = [] → rest2.headD ' ' = ';') := by
  unfold parseAfterNetloc
  rcases splitOnFirst_cases '#' rest2 with ⟨hnm3, hsp3⟩ | ⟨r3, f, hdec3, hnm3, hsp3⟩
  · rw [hsp3]
    dsimp only
    rcases splitOnFirst_cases '?' rest2 with ⟨hnm4, hsp4⟩ | ⟨r4, qu, hdec4, hnm4, hsp4⟩
    · rw [hsp4]
      dsimp only
      obtain ⟨path, params, heq, hpre, hpm, hps, hpsch, hshape, hsemi, hsemH⟩ :=
        parseAfterSplits_spec scheme netloc rest2 none none
      refine ⟨path, params, [], [], heq, hpre, hpm, by simp, ?_, ?_, ?_, ?_, hps, hpsch,
        hshape, hsemi, hsemH⟩
      · exact fun hm => hnm3 (prefix_mem hpre hm)
      · exact fun hm => hnm4 (prefix_mem hpre hm)
      · exact fun hm => hnm3 (hpm '#' hm)
      · exact fun hm => hnm4 (hpm '?' hm)
    · rw [hsp4]
      dsimp only
      obtain ⟨path, params, heq, hpre, hpm, hps, hpsch, hshape, hsemi, hsemH⟩ :=
        parseAfterSplits_spec scheme netloc r4 (some qu) none
      have hpre2 : ∃ t, r4 ++ t = rest2 := ⟨'?' :: qu, hdec4.symm⟩
      refine ⟨path, params, qu, [], heq, prefix_trans hpre hpre2, ?_, by simp, ?_, ?_, ?_, ?_,
        hps, hpsch, hshape, hsemi,
        fun hpne hpe => headD_of_prefix hpre2 (hsemH hpne hpe)⟩
      · exact fun c hc => prefix_mem hpre2 (hpm c hc)
      · exact fun hm => hnm3 (prefix_mem hpre2 (prefix_mem hpre hm))
      · exact fun hm => hnm4 (prefix_mem hpre hm)
      · exact fun hm => hnm3 (prefix_mem hpre2 (hpm '#' hm))
      · exact fun hm => hnm4 (hpm '?' hm)
  · rw [hsp3]
    dsimp only
    have hpre3 : ∃ t, r3 ++ t = rest2 := ⟨'#' :: f, hdec3.symm⟩
    have hfm : ∀ c ∈ f, c ∈ rest2 := by
      intro c hc
      rw [hdec3]
      simp [hc]
    rcases splitOnFirst_cases '?' r3 with ⟨hnm4, hsp4⟩ | ⟨r4, qu, hdec4, hnm4, hsp4⟩
    · rw [hsp4]
      dsimp only
      obtain ⟨path, params, heq, hpre, hpm, hps, hpsch, hshape, hsemi, hsemH⟩ :=
        parseAfterSplits_spec scheme netloc r3 none (some f)
      refine ⟨path, params, [], f, heq, prefix_trans hpre hpre3, ?_, hfm, ?_, ?_, ?_, ?_,
        hps, hpsch, hshape, hsemi,
        fun hpne hpe => headD_of_prefix hpre3 (hsemH hpne hpe)⟩
      · exact fun c hc => prefix_mem hpre3 (hpm c hc)
      · exact fun hm => hnm3 (prefix_mem hpre hm)
      · exact fun hm => hnm4 (prefix_mem hpre hm)
      · exact fun hm => hnm3 (hpm '#' hm)
      · exact fun hm => hnm4 (hpm '?' hm)
    · rw [hsp4]
      dsimp only
      obtain ⟨path, params, heq, hpre, hpm, hps, hpsch, hshape, hsemi, hsemH⟩ :=
        parseAfterSplits_spec scheme netloc r4 (some qu) (some f)
      have hpre4 : ∃ t, r4 ++ t = r3 := ⟨'?' :: qu, hdec4.symm⟩
      refine ⟨path, params, qu, f, heq, prefix_trans hpre (prefix_trans hpre4 hpre3), ?_, hfm,
        ?_, ?_, ?_, ?_, hps, hpsch, hshape, hsemi,
        fun hpne hpe => headD_of_prefix (prefix_trans hpre4 hpre3) (hsemH hpne hpe)⟩
      · exact fun c hc => prefix_mem hpre3 (prefix_mem hpre4 (hpm c hc))
      · exact fun hm => hnm3 (prefix_mem hpre4 (prefix_mem hpre hm))
      · exact fun hm => hnm4 (prefix_mem hpre hm)
      · exact fun hm => hnm3 (prefix_mem hpre4 (hpm '#' hm))
      · exact fun hm => hnm4 (hpm '?' hm)

theorem preclean_ctl (u : Str) : ∀ c ∈ preclean u, ¬(c = '\t' ∨ c = '\r' ∨ c = '\n') := by
  intro c hc
  unfold preclean at hc
  have h := List.of_mem_filter hc
  simpa using h

theorem dropWhile_head_false {p : Char → Bool} {u : Str} {c : Char} {D2 : Str}
    (hd : u.dropWhile p = c :: D2) : p c = false := by
  induction u with
  | nil => cases hd
  | cons x u2 ih =>
    rw [List.dropWhile_cons] at hd
    by_cases hx : p x = true
    · rw [if_pos hx] at hd
      exact ih hd
    · rw [if_neg hx] at hd
      injection hd with h1 _
      rw [← h1]
      exact Bool.eq_false_iff.mpr hx

theorem preclean_head (u : Str) : preclean u = [] ∨ 0x20 < ((preclean u).headD ' ').toNat := by
  unfold preclean
  cases hd : (u.dropWhile (fun c => c.val ≤ 0x20)) with
  | nil => left; rfl
  | cons c D2 =>
    right
    have hq : (decide (c.val ≤ 0x20)) = false := dropWhile_head_false hd
    rw [decide_eq_false_iff_not] at hq
    have hcv : 0x20 < c.val.toNat := by
      by_contra hle
      push_neg at hle
      exact hq (by exact_mod_cast hle)
    have hpc : (fun c : Char => decide (¬(c = '\t' ∨ c = '\r' ∨ c = '\n'))) c = true := by
      simp only [decide_eq_true_eq]
      rintro (rfl | rfl | rfl) <;> exact absurd hcv (by decide)
    rw [List.filter_cons, if_pos hpc]
    show 0x20 < c.toNat
    exact hcv

theorem splitNetloc_cases (s : Str) :
    splitNetloc s = ([], s) ∨
    ∃ rest, s = '/' :: '/' :: rest ∧
      splitNetloc s = (rest.takeWhile (fun c => ¬ isNetlocEnd c),
        rest.dropWhile (fun c => ¬ isNetlocEnd c)) := by
  unfold splitNetloc
  by_cases h : s.take 2 = ['/', '/']
  · right
    refine ⟨s.drop 2, ?_, by rw [if_pos h]⟩
    conv_lhs => rw [← List.take_append_drop 2 s]
    rw [h]
    rfl
  · left
    rw [if_neg h]

theorem netlocEnd_not_alpha {c : Char} (h : isNetlocEnd c = true) : c.isAlpha = false := by
  unfold isNetlocEnd at h
  simp only [Bool.or_eq_true, decide_eq_true_eq] at h
  rcases h with (rfl | rfl) | rfl <;> decide

theorem netlocEnd_gt_space {c : Char} (h : isNetlocEnd c = true) : 0x20 < c.toNat := by
  unfold isNetlocEnd at h
  simp only [Bool.or_eq_true, decide_eq_true_eq] at h
  rcases h with (rfl | rfl) | rfl <;> decide

/-- The invariants `urlparse` guarantees about its result, used to show the
reparse of `urlunparse` output recovers the components exactly. -/
structure ParseInv (p : UrlParts) : Prop where
  scheme_valid : p.scheme = [] ∨ (p.scheme ≠ [] ∧ p.scheme.all isSchemeChar = true ∧
      (p.scheme.headD ' ').isAlpha = true ∧ asciiLower p.scheme = p.scheme)
  netloc_end : ∀ c ∈ p.netloc, isNetlocEnd c = false
  path_hash : '#' ∉ p.path
  path_qm : '?' ∉ p.path
  params_hash : '#' ∉ p.params
  params_qm : '?' ∉ p.params
  params_slash : '/' ∉ p.params
  params_scheme : p.params ≠ [] → p.scheme ∈ uses_params
  params_shape : p.params ≠ [] →
      (∃ a b, p.path = a ++ '/' :: b ∧ '/' ∉ b ∧ ';' ∉ b) ∨ ('/' ∉ p.path ∧ ';' ∉ p.path)
  path_semi : p.params = [] → p.scheme ∈ uses_params → ';' ∈ p.path →
      ∃ a b, p.path = a ++ '/' :: b ∧ '/' ∉ b ∧ ';' ∉ b
  netloc_path : p.netloc ≠ [] → (p.path = [] ∧ p.params = []) ∨ p.path.take 1 = ['/']
  head_clean : p.scheme = [] → p.netloc = [] → p.path ≠ [] → 0x20 < (p.path.headD ' ').toNat
  colon_inv : p.scheme = [] → p.netloc = [] → ∀ pa pr, p.path = pa ++ ':' :: pr → ':' ∉ pa →
      pa = [] ∨ (pa.headD ' ').isAlpha = false ∨ pa.all isSchemeChar = false
  netloc_ctl : ∀ c ∈ p.netloc, ¬(c = '\t' ∨ c = '\r' ∨ c = '\n')
  path_ctl : ∀ c ∈ p.path, ¬(c = '\t' ∨ c = '\r' ∨ c = '\n')
  params_ctl : ∀ c ∈ p.params, ¬(c = '\t' ∨ c = '\r' ∨ c = '\n')
  fragment_ctl : ∀ c ∈ p.fragment, ¬(c = '\t' ∨ c = '\r' ∨ c = '\n')

theorem parsePieces_inv (scheme rest1 : Str)
    (hschv : scheme = [] ∨ (scheme ≠ [] ∧ scheme.all isSchemeChar = true ∧
      (scheme.headD ' ').isAlpha = true ∧ asciiLower scheme = scheme))
    (hctl : ∀ c ∈ rest1, ¬(c = '\t' ∨ c = '\r' ∨ c = '\n'))
    (hhead : scheme = [] → rest1 = [] ∨ 0x20 < (rest1.headD ' ').toNat)
    (hcol : scheme = [] → ∀ pa q, rest1 = pa ++ ':' :: q → ':' ∉ pa →
      pa = [] ∨ (pa.headD ' ').isAlpha = false ∨ pa.all isSchemeChar = false) :
    ParseInv (parsePieces scheme rest1) := by
  unfold parsePieces
  rcases splitNetloc_cases rest1 with hnl | ⟨rest, hdec2, hnl⟩
  · rw [hnl]
    dsimp only
    obtain ⟨path, params, query, fragment, heq, hpre, hpm, hfm, hph, hpq, hprh, hprq, hprs,
      hpsch, hshape, hsemi, hsemH⟩ := parseAfterNetloc_spec scheme [] rest1
    rw [heq]
    exact {
      scheme_valid := hschv
      netloc_end := by simp
      path_hash := hph
      path_qm := hpq
      params_hash := hprh
      params_qm := hprq
      params_slash := hprs
      params_scheme := hpsch
      params_shape := hshape
      path_semi := hsemi
      netloc_path := fun h => absurd rfl h
      head_clean := by
        intro hs0 _ hpne
        have hs02 : scheme = [] := hs0
        have hpne2 : path ≠ [] := hpne
        show 0x20 < (path.headD ' ').toNat
        rcases hpre with ⟨t, ht⟩
        cases path with
        | nil => exact absurd rfl hpne2
        | cons c pt =>
          rcases hhead hs02 with h0 | h0
          · rw [← ht] at h0
            simp at h0
          · rw [← ht] at h0
            simp only [List.cons_append, List.headD_cons] at h0
            simpa using h0
      colon_inv := by
        intro hs0 _ pa pr hpdec hpanc
        have hs02 : scheme = [] := hs0
        have hpdec2 : path = pa ++ ':' :: pr := hpdec
        rcases hpre with ⟨t, ht⟩
        exact hcol hs02 pa (pr ++ t) (by rw [← ht, hpdec2]; simp) hpanc
      netloc_ctl := by simp
      path_ctl := fun c hc => hctl c (prefix_mem hpre hc)
      params_ctl := fun c hc => hctl c (hpm c hc)
      fragment_ctl := fun c hc => hctl c (hfm c hc) }
  · rw [hnl]
    dsimp only
    obtain ⟨path, params, query, fragment, heq, hpre, hpm, hfm, hph, hpq, hprh, hprq, hprs,
      hpsch, hshape, hsemi, hsemH⟩ := parseAfterNetloc_spec scheme
        (rest.takeWhile (fun c => ¬ isNetlocEnd c))
        (rest.dropWhile (fun c => ¬ isNetlocEnd c))
    rw [heq]
    have hrest_mem : ∀ c ∈ rest, c ∈ rest1 := by
      intro c hc
      rw [hdec2]
      simp [hc]
    have hr2_mem : ∀ c ∈ rest.dropWhile (fun c => ¬ isNetlocEnd c), c ∈ rest := by
      intro c hc
      exact (List.dropWhile_sublist _).mem hc
    have hr2_head : ∀ c r2t, rest.dropWhile (fun c => ¬ isNetlocEnd c) = c :: r2t →
        isNetlocEnd c = true := by
      intro c r2t hd
      have h := dropWhile_head_false hd
      simpa using h
    exact {
      scheme_valid := hschv
      netloc_end := by
        intro c hc
        have h := List.mem_takeWhile_imp hc
        simpa using h
      path_hash := hph
      path_qm := hpq
      params_hash := hprh
      params_qm := hprq
      params_slash := hprs
      params_scheme := hpsch
      params_shape := hshape
      path_semi := hsemi
      netloc_path := by
        intro hnl
        cases hr2 : rest.dropWhile (fun c => ¬ isNetlocEnd c) with
        | nil =>
          left
          constructor
          · rcases hpre with ⟨t, ht⟩
            rw [hr2] at ht
            exact (List.append_eq_nil.mp ht).1
          · rcases hp : params with _ | ⟨c, ps⟩
            · rfl
            · exfalso
              have hm := hpm c (by rw [hp]; simp)
              rw [hr2] at hm
              cases hm
        | cons c r2t =>
          have hend := hr2_head c r2t hr2
          by_cases hpte : path = []
          · by_cases hpme : params = []
            · exact Or.inl ⟨hpte, hpme⟩
            · exfalso
              have hsh := hsemH hpme hpte
              rw [hr2] at hsh
              have hc : c = ';' := hsh
              rw [hc] at hend
              exact absurd hend (by decide)
          · right
            obtain ⟨pc, pt, hpath⟩ : ∃ pc pt, path = pc :: pt := by
              cases path with
              | nil => exact absurd rfl hpte
              | cons a b => exact ⟨a, b, rfl⟩
            rcases hpre with ⟨t, ht⟩
            rw [hpath, hr2] at ht
            have ht2 : pc :: (pt ++ t) = c :: r2t := ht
            injection ht2 with hpc _
            unfold isNetlocEnd at hend
            simp only [Bool.or_eq_true, decide_eq_true_eq] at hend
            rcases hend with (hcc | hcc) | hcc
            · show path.take 1 = ['/']
              rw [hpath]
              rw [show (pc :: pt).take 1 = [pc] from rfl, hpc, hcc]
            · exfalso
              apply hpq
              rw [hpath, List.mem_cons]
              exact Or.inl (by rw [hpc, hcc])
            · exfalso
              apply hph
              rw [hpath, List.mem_cons]
              exact Or.inl (by rw [hpc, hcc])
      head_clean := by
        intro _ _ hpne
        have hpne2 : path ≠ [] := hpne
        show 0x20 < (path.headD ' ').toNat
        rcases hpre with ⟨t, ht⟩
        cases path with
        | nil => exact absurd rfl hpne2
        | cons c pt =>
          have hht : rest.dropWhile (fun c => ¬ isNetlocEnd c) = c :: (pt ++ t) := by
            rw [← ht]
            simp
          have hend := hr2_head c _ hht
          simpa using netlocEnd_gt_space hend
      colon_inv := by
        intro _ _ pa pr hpdec hpanc
        have hpdec2 : path = pa ++ ':' :: pr := hpdec
        by_cases hpa : pa = []
        · exact Or.inl hpa
        · right
          left
          rcases hpre with ⟨t, ht⟩
          cases pa with
          | nil => exact absurd rfl hpa
          | cons c pt =>
            have hht : rest.dropWhile (fun c => ¬ isNetlocEnd c)
                = c :: (pt ++ ':' :: pr ++ t) := by
              rw [← ht, hpdec2]
              simp
            have hend := hr2_head c _ hht
            exact netlocEnd_not_alpha hend
      netloc_ctl := by
        intro c hc
        exact hctl c (hrest_mem c ((List.takeWhile_sublist _).mem hc))
      path_ctl := fun c hc => hctl c (hrest_mem c (hr2_mem c (prefix_mem hpre hc)))
      params_ctl := fun c hc => hctl c (hrest_mem c (hr2_mem c (hpm c hc)))
      fragment_ctl := fun c hc => hctl c (hrest_mem c (hr2_mem c (hfm c hc))) }

theorem parse_inv (u : Str) : ParseInv (urlparseRaw u) := by
  rw [urlparseRaw_eq]
  have hctl := preclean_ctl u
  have hhead := preclean_head u
  rcases splitScheme_cases (preclean u) with hsc | ⟨a, r, hdec, hnc, hane, hall, hhd, hsc⟩
  · rw [hsc]
    apply parsePieces_inv
    · exact Or.inl rfl
    · exact hctl
    · intro _
      exact hhead
    · intro _ pa q hqdec hpanc
      have hqdec2 : preclean u = pa ++ ':' :: q := hqdec
      by_cases hpa : pa = []
      · exact Or.inl hpa
      · by_cases hal : (pa.headD ' ').isAlpha = true
        · by_cases hacs : pa.all isSchemeChar = true
          · exfalso
            have h2 := splitScheme_of_valid q hpa hacs hal hpanc
            rw [hqdec2] at hsc
            have h3 := h2.symm.trans hsc
            have h4 := congrArg Prod.fst h3
            exact asciiLower_ne_nil hpa (by simpa using h4)
          · exact Or.inr (Or.inr (Bool.eq_false_iff.mpr hacs))
        · exact Or.inr (Or.inl (Bool.eq_false_iff.mpr hal))
  · rw [hsc]
    apply parsePieces_inv
    · exact Or.inr ⟨asciiLower_ne_nil hane, asciiLower_all_scheme hall,
        asciiLower_headD_alpha hhd hane, asciiLower_idem a⟩
    · intro c hc
      have hc2 : c ∈ r := hc
      apply hctl
      rw [hdec]
      simp [hc2]
    · intro h
      exact absurd h (asciiLower_ne_nil hane)
    · intro h
      exact absurd h (asciiLower_ne_nil hane)

theorem parseAfterSplits_recover (scheme netloc path params : Str)
    (query fragment : Option Str)
    (hprs : '/' ∉ params)
    (hpsch : params ≠ [] → scheme ∈ uses_params)
    (hshape : params ≠ [] → (∃ a b, path = a ++ '/' :: b ∧ '/' ∉ b ∧ ';' ∉ b) ∨
      ('/' ∉ path ∧ ';' ∉ path))
    (hsemi : params = [] → scheme ∈ uses_params → ';' ∈ path →
      ∃ a b, path = a ++ '/' :: b ∧ '/' ∉ b ∧ ';' ∉ b) :
    parseAfterSplits scheme netloc (if params ≠ [] then path ++ ';' :: params else path)
      query fragment = ⟨scheme, netloc, path, params, query.getD [], fragment.getD []⟩ := by
  by_cases hpe : params = []
  · subst hpe
    rw [if_neg (by simp)]
    unfold parseAfterSplits
    by_cases hg : scheme ∈ uses_params ∧ ';' ∈ path
    · rw [if_pos hg]
      obtain ⟨a, b, hpd, hnb, hsb⟩ := hsemi rfl hg.1 hg.2
      rw [hpd, splitParams_slash_nil a b hnb hsb]
    · rw [if_neg hg]
  · rw [if_pos hpe]
    unfold parseAfterSplits
    rw [if_pos ⟨hpsch hpe, by simp⟩]
    rcases hshape hpe with ⟨a, b, hpd, hnb, hsb⟩ | ⟨hns, hnsemi⟩
    · rw [hpd, splitParams_slash a b params hnb hsb hprs, ← hpd]
    · rw [splitParams_noslash path params hns hnsemi hprs]

theorem parseAfterNetloc_recover (scheme netloc path params query fragment : Str)
    (hph : '#' ∉ path) (hpq : '?' ∉ path)
    (hprh : '#' ∉ params) (hprq : '?' ∉ params) (hprs : '/' ∉ params)
    (hqh : '#' ∉ query)
    (hpsch : params ≠ [] → scheme ∈ uses_params)
    (hshape : params ≠ [] → (∃ a b, path = a ++ '/' :: b ∧ '/' ∉ b ∧ ';' ∉ b) ∨
      ('/' ∉ path ∧ ';' ∉ path))
    (hsemi : params = [] → scheme ∈ uses_params → ';' ∈ path →
      ∃ a b, path = a ++ '/' :: b ∧ '/' ∉ b ∧ ';' ∉ b) :
    parseAfterNetloc scheme netloc
      ((if params ≠ [] then path ++ ';' :: params else path) ++
        ((if query = [] then [] else '?' :: query) ++
          (if fragment = [] then [] else '#' :: fragment)))
      = ⟨scheme, netloc, path, params, query, fragment⟩ := by
  have hu0h : '#' ∉ (if params ≠ [] then path ++ ';' :: params else path) := by
    by_cases hpe : params = []
    · rw [if_neg (by simp [hpe])]
      exact hph
    · rw [if_pos hpe]
      rw [List.mem_append, List.mem_cons]
      rintro (h | h | h)
      · exact hph h
      · cases h
      · exact hprh h
  have hu0q : '?' ∉ (if params ≠ [] then path ++ ';' :: params else path) := by
    by_cases hpe : params = []
    · rw [if_neg (by simp [hpe])]
      exact hpq
    · rw [if_pos hpe]
      rw [List.mem_append, List.mem_cons]
      rintro (h | h | h)
      · exact hpq h
      · cases h
      · exact hprq h
  unfold parseAfterNetloc
  by_cases hfe : fragment = []
  · subst hfe
    rw [if_pos rfl, List.append_nil]
    by_cases hqe : query = []
    · subst hqe
      rw [if_pos rfl, List.append_nil]
      rw [splitOnFirst_not_mem hu0h]
      dsimp only
      rw [splitOnFirst_not_mem hu0q]
      dsimp only
      exact parseAfterSplits_recover scheme netloc path params none none hprs hpsch hshape hsemi
    · rw [if_neg hqe]
      have hnm : '#' ∉ (if params ≠ [] then path ++ ';' :: params else path) ++ '?' :: query := by
        rw [List.mem_append, List.mem_cons]
        rintro (h | h | h)
        · exact hu0h h
        · cases h
        · exact hqh h
      rw [splitOnFirst_not_mem hnm]
      dsimp only
      rw [splitOnFirst_append hu0q]
      dsimp only
      exact parseAfterSplits_recover scheme netloc path params (some query) none
        hprs hpsch hshape hsemi
  · rw [if_neg hfe]
    by_cases hqe : query = []
    · subst hqe
      rw [if_pos rfl, List.nil_append]
      rw [splitOnFirst_append hu0h]
      dsimp only
      rw [splitOnFirst_not_mem hu0q]
      dsimp only
      exact parseAfterSplits_recover scheme netloc path params none (some fragment)
        hprs hpsch hshape hsemi
    · rw [if_neg hqe]
      have hassoc : (if params ≠ [] then path ++ ';' :: params else path) ++
          ('?' :: query ++ '#' :: fragment)
          = ((if params ≠ [] then path ++ ';' :: params else path) ++ '?' :: query)
            ++ '#' :: fragment := by
        rw [List.append_assoc]
      rw [hassoc]
      have hnm : '#' ∉ (if params ≠ [] then path ++ ';' :: params else path) ++ '?' :: query := by
        rw [List.mem_append, List.mem_cons]
        rintro (h | h | h)
        · exact hu0h h
        · cases h
        · exact hqh h
      rw [splitOnFirst_append hnm]
      dsimp only
      rw [splitOnFirst_append hu0q]
      dsimp only
      exact parseAfterSplits_recover scheme netloc path params (some query) (some fragment)
        hprs hpsch hshape hsemi

theorem schemeChar_not_ctl {c : Char} (h : isSchemeChar c = true) :
    ¬(c = '\t' ∨ c = '\r' ∨ c = '\n') := by
  rintro (rfl | rfl | rfl) <;> exact absurd h (by decide)

theorem opt_tail_head (params query fragment : Str) :
    ((if params = [] then ([] : Str) else ';' :: params) ++
      ((if query = [] then ([] : Str) else '?' :: query) ++
        (if fragment = [] then ([] : Str) else '#' :: fragment)) = []) ∨
    ∃ δ T2, ((if params = [] then ([] : Str) else ';' :: params) ++
      ((if query = [] then ([] : Str) else '?' :: query) ++
        (if fragment = [] then ([] : Str) else '#' :: fragment))) = δ :: T2 ∧
      isSchemeChar δ = false ∧ δ ≠ ':' ∧ δ ≠ '/' ∧ δ.isAlpha = false ∧ 0x20 < δ.toNat := by
  by_cases hpe : params = []
  · rw [if_pos hpe, List.nil_append]
    by_cases hqe : query = []
    · rw [if_pos hqe, List.nil_append]
      by_cases hfe : fragment = []
      · rw [if_pos hfe]
        exact Or.inl rfl
      · rw [if_neg hfe]
        exact Or.inr ⟨'#', fragment, rfl, by decide, by decide, by decide, by decide, by decide⟩
    · rw [if_neg hqe]
      exact Or.inr ⟨'?', query ++ (if fragment = [] then [] else '#' :: fragment), rfl,
        by decide, by decide, by decide, by decide, by decide⟩
  · rw [if_neg hpe]
    exact Or.inr ⟨';', params ++ ((if query = [] then [] else '?' :: query) ++
      (if fragment = [] then [] else '#' :: fragment)), rfl,
      by decide, by decide, by decide, by decide, by decide⟩

theorem take2_path_tail {path T : Str} (h2 : path.take 2 ≠ ['/', '/'])
    (hT : T = [] ∨ ∃ δ T2, T = δ :: T2 ∧ δ ≠ '/') :
    (path ++ T).take 2 ≠ ['/', '/'] := by
  cases path with
  | nil =>
    rcases hT with rfl | ⟨δ, T2, rfl, hδ⟩
    · simp
    · intro he
      rw [List.nil_append] at he
      have hh : δ = '/' := by
        have h3 := congrArg (fun l => l.headD ' ') he
        simpa using h3
      exact hδ hh
  | cons c1 pt =>
    cases pt with
    | nil =>
      rcases hT with rfl | ⟨δ, T2, rfl, hδ⟩
      · intro he
        simp at he
      · intro he
        have hh : δ = '/' := by
          have h3 := congrArg (fun l => l.tail.headD ' ') he
          simpa using h3
        exact hδ hh
    | cons c2 pt2 =>
      intro he
      apply h2
      simpa using he

theorem preclean_eq_self {s : Str} (hctl : ∀ c ∈ s, ¬(c = '\t' ∨ c = '\r' ∨ c = '\n'))
    (hhead : s = [] ∨ 0x20 < (s.headD ' ').toNat) : preclean s = s := by
  unfold preclean
  have hdrop : s.dropWhile (fun c => c.val ≤ 0x20) = s := by
    cases s with
    | nil => rfl
    | cons c s2 =>
      rcases hhead with h | h
      · exact absurd h (by simp)
      · rw [List.dropWhile_cons, if_neg (by
          simp only [decide_eq_true_eq]
          intro hle
          have hle2 : c.val.toNat ≤ 0x20 := by exact_mod_cast hle
          have hh2 : 0x20 < c.val.toNat := h
          omega)]
  rw [hdrop]
  apply List.filter_eq_self.mpr
  intro c hc
  simpa using hctl c hc

theorem urlunparse_shape (scheme netloc path params query fragment : Str) :
    urlunparse ⟨scheme, netloc, path, params, query, fragment⟩ =
      (if scheme ≠ [] then scheme ++ ':' ::
          (if netloc ≠ [] ∨ (scheme ≠ [] ∧ scheme ∈ uses_netloc ∧
              (if params ≠ [] then path ++ ';' :: params else path).take 2 ≠ ['/', '/']) then
            '/' :: '/' :: (netloc ++
              (if (if params ≠ [] then path ++ ';' :: params else path) ≠ [] ∧
                  (if params ≠ [] then path ++ ';' :: params else path).take 1 ≠ ['/'] then
                '/' :: (if params ≠ [] then path ++ ';' :: params else path)
              else (if params ≠ [] then path ++ ';' :: params else path)))
          else (if params ≠ [] then path ++ ';' :: params else path))
        else
          (if netloc ≠ [] ∨ (scheme ≠ [] ∧ scheme ∈ uses_netloc ∧
              (if params ≠ [] then path ++ ';' :: params else path).take 2 ≠ ['/', '/']) then
            '/' :: '/' :: (netloc ++
              (if (if params ≠ [] then path ++ ';' :: params else path) ≠ [] ∧
                  (if params ≠ [] then path ++ ';' :: params else path).take 1 ≠ ['/'] then
                '/' :: (if params ≠ [] then path ++ ';' :: params else path)
              else (if params ≠ [] then path ++ ';' :: params else path)))
          else (if params ≠ [] then path ++ ';' :: params else path)))
      ++ ((if query = [] then [] else '?' :: query) ++
        (if fragment = [] then [] else '#' :: fragment)) := by
  have h1 : ∀ Z : Str,
      (if fragment ≠ [] then (if query ≠ [] then Z ++ '?' :: query else Z) ++ '#' :: fragment
        else (if query ≠ [] then Z ++ '?' :: query else Z))
      = Z ++ ((if query = [] then [] else '?' :: query) ++
          (if fragment = [] then [] else '#' :: fragment)) := by
    intro Z
    by_cases hfe : fragment = []
    · by_cases hqe : query = [] <;> simp [hfe, hqe]
    · by_cases hqe : query = [] <;> simp [hfe, hqe, List.append_assoc]
  exact h1 _

theorem parsePieces_recover_netloc (scheme netloc path params query fragment : Str)
    (hnend : ∀ c ∈ netloc, isNetlocEnd c = false)
    (hph : '#' ∉ path) (hpq : '?' ∉ path)
    (hprh : '#' ∉ params) (hprq : '?' ∉ params) (hprs : '/' ∉ params)
    (hqh : '#' ∉ query)
    (hpsch : params ≠ [] → scheme ∈ uses_params)
    (hshape : params ≠ [] → (∃ a b, path = a ++ '/' :: b ∧ '/' ∉ b ∧ ';' ∉ b) ∨
      ('/' ∉ path ∧ ';' ∉ path))
    (hsemi : params = [] → scheme ∈ uses_params → ';' ∈ path →
      ∃ a b, path = a ++ '/' :: b ∧ '/' ∉ b ∧ ';' ∉ b)
    (hXh : ((if params ≠ [] then path ++ ';' :: params else path) ++
        ((if query = [] then [] else '?' :: query) ++
          (if fragment = [] then [] else '#' :: fragment))) = [] ∨
      isNetlocEnd (((if params ≠ [] then path ++ ';' :: params else path) ++
        ((if query = [] then [] else '?' :: query) ++
          (if fragment = [] then [] else '#' :: fragment))).headD ' ') = true) :
    parsePieces scheme ('/' :: '/' :: (netloc ++
      ((if params ≠ [] then path ++ ';' :: params else path) ++
        ((if query = [] then [] else '?' :: query) ++
          (if fragment = [] then [] else '#' :: fragment)))))
      = ⟨scheme, netloc, path, params, query, fragment⟩ := by
  unfold parsePieces
  rw [splitNetloc_slashes hnend hXh]
  dsimp only
  exact parseAfterNetloc_recover scheme netloc path params query fragment
    hph hpq hprh hprq hprs hqh hpsch hshape hsemi

theorem parsePieces_recover_nonetloc (scheme path params query fragment : Str)
    (hph : '#' ∉ path) (hpq : '?' ∉ path)
    (hprh : '#' ∉ params) (hprq : '?' ∉ params) (hprs : '/' ∉ params)
    (hqh : '#' ∉ query)
    (hpsch : params ≠ [] → scheme ∈ uses_params)
    (hshape : params ≠ [] → (∃ a b, path = a ++ '/' :: b ∧ '/' ∉ b ∧ ';' ∉ b) ∨
      ('/' ∉ path ∧ ';' ∉ path))
    (hsemi : params = [] → scheme ∈ uses_params → ';' ∈ path →
      ∃ a b, path = a ++ '/' :: b ∧ '/' ∉ b ∧ ';' ∉ b)
    (htk2 : ((if params ≠ [] then path ++ ';' :: params else path) ++
        ((if query = [] then [] else '?' :: query) ++
          (if fragment = [] then [] else '#' :: fragment))).take 2 ≠ ['/', '/']) :
    parsePieces scheme ((if params ≠ [] then path ++ ';' :: params else path) ++
        ((if query = [] then [] else '?' :: query) ++
          (if fragment = [] then [] else '#' :: fragment)))
      = ⟨scheme, [], path, params, query, fragment⟩ := by
  unfold parsePieces
  rw [splitNetloc_no_slashes htk2]
  dsimp only
  exact parseAfterNetloc_recover scheme [] path params query fragment
    hph hpq hprh hprq hprs hqh hpsch hshape hsemi

theorem parse_unparse_exact (p : UrlParts) (hinv : ParseInv p)
    (hq : ∀ d ∈ p.query, isAlwaysSafe d = true ∨ d = '+' ∨ d = '%' ∨ d = '=' ∨ d = '&')
    (hH : p.netloc ≠ [] ∨ (p.path.take 2 ≠ ['/', '/'] ∧
      (p.scheme ≠ [] → p.scheme ∈ uses_netloc →
        (p.path = [] ∧ p.params = []) ∨ p.path.take 1 = ['/']))) :
    urlparseRaw (urlunparse p) = p := by
  obtain ⟨scheme, netloc, path, params, query, fragment⟩ := p
  have hschv : scheme = [] ∨ (scheme ≠ [] ∧ scheme.all isSchemeChar = true ∧
      (scheme.headD ' ').isAlpha = true ∧ asciiLower scheme = scheme) := hinv.scheme_valid
  have hnend : ∀ c ∈ netloc, isNetlocEnd c = false := hinv.netloc_end
  have hph : '#' ∉ path := hinv.path_hash
  have hpq : '?' ∉ path := hinv.path_qm
  have hprh : '#' ∉ params := hinv.params_hash
  have hprq : '?' ∉ params := hinv.params_qm
  have hprs : '/' ∉ params := hinv.params_slash
  have hpsch : params ≠ [] → scheme ∈ uses_params := hinv.params_scheme
  have hshape : params ≠ [] → (∃ a b, path = a ++ '/' :: b ∧ '/' ∉ b ∧ ';' ∉ b) ∨
      ('/' ∉ path ∧ ';' ∉ path) := hinv.params_shape
  have hsemi : params = [] → scheme ∈ uses_params → ';' ∈ path →
      ∃ a b, path = a ++ '/' :: b ∧ '/' ∉ b ∧ ';' ∉ b := hinv.path_semi
  have hnpath : netloc ≠ [] → (path = [] ∧ params = []) ∨ path.take 1 = ['/'] :=
    hinv.netloc_path
  have hheadc : scheme = [] → netloc = [] → path ≠ [] → 0x20 < (path.headD ' ').toNat :=
    hinv.head_clean
  have hcoli : scheme = [] → netloc = [] → ∀ pa pr, path = pa ++ ':' :: pr → ':' ∉ pa →
      pa = [] ∨ (pa.headD ' ').isAlpha = false ∨ pa.all isSchemeChar = false := hinv.colon_inv
  have hnctl : ∀ c ∈ netloc, ¬(c = '\t' ∨ c = '\r' ∨ c = '\n') := hinv.netloc_ctl
  have hpctl : ∀ c ∈ path, ¬(c = '\t' ∨ c = '\r' ∨ c = '\n') := hinv.path_ctl
  have hprctl : ∀ c ∈ params, ¬(c = '\t' ∨ c = '\r' ∨ c = '\n') := hinv.params_ctl
  have hfctl : ∀ c ∈ fragment, ¬(c = '\t' ∨ c = '\r' ∨ c = '\n') := hinv.fragment_ctl
  have hq2 : ∀ d ∈ query, isAlwaysSafe d = true ∨ d = '+' ∨ d = '%' ∨ d = '=' ∨ d = '&' := hq
  have hH2 : netloc ≠ [] ∨ (path.take 2 ≠ ['/', '/'] ∧ (scheme ≠ [] → scheme ∈ uses_netloc →
      (path = [] ∧ params = []) ∨ path.take 1 = ['/'])) := hH
  clear hinv hq hH
  have hqh : '#' ∉ query := by
    intro hm
    rcases hq2 '#' hm with h | h | h | h | h <;> exact absurd h (by decide)
  have hqctl : ∀ c ∈ query, ¬(c = '\t' ∨ c = '\r' ∨ c = '\n') := by
    intro c hm hh
    rcases hh with rfl | rfl | rfl <;>
      (rcases hq2 _ hm with h | h | h | h | h <;> exact absurd h (by decide))
  have hsctl : ∀ c ∈ scheme, ¬(c = '\t' ∨ c = '\r' ∨ c = '\n') := by
    rcases hschv with h0 | ⟨_, hall, _, _⟩
    · rw [h0]
      intro c hc
      cases hc
    · intro c hc
      exact schemeChar_not_ctl (List.all_eq_true.mp hall c hc)
  have hu0ctl : ∀ c ∈ (if params ≠ [] then path ++ ';' :: params else path),
      ¬(c = '\t' ∨ c = '\r' ∨ c = '\n') := by
    by_cases hpe : params = []
    · rw [if_neg (by simp [hpe])]
      exact hpctl
    · rw [if_pos hpe]
      intro c hc
      rw [List.mem_append, List.mem_cons] at hc
      rcases hc with hc | hc | hc
      · exact hpctl c hc
      · subst hc
        decide
      · exact hprctl c hc
  have hQGctl : ∀ c ∈ ((if query = [] then ([] : Str) else '?' :: query) ++
      (if fragment = [] then ([] : Str) else '#' :: fragment)),
      ¬(c = '\t' ∨ c = '\r' ∨ c = '\n') := by
    intro c hc
    rw [List.mem_append] at hc
    rcases hc with hc | hc
    · by_cases hqe : query = []
      · rw [if_pos hqe] at hc
        cases hc
      · rw [if_neg hqe] at hc
        rcases List.mem_cons.mp hc with rfl | hc
        · decide
        · exact hqctl c hc
    · by_cases hfe : fragment = []
      · rw [if_pos hfe] at hc
        cases hc
      · rw [if_neg hfe] at hc
        rcases List.mem_cons.mp hc with rfl | hc
        · decide
        · exact hfctl c hc
  have hrestctl : ∀ c ∈ (if params ≠ [] then path ++ ';' :: params else path) ++
      ((if query = [] then ([] : Str) else '?' :: query) ++
        (if fragment = [] then ([] : Str) else '#' :: fragment)),
      ¬(c = '\t' ∨ c = '\r' ∨ c = '\n') := by
    intro c hc
    rw [List.mem_append] at hc
    rcases hc with hc | hc
    · exact hu0ctl c hc
    · exact hQGctl c hc
  have hu0eq : (if params ≠ [] then path ++ ';' :: params else path)
      = path ++ (if params = [] then [] else ';' :: params) := by
    by_cases hpe : params = [] <;> simp [hpe]
  have hview : (if params ≠ [] then path ++ ';' :: params else path) ++
      ((if query = [] then ([] : Str) else '?' :: query) ++
        (if fragment = [] then ([] : Str) else '#' :: fragment))
      = path ++ ((if params = [] then ([] : Str) else ';' :: params) ++
        ((if query = [] then ([] : Str) else '?' :: query) ++
          (if fragment = [] then ([] : Str) else '#' :: fragment))) := by
    rw [hu0eq, List.append_assoc]
  have hT := opt_tail_head params query fragment
  rw [urlunparse_shape]
  by_cases hC : netloc ≠ [] ∨ (scheme ≠ [] ∧ scheme ∈ uses_netloc ∧
      (if params ≠ [] then path ++ ';' :: params else path).take 2 ≠ ['/', '/'])
  · rw [if_pos hC]
    have hdisj : (path = [] ∧ params = []) ∨ path.take 1 = ['/'] := by
      rcases hC with hnl | ⟨hs, hu, _⟩
      · exact hnpath hnl
      · rcases hH2 with hnl | ⟨_, himp⟩
        · exact hnpath hnl
        · exact himp hs hu
    have hcase : ((if params ≠ [] then path ++ ';' :: params else path) = [] ∧
        path = [] ∧ params = []) ∨ (∃ pt, path = '/' :: pt) := by
      rcases hdisj with ⟨hpe, hpre⟩ | htk1
      · exact Or.inl ⟨by rw [if_neg (by simp [hpre])]; exact hpe, hpe, hpre⟩
      · right
        cases path with
        | nil => simp at htk1
        | cons a b =>
          have h3 : [a] = ['/'] := htk1
          injection h3 with h4 _
          exact ⟨b, by rw [h4]⟩
    have hnoins : (if (if params ≠ [] then path ++ ';' :: params else path) ≠ [] ∧
        (if params ≠ [] then path ++ ';' :: params else path).take 1 ≠ ['/'] then
        '/' :: (if params ≠ [] then path ++ ';' :: params else path)
      else (if params ≠ [] then path ++ ';' :: params else path))
      = (if params ≠ [] then path ++ ';' :: params else path) := by
      apply if_neg
      rcases hcase with ⟨hu0nil, _, _⟩ | ⟨pt, hpd⟩
      · rintro ⟨h1, _⟩
        exact h1 hu0nil
      · rintro ⟨_, h2⟩
        apply h2
        by_cases hpe : params = []
        · rw [if_neg (by simp [hpe]), hpd]
          rfl
        · rw [if_pos hpe, hpd]
          rfl
    rw [hnoins]
    have hXh : ((if params ≠ [] then path ++ ';' :: params else path) ++
        ((if query = [] then ([] : Str) else '?' :: query) ++
          (if fragment = [] then ([] : Str) else '#' :: fragment))) = [] ∨
        isNetlocEnd ((((if params ≠ [] then path ++ ';' :: params else path) ++
          ((if query = [] then ([] : Str) else '?' :: query) ++
            (if fragment = [] then ([] : Str) else '#' :: fragment)))).headD ' ') = true := by
      rcases hcase with ⟨hu0nil, _, _⟩ | ⟨pt, hpd⟩
      · rw [hu0nil, List.nil_append]
        by_cases hqe : query = []
        · rw [if_pos hqe, List.nil_append]
          by_cases hfe : fragment = []
          · rw [if_pos hfe]
            exact Or.inl rfl
          · rw [if_neg hfe]
            right
            show isNetlocEnd '#' = true
            decide
        · rw [if_neg hqe]
          right
          show isNetlocEnd '?' = true
          decide
      · right
        rw [hview, hpd]
        show isNetlocEnd '/' = true
        decide
    by_cases hs0 : scheme = []
    · subst hs0
      rw [if_neg (by simp)]
      have hFr : ('/' :: '/' :: (netloc ++ (if params ≠ [] then path ++ ';' :: params else path)))
          ++ ((if query = [] then ([] : Str) else '?' :: query) ++
            (if fragment = [] then ([] : Str) else '#' :: fragment))
          = '/' :: '/' :: (netloc ++ ((if params ≠ [] then path ++ ';' :: params else path) ++
            ((if query = [] then ([] : Str) else '?' :: query) ++
              (if fragment = [] then ([] : Str) else '#' :: fragment)))) := by
        simp [List.append_assoc]
      rw [hFr, urlparseRaw_eq]
      have hpre := preclean_eq_self
        (s := '/' :: '/' :: (netloc ++ ((if params ≠ [] then path ++ ';' :: params else path) ++
          ((if query = [] then ([] : Str) else '?' :: query) ++
            (if fragment = [] then ([] : Str) else '#' :: fragment)))))
        (by
          intro c hc
          rcases List.mem_cons.mp hc with rfl | hc
          · decide
          rcases List.mem_cons.mp hc with rfl | hc
          · decide
          rw [List.mem_append] at hc
          rcases hc with hc | hc
          · exact hnctl c hc
          · exact hrestctl c hc)
        (by
          right
          show 0x20 < ('/' : Char).toNat
          decide)
      rw [hpre]
      rw [splitScheme_head_not_alpha (by show ('/' : Char).isAlpha = false; decide)]
      dsimp only
      exact parsePieces_recover_netloc [] netloc path params query fragment hnend hph hpq hprh
        hprq hprs hqh hpsch hshape hsemi hXh
    · rw [if_pos hs0]
      have hsv : scheme ≠ [] ∧ scheme.all isSchemeChar = true ∧
          (scheme.headD ' ').isAlpha = true ∧ asciiLower scheme = scheme := by
        rcases hschv with h | h
        · exact absurd h hs0
        · exact h
      obtain ⟨hsne, hsall, hshd, hslow⟩ := hsv
      have hncs : ':' ∉ scheme := fun hm =>
        absurd (List.all_eq_true.mp hsall ':' hm) (by decide)
      have hFr : (scheme ++ ':' :: ('/' :: '/' :: (netloc ++
          (if params ≠ [] then path ++ ';' :: params else path))))
          ++ ((if query = [] then ([] : Str) else '?' :: query) ++
            (if fragment = [] then ([] : Str) else '#' :: fragment))
          = scheme ++ ':' :: ('/' :: '/' :: (netloc ++
            ((if params ≠ [] then path ++ ';' :: params else path) ++
              ((if query = [] then ([] : Str) else '?' :: query) ++
                (if fragment = [] then ([] : Str) else '#' :: fragment))))) := by
        simp [List.append_assoc]
      rw [hFr, urlparseRaw_eq]
      obtain ⟨sc, st, hsd⟩ : ∃ sc st, scheme = sc :: st := by
        cases scheme with
        | nil => exact absurd rfl hsne
        | cons a b => exact ⟨a, b, rfl⟩
      have hpre := preclean_eq_self
        (s := scheme ++ ':' :: ('/' :: '/' :: (netloc ++
          ((if params ≠ [] then path ++ ';' :: params else path) ++
            ((if query = [] then ([] : Str) else '?' :: query) ++
              (if fragment = [] then ([] : Str) else '#' :: fragment))))))
        (by
          intro c hc
          rw [List.mem_append] at hc
          rcases hc with hc | hc
          · exact hsctl c hc
          rcases List.mem_cons.mp hc with rfl | hc
          · decide
          rcases List.mem_cons.mp hc with rfl | hc
          · decide
          rcases List.mem_cons.mp hc with rfl | hc
          · decide
          rw [List.mem_append] at hc
          rcases hc with hc | hc
          · exact hnctl c hc
          · exact hrestctl c hc)
        (by
          right
          rw [hsd]
          show 0x20 < sc.toNat
          apply alpha_gt_space
          rw [hsd] at hshd
          exact hshd)
      rw [hpre]
      rw [splitScheme_of_valid _ hsne hsall hshd hncs, hslow]
      dsimp only
      exact parsePieces_recover_netloc scheme netloc path params query fragment hnend hph hpq
        hprh hprq hprs hqh hpsch hshape hsemi hXh
  · rw [if_neg hC]
    have hnl0 : netloc = [] := by
      by_contra h
      exact hC (Or.inl h)
    subst hnl0
    have hpt2 : path.take 2 ≠ ['/', '/'] := by
      rcases hH2 with h | ⟨h, _⟩
      · exact absurd rfl h
      · exact h
    have htk2 : (((if params ≠ [] then path ++ ';' :: params else path) ++
        ((if query = [] then ([] : Str) else '?' :: query) ++
          (if fragment = [] then ([] : Str) else '#' :: fragment)))).take 2 ≠ ['/', '/'] := by
      rw [hview]
      apply take2_path_tail hpt2
      rcases hT with h | ⟨δ, T2, heq, _, _, hδs, _, _⟩
      · exact Or.inl h
      · exact Or.inr ⟨δ, T2, heq, hδs⟩
    by_cases hs0 : scheme = []
    · subst hs0
      rw [if_neg (by simp)]
      rw [urlparseRaw_eq]
      have hpre := preclean_eq_self
        (s := (if params ≠ [] then path ++ ';' :: params else path) ++
          ((if query = [] then ([] : Str) else '?' :: query) ++
            (if fragment = [] then ([] : Str) else '#' :: fragment)))
        hrestctl
        (by
          rw [hview]
          cases hpc : path with
          | nil =>
            rw [List.nil_append]
            rcases hT with h | ⟨δ, T2, heq, _, _, _, _, hδsp⟩
            · rw [h]
              exact Or.inl rfl
            · rw [heq]
              right
              show 0x20 < δ.toNat
              exact hδsp
          | cons c pt =>
            right
            show 0x20 < c.toNat
            have h0 := hheadc rfl rfl (by rw [hpc]; simp)
            rw [hpc] at h0
            exact h0)
      rw [hpre]
      have hss : splitScheme ((if params ≠ [] then path ++ ';' :: params else path) ++
          ((if query = [] then ([] : Str) else '?' :: query) ++
            (if fragment = [] then ([] : Str) else '#' :: fragment)))
          = ([], (if params ≠ [] then path ++ ';' :: params else path) ++
            ((if query = [] then ([] : Str) else '?' :: query) ++
              (if fragment = [] then ([] : Str) else '#' :: fragment))) := by
        by_cases hcm : ':' ∈ path
        · rcases exists_first_split hcm with ⟨pa, pr, hpd, hpanc⟩
          have hinv2 := hcoli rfl rfl pa pr hpd hpanc
          have hFdec : (if params ≠ [] then path ++ ';' :: params else path) ++
              ((if query = [] then ([] : Str) else '?' :: query) ++
                (if fragment = [] then ([] : Str) else '#' :: fragment))
              = pa ++ ':' :: (pr ++ ((if params = [] then ([] : Str) else ';' :: params) ++
                ((if query = [] then ([] : Str) else '?' :: query) ++
                  (if fragment = [] then ([] : Str) else '#' :: fragment)))) := by
            rw [hview, hpd]
            simp [List.append_assoc]
          rw [hFdec]
          exact splitScheme_invalid _ hpanc hinv2
        · by_cases hcT : ':' ∈ (if params = [] then ([] : Str) else ';' :: params) ++
              ((if query = [] then ([] : Str) else '?' :: query) ++
                (if fragment = [] then ([] : Str) else '#' :: fragment))
          · rcases hT with hTe | ⟨δ, T2, hTeq, hδs, hδc, _, _, _⟩
            · rw [hTe] at hcT
              cases hcT
            · rcases exists_first_split hcT with ⟨ta, tr, hTd, htanc⟩
              obtain ⟨ta2, rfl⟩ : ∃ ta2, ta = δ :: ta2 := by
                cases ta with
                | nil =>
                  rw [hTeq] at hTd
                  have h5 : δ :: T2 = ':' :: tr := hTd
                  injection h5 with h6 _
                  exact absurd h6 hδc
                | cons x ta2 =>
                  rw [hTeq] at hTd
                  have h5 : δ :: T2 = x :: (ta2 ++ ':' :: tr) := hTd
                  injection h5 with h6 _
                  exact ⟨ta2, by rw [h6]⟩
              have hFdec : (if params ≠ [] then path ++ ';' :: params else path) ++
                  ((if query = [] then ([] : Str) else '?' :: query) ++
                    (if fragment = [] then ([] : Str) else '#' :: fragment))
                  = (path ++ δ :: ta2) ++ ':' :: tr := by
                rw [hview, hTd]
                simp [List.append_assoc]
              rw [hFdec]
              apply splitScheme_invalid
              · rw [List.mem_append, List.mem_cons]
                rintro (h | h | h)
                · exact hcm h
                · exact hδc h.symm
                · exact htanc (by simp [h])
              · right
                right
                rw [List.all_eq_false]
                exact ⟨δ, by simp, by simp [hδs]⟩
          · apply splitScheme_no_colon
            rw [hview, List.mem_append]
            rintro (h | h)
            · exact hcm h
            · exact hcT h
      rw [hss]
      dsimp only
      exact parsePieces_recover_nonetloc [] path params query fragment hph hpq hprh hprq hprs
        hqh hpsch hshape hsemi htk2
    · rw [if_pos hs0]
      have hsv : scheme ≠ [] ∧ scheme.all isSchemeChar = true ∧
          (scheme.headD ' ').isAlpha = true ∧ asciiLower scheme = scheme := by
        rcases hschv with h | h
        · exact absurd h hs0
        · exact h
      obtain ⟨hsne, hsall, hshd, hslow⟩ := hsv
      have hncs : ':' ∉ scheme := fun hm =>
        absurd (List.all_eq_true.mp hsall ':' hm) (by decide)
      have hFr : (scheme ++ ':' :: (if params ≠ [] then path ++ ';' :: params else path))
          ++ ((if query = [] then ([] : Str) else '?' :: query) ++
            (if fragment = [] then ([] : Str) else '#' :: fragment))
          = scheme ++ ':' :: ((if params ≠ [] then path ++ ';' :: params else path) ++
            ((if query = [] then ([] : Str) else '?' :: query) ++
              (if fragment = [] then ([] : Str) else '#' :: fragment))) := by
        simp [List.append_assoc]
      rw [hFr, urlparseRaw_eq]
      obtain ⟨sc, st, hsd⟩ : ∃ sc st, scheme = sc :: st := by
        cases scheme with
        | nil => exact absurd rfl hsne
        | cons a b => exact ⟨a, b, rfl⟩
      have hpre := preclean_eq_self
        (s := scheme ++ ':' :: ((if params ≠ [] then path ++ ';' :: params else path) ++
          ((if query = [] then ([] : Str) else '?' :: query) ++
            (if fragment = [] then ([] : Str) else '#' :: fragment))))
        (by
          intro c hc
          rw [List.mem_append] at hc
          rcases hc with hc | hc
          · exact hsctl c hc
          rcases List.mem_cons.mp hc with rfl | hc
          · decide
          exact hrestctl c hc)
        (by
          right
          rw [hsd]
          show 0x20 < sc.toNat
          apply alpha_gt_space
          rw [hsd] at hshd
          exact hshd)
      rw [hpre]
      rw [splitScheme_of_valid _ hsne hsall hshd hncs, hslow]
      dsimp only
      exact parsePieces_recover_nonetloc scheme path params query fragment hph hpq hprh hprq
        hprs hqh hpsch hshape hsemi htk2

theorem parseInv_set_query {p : UrlParts} (h : ParseInv p) (q : Str) :
    ParseInv { p with query := q } :=
  { scheme_valid := h.scheme_valid
    netloc_end := h.netloc_end
    path_hash := h.path_hash
    path_qm := h.path_qm
    params_hash := h.params_hash
    params_qm := h.params_qm
    params_slash := h.params_slash
    params_scheme := h.params_scheme
    params_shape := h.params_shape
    path_semi := h.path_semi
    netloc_path := h.netloc_path
    head_clean := h.head_clean
    colon_inv := h.colon_inv
    netloc_ctl := h.netloc_ctl
    path_ctl := h.path_ctl
    params_ctl := h.params_ctl
    fragment_ctl := h.fragment_ctl }

theorem urlunparse_slash_insert (scheme netloc path params query fragment : Str)
    (h1 : (if params ≠ [] then path ++ ';' :: params else path) ≠ [])
    (h2 : (if params ≠ [] then path ++ ';' :: params else path).take 1 ≠ ['/'])
    (hC : netloc ≠ [] ∨ (scheme ≠ [] ∧ scheme ∈ uses_netloc ∧
      (if params ≠ [] then path ++ ';' :: params else path).take 2 ≠ ['/', '/'])) :
    urlunparse ⟨scheme, netloc, path, params, query, fragment⟩
      = urlunparse ⟨scheme, netloc, '/' :: path, params, query, fragment⟩ := by
  have hu0 : (if params ≠ [] then ('/' :: path) ++ ';' :: params else ('/' :: path))
      = '/' :: (if params ≠ [] then path ++ ';' :: params else path) := by
    by_cases hpe : params = [] <;> simp [hpe]
  have hC2 : netloc ≠ [] ∨ (scheme ≠ [] ∧ scheme ∈ uses_netloc ∧
      (if params ≠ [] then ('/' :: path) ++ ';' :: params else ('/' :: path)).take 2
        ≠ ['/', '/']) := by
    rcases hC with h | ⟨ha, hb, hc⟩
    · exact Or.inl h
    · refine Or.inr ⟨ha, hb, ?_⟩
      rw [hu0]
      obtain ⟨c, t, hct⟩ : ∃ c t, (if params ≠ [] then path ++ ';' :: params else path)
          = c :: t := by
        cases hcc : (if params ≠ [] then path ++ ';' :: params else path) with
        | nil => exact absurd hcc h1
        | cons a b => exact ⟨a, b, rfl⟩
      rw [hct]
      intro he
      have h4 : ['/', c] = ['/', '/'] := he
      have h5 : c = '/' := by simpa using h4
      apply h2
      rw [hct, h5]
      rfl
  rw [urlunparse_shape, urlunparse_shape]
  rw [if_pos hC, if_pos hC2, hu0]
  have hX : (if (if params ≠ [] then path ++ ';' :: params else path) ≠ [] ∧
      (if params ≠ [] then path ++ ';' :: params else path).take 1 ≠ ['/'] then
        '/' :: (if params ≠ [] then path ++ ';' :: params else path)
      else (if params ≠ [] then path ++ ';' :: params else path))
      = '/' :: (if params ≠ [] then path ++ ';' :: params else path) := if_pos ⟨h1, h2⟩
  have hX2 : (if ('/' :: (if params ≠ [] then path ++ ';' :: params else path)) ≠ [] ∧
      ('/' :: (if params ≠ [] then path ++ ';' :: params else path)).take 1 ≠ ['/'] then
        '/' :: ('/' :: (if params ≠ [] then path ++ ';' :: params else path))
      else ('/' :: (if params ≠ [] then path ++ ';' :: params else path)))
      = '/' :: (if params ≠ [] then path ++ ';' :: params else path) := by
    apply if_neg
    rintro ⟨_, hb⟩
    exact hb rfl
  rw [hX, hX2]

theorem parseInv_slash {p : UrlParts} (h : ParseInv p)
    (hs : p.scheme ≠ []) (q : Str) :
    ParseInv ⟨p.scheme, [], '/' :: p.path, p.params, q, p.fragment⟩ :=
  { scheme_valid := h.scheme_valid
    netloc_end := by
      intro c hc
      cases hc
    path_hash := by
      intro hm
      rcases List.mem_cons.mp hm with hm | hm
      · cases hm
      · exact h.path_hash hm
    path_qm := by
      intro hm
      rcases List.mem_cons.mp hm with hm | hm
      · cases hm
      · exact h.path_qm hm
    params_hash := h.params_hash
    params_qm := h.params_qm
    params_slash := h.params_slash
    params_scheme := h.params_scheme
    params_shape := by
      intro hpe
      rcases h.params_shape hpe with ⟨a, b, hpd, hnb, hsb⟩ | ⟨hns, hnsemi⟩
      · exact Or.inl ⟨'/' :: a, b, by rw [show ('/' :: a) ++ '/' :: b = '/' :: (a ++ '/' :: b)
          from rfl, ← hpd], hnb, hsb⟩
      · exact Or.inl ⟨[], p.path, rfl, hns, hnsemi⟩
    path_semi := by
      intro hpe hus hsm
      have hsm2 : ';' ∈ p.path := by
        rcases List.mem_cons.mp hsm with hm | hm
        · cases hm
        · exact hm
      rcases h.path_semi hpe hus hsm2 with ⟨a, b, hpd, hnb, hsb⟩
      exact ⟨'/' :: a, b, by rw [show ('/' :: a) ++ '/' :: b = '/' :: (a ++ '/' :: b)
        from rfl, ← hpd], hnb, hsb⟩
    netloc_path := fun hc => absurd rfl hc
    head_clean := fun hc => absurd hc hs
    colon_inv := fun hc => absurd hc hs
    netloc_ctl := by
      intro c hc
      cases hc
    path_ctl := by
      intro c hc
      rcases List.mem_cons.mp hc with rfl | hc
      · decide
      · exact h.path_ctl c hc
    params_ctl := h.params_ctl
    fragment_ctl := h.fragment_ctl }

theorem clean_url_eq_of_some {u : Str}
    (hbr : ¬('[' ∈ (urlparseRaw u).netloc ∨ ']' ∈ (urlparseRaw u).netloc)) :
    clean_url u = urlunparse { urlparseRaw u with query := cleanQuery (urlparseRaw u).query } := by
  unfold clean_url urlparseE
  rw [if_neg hbr]

theorem clean_url_reparse {u : Str}
    (hbr : ¬('[' ∈ (urlparseRaw u).netloc ∨ ']' ∈ (urlparseRaw u).netloc))
    (hstr : (urlparseRaw u).netloc ≠ [] ∨ ((urlparseRaw u).path.take 2 ≠ ['/', '/'] ∧
      ((urlparseRaw u).scheme ≠ [] → (urlparseRaw u).scheme ∈ uses_netloc →
        ((urlparseRaw u).path = [] ∧ (urlparseRaw u).params = []) ∨
        (urlparseRaw u).path.take 1 = ['/']))) :
    urlparseRaw (clean_url u)
      = { urlparseRaw u with query := cleanQuery (urlparseRaw u).query } := by
  rw [clean_url_eq_of_some hbr]
  exact parse_unparse_exact _ (parseInv_set_query (parse_inv u) _)
    (fun d hd => cleanQuery_chars hd) hstr

theorem clean_url_reparse_corner {u : Str}
    (hbr : ¬('[' ∈ (urlparseRaw u).netloc ∨ ']' ∈ (urlparseRaw u).netloc))
    (hnl : (urlparseRaw u).netloc = [])
    (htk2 : (urlparseRaw u).path.take 2 ≠ ['/', '/'])
    (hs : (urlparseRaw u).scheme ≠ []) (hus : (urlparseRaw u).scheme ∈ uses_netloc)
    (hne : ¬((urlparseRaw u).path = [] ∧ (urlparseRaw u).params = []))
    (htk1 : (urlparseRaw u).path.take 1 ≠ ['/']) :
    clean_url u = urlunparse ⟨(urlparseRaw u).scheme, [], '/' :: (urlparseRaw u).path,
      (urlparseRaw u).params, cleanQuery (urlparseRaw u).query, (urlparseRaw u).fragment⟩ ∧
    urlparseRaw (clean_url u)
      = ⟨(urlparseRaw u).scheme, [], '/' :: (urlparseRaw u).path,
        (urlparseRaw u).params, cleanQuery (urlparseRaw u).query, (urlparseRaw u).fragment⟩ := by
  have hu0ne : (if (urlparseRaw u).params ≠ [] then (urlparseRaw u).path ++ ';' ::
      (urlparseRaw u).params else (urlparseRaw u).path) ≠ [] := by
    by_cases hpe : (urlparseRaw u).params = []
    · rw [if_neg (by simp [hpe])]
      intro h
      exact hne ⟨h, hpe⟩
    · rw [if_pos hpe]
      intro h
      have h2 := (List.append_eq_nil.mp h).2
      cases h2
  have hu0tk1 : (if (urlparseRaw u).params ≠ [] then (urlparseRaw u).path ++ ';' ::
      (urlparseRaw u).params else (urlparseRaw u).path).take 1 ≠ ['/'] := by
    by_cases hpe : (urlparseRaw u).params = []
    · rw [if_neg (by simp [hpe])]
      exact htk1
    · rw [if_pos hpe]
      cases hp : (urlparseRaw u).path with
      | nil =>
        rw [List.nil_append]
        intro h
        have h2 : [';'] = ['/'] := h
        simp at h2
      | cons c pt =>
        intro h
        apply htk1
        rw [hp]
        exact h
  have hu0tk2 : (if (urlparseRaw u).params ≠ [] then (urlparseRaw u).path ++ ';' ::
      (urlparseRaw u).params else (urlparseRaw u).path).take 2 ≠ ['/', '/'] := by
    by_cases hpe : (urlparseRaw u).params = []
    · rw [if_neg (by simp [hpe])]
      exact htk2
    · rw [if_pos hpe]
      cases hp : (urlparseRaw u).path with
      | nil =>
        rw [List.nil_append]
        intro h
        have h2 := congrArg (fun l => l.headD ' ') h
        simp at h2
      | cons c pt =>
        cases pt with
        | nil =>
          intro h
          have h2 : [c, ';'] = ['/', '/'] := h
          have h3 := congrArg (fun l => l.tail.headD ' ') h2
          simp at h3
        | cons c2 pt2 =>
          intro h
          apply htk2
          rw [hp]
          exact h
  have hsl := urlunparse_slash_insert (urlparseRaw u).scheme [] (urlparseRaw u).path
    (urlparseRaw u).params (cleanQuery (urlparseRaw u).query) (urlparseRaw u).fragment
    hu0ne hu0tk1 (Or.inr ⟨hs, hus, hu0tk2⟩)
  have h1 : clean_url u = urlunparse ⟨(urlparseRaw u).scheme, [], '/' :: (urlparseRaw u).path,
      (urlparseRaw u).params, cleanQuery (urlparseRaw u).query, (urlparseRaw u).fragment⟩ := by
    rw [clean_url_eq_of_some hbr]
    rw [show ({ urlparseRaw u with query := cleanQuery (urlparseRaw u).query } : UrlParts)
      = ⟨(urlparseRaw u).scheme, (urlparseRaw u).netloc, (urlparseRaw u).path,
        (urlparseRaw u).params, cleanQuery (urlparseRaw u).query, (urlparseRaw u).fragment⟩
      from rfl, hnl]
    exact hsl
  refine ⟨h1, ?_⟩
  rw [h1]
  have htkc : ('/' :: (urlparseRaw u).path).take 2 ≠ ['/', '/'] := by
    cases hp : (urlparseRaw u).path with
    | nil =>
      intro h
      have h2 : ['/'] = ['/', '/'] := h
      simp at h2
    | cons c pt =>
      intro h
      have h2 : ['/', c] = ['/', '/'] := h
      have h3 : c = '/' := by simpa using h2
      apply htk1
      rw [hp, h3]
      rfl
  exact parse_unparse_exact _ (parseInv_slash (parse_inv u) hs _)
    (fun d hd => cleanQuery_chars hd)
    (Or.inr ⟨htkc, fun _ _ => Or.inr rfl⟩)

theorem predicates_of_reparse {w : Str} {P : UrlParts}
    (hw : urlparseRaw w = P) (hbrw : ¬('[' ∈ P.netloc ∨ ']' ∈ P.netloc))
    (blocked banned : List Str) :
    is_blocked_domain blocked w = blocked.any (fun b => inStr b (asciiLower P.netloc)) ∧
    has_banned_path_keywords banned w = banned.any (fun k => inStr k (asciiLower P.path)) ∧
    is_shortened_url w = shortening_domains.any (fun d => inStr d (asciiLower P.netloc)) := by
  have hE : urlparseE w = some P := by
    unfold urlparseE
    rw [hw, if_neg hbrw]
  unfold is_blocked_domain has_banned_path_keywords is_shortened_url
  rw [hE]
  exact ⟨rfl, rfl, rfl⟩

set_option maxHeartbeats 1600000 in
/-- C8 (amended): URL normalisation is idempotent away from the
scheme-relative corner: for every URL whose parse has a nonempty netloc or
whose parsed path does not begin with `//`, `clean_url (clean_url u) =
clean_url u`; and the full pipeline `clean_and_resolve_url` (with no network)
is stable on its own output whenever the reparse of the cleaned URL is exact
(nonempty netloc, or path not starting `//` and — for `uses_netloc` schemes —
an absolute or empty path).  The excluded corners are real: see the
counterexample. -/
theorem clean_url_idempotent_amended :
    (∀ u : Str, ((urlparseRaw u).netloc ≠ [] ∨ (urlparseRaw u).path.take 2 ≠ ['/', '/']) →
      clean_url (clean_url u) = clean_url u) ∧
    (∀ u v : Str,
      ((urlparseRaw u).netloc ≠ [] ∨ ((urlparseRaw u).path.take 2 ≠ ['/', '/'] ∧
        ((urlparseRaw u).scheme ≠ [] → (urlparseRaw u).scheme ∈ uses_netloc →
          ((urlparseRaw u).path = [] ∧ (urlparseRaw u).params = []) ∨
          (urlparseRaw u).path.take 1 = ['/']))) →
      clean_and_resolve_url (fun _ => none) blocked_domains banned_path_keywords u = some v →
      clean_and_resolve_url (fun _ => none) blocked_domains banned_path_keywords v = some v) := by
  have hmain : ∀ u : Str,
      ((urlparseRaw u).netloc ≠ [] ∨ (urlparseRaw u).path.take 2 ≠ ['/', '/']) →
      clean_url (clean_url u) = clean_url u := by
    intro u hH
    by_cases hbr : '[' ∈ (urlparseRaw u).netloc ∨ ']' ∈ (urlparseRaw u).netloc
    · have h1 : clean_url u = u := by
        unfold clean_url urlparseE
        rw [if_pos hbr]
      rw [h1]
      exact h1
    · by_cases hstr : (urlparseRaw u).netloc ≠ [] ∨ ((urlparseRaw u).path.take 2 ≠ ['/', '/'] ∧
          ((urlparseRaw u).scheme ≠ [] → (urlparseRaw u).scheme ∈ uses_netloc →
            ((urlparseRaw u).path = [] ∧ (urlparseRaw u).params = []) ∨
            (urlparseRaw u).path.take 1 = ['/']))
      · have h2 := clean_url_reparse hbr hstr
        have hbr2 : ¬('[' ∈ (urlparseRaw (clean_url u)).netloc ∨
            ']' ∈ (urlparseRaw (clean_url u)).netloc) := by
          rw [h2]
          exact hbr
        rw [clean_url_eq_of_some hbr2, h2, clean_url_eq_of_some hbr]
        apply congrArg urlunparse
        show { urlparseRaw u with query := cleanQuery (cleanQuery (urlparseRaw u).query) }
          = ({ urlparseRaw u with query := cleanQuery (urlparseRaw u).query } : UrlParts)
        rw [cleanQuery_stable]
      · have hnl : (urlparseRaw u).netloc = [] := by
          by_contra h
          exact hstr (Or.inl h)
        have htk2 : (urlparseRaw u).path.take 2 ≠ ['/', '/'] := by
          rcases hH with h | h
          · exact absurd hnl h
          · exact h
        have himp : ¬((urlparseRaw u).scheme ≠ [] → (urlparseRaw u).scheme ∈ uses_netloc →
            ((urlparseRaw u).path = [] ∧ (urlparseRaw u).params = []) ∨
            (urlparseRaw u).path.take 1 = ['/']) := by
          intro h
          exact hstr (Or.inr ⟨htk2, h⟩)
        have hs : (urlparseRaw u).scheme ≠ [] := by
          by_contra h
          exact himp (fun hh _ => absurd h hh)
        have hus : (urlparseRaw u).scheme ∈ uses_netloc := by
          by_contra h
          exact himp (fun _ hh => absurd hh h)
        have hndisj : ¬(((urlparseRaw u).path = [] ∧ (urlparseRaw u).params = []) ∨
            (urlparseRaw u).path.take 1 = ['/']) := by
          intro h
          exact himp (fun _ _ => h)
        obtain ⟨hne2, htk1⟩ := not_or.mp hndisj
        obtain ⟨hc1, hc2⟩ := clean_url_reparse_corner hbr hnl htk2 hs hus hne2 htk1
        have hbr2 : ¬('[' ∈ (urlparseRaw (clean_url u)).netloc ∨
            ']' ∈ (urlparseRaw (clean_url u)).netloc) := by
          rw [hc2]
          simp
        rw [clean_url_eq_of_some hbr2, hc2, hc1]
        apply congrArg urlunparse
        show (⟨(urlparseRaw u).scheme, [], '/' :: (urlparseRaw u).path,
            (urlparseRaw u).params, cleanQuery (cleanQuery (urlparseRaw u).query),
            (urlparseRaw u).fragment⟩ : UrlParts)
          = ⟨(urlparseRaw u).scheme, [], '/' :: (urlparseRaw u).path,
            (urlparseRaw u).params, cleanQuery (urlparseRaw u).query,
            (urlparseRaw u).fragment⟩
        rw [cleanQuery_stable]
  refine ⟨hmain, ?_⟩
  intro u v hstr hpl
  unfold clean_and_resolve_url at hpl
  by_cases hbl : is_blocked_domain blocked_domains u = true
  · rw [if_pos hbl] at hpl
    cases hpl
  rw [if_neg hbl] at hpl
  by_cases hbn : has_banned_path_keywords banned_path_keywords u = true
  · rw [if_pos hbn] at hpl
    cases hpl
  rw [if_neg hbn] at hpl
  by_cases hsh : is_shortened_url (clean_url u) = true
  · rw [if_pos hsh] at hpl
    exact Option.noConfusion hpl
  rw [if_neg hsh] at hpl
  have hv : v = clean_url u := by
    have h3 : some (clean_url u) = some v := hpl
    injection h3 with h4
    exact h4.symm
  subst hv
  by_cases hbr : '[' ∈ (urlparseRaw u).netloc ∨ ']' ∈ (urlparseRaw u).netloc
  · have h1 : clean_url u = u := by
      unfold clean_url urlparseE
      rw [if_pos hbr]
    rw [h1] at hsh ⊢
    unfold clean_and_resolve_url
    rw [if_neg hbl, if_neg hbn, h1, if_neg hsh]
  · have h2 := clean_url_reparse hbr hstr
    have hpredu := predicates_of_reparse (w := u) rfl hbr blocked_domains banned_path_keywords
    have hpredv := predicates_of_reparse (w := clean_url u) h2 (by exact hbr)
      blocked_domains banned_path_keywords
    have hblv : is_blocked_domain blocked_domains (clean_url u) = false := by
      rw [hpredv.1]
      show blocked_domains.any (fun b => inStr b (asciiLower (urlparseRaw u).netloc)) = false
      rw [← hpredu.1]
      simpa using hbl
    have hbnv : has_banned_path_keywords banned_path_keywords (clean_url u) = false := by
      rw [hpredv.2.1]
      show banned_path_keywords.any
        (fun k => inStr k (asciiLower (urlparseRaw u).path)) = false
      rw [← hpredu.2.1]
      simpa using hbn
    have hH1 : (urlparseRaw u).netloc ≠ [] ∨ (urlparseRaw u).path.take 2 ≠ ['/', '/'] := by
      rcases hstr with h | ⟨h, _⟩
      · exact Or.inl h
      · exact Or.inr h
    have hmm := hmain u hH1
    unfold clean_and_resolve_url
    rw [if_neg (show ¬ is_blocked_domain blocked_domains (clean_url u) = true by
      simp [hblv])]
    rw [if_neg (show ¬ has_banned_path_keywords banned_path_keywords (clean_url u) = true by
      simp [hbnv])]
    rw [hmm, if_neg hsh]

theorem clean_url_idempotent_amended_witness :
    ((urlparseRaw (strOf "https://example.com/article?utm_source=x&a=1")).netloc ≠ [] ∨
      (urlparseRaw (strOf "https://example.com/article?utm_source=x&a=1")).path.take 2
        ≠ ['/', '/']) ∧
    clean_url (clean_url (strOf "https://example.com/article?utm_source=x&a=1"))
      = clean_url (strOf "https://example.com/article?utm_source=x&a=1") ∧
    clean_and_resolve_url (fun _ => none) blocked_domains banned_path_keywords
      (strOf "https://example.com/article?utm_source=x&a=1")
      = some (strOf "https://example.com/article?a=1") ∧
    clean_and_resolve_url (fun _ => none) blocked_domains banned_path_keywords
      (strOf "https://example.com/article?a=1")
      = some (strOf "https://example.com/article?a=1") :=
  ⟨Or.inl (by decide),
   clean_url_idempotent_amended.1 (strOf "https://example.com/article?utm_source=x&a=1")
     (Or.inl (by decide)),
   by decide,
   clean_url_idempotent_amended.2 (strOf "https://example.com/article?utm_source=x&a=1")
     (strOf "https://example.com/article?a=1") (Or.inl (by decide)) (by decide)⟩

/-- C7 (amended): tracking-parameter stripping, for every URL accepted by
`urlparse` whose parse lies outside the scheme-relative reparse corner
(nonempty netloc, or a path not starting `//` and — for `uses_netloc`
schemes — an absolute or empty path): the cleaned URL's scheme, netloc,
path, params and fragment are unchanged; no parameter of the cleaned query
has a lowercased name in `TRACKING_PARAMS`; and the surviving parameters
are the non-tracking ones under the `parse_qs` *grouping*: names are
brought together in first-occurrence order with each name's values in
original order, so interleaved duplicate names are reordered rather than
kept in original relative order (see the counterexample). -/
theorem tracking_strip_amended :
    ∀ (u : Str) (p : UrlParts), urlparseE u = some p →
      (p.netloc ≠ [] ∨ (p.path.take 2 ≠ ['/', '/'] ∧
        (p.scheme ≠ [] → p.scheme ∈ uses_netloc →
          (p.path = [] ∧ p.params = []) ∨ p.path.take 1 = ['/']))) →
      ((urlparseRaw (clean_url u)).scheme = p.scheme ∧
       (urlparseRaw (clean_url u)).netloc = p.netloc ∧
       (urlparseRaw (clean_url u)).path = p.path ∧
       (urlparseRaw (clean_url u)).params = p.params ∧
       (urlparseRaw (clean_url u)).fragment = p.fragment) ∧
      (∀ pr ∈ parse_qsl_kb ((urlparseRaw (clean_url u)).query),
        asciiLower pr.1 ∉ TRACKING_PARAMS) ∧
      parse_qsl_kb ((urlparseRaw (clean_url u)).query)
        = flattenGroups ((parse_qs_kb p.query).filter
            (fun g => decide (asciiLower g.1 ∉ TRACKING_PARAMS))) := by
  intro u p hE hstr
  have hbr : ¬('[' ∈ (urlparseRaw u).netloc ∨ ']' ∈ (urlparseRaw u).netloc) := by
    intro h
    unfold urlparseE at hE
    rw [if_pos h] at hE
    exact Option.noConfusion hE
  have hp : p = urlparseRaw u := by
    unfold urlparseE at hE
    rw [if_neg hbr] at hE
    exact (Option.some.inj hE).symm
  subst hp
  have h2 := clean_url_reparse hbr hstr
  have hq : (urlparseRaw (clean_url u)).query = cleanQuery ((urlparseRaw u).query) := by
    rw [h2]
  refine ⟨?_, ?_, ?_⟩
  · rw [h2]
    exact ⟨rfl, rfl, rfl, rfl, rfl⟩
  · rw [hq]
    intro pr hpr
    exact cleanQuery_no_tracking hpr
  · rw [hq]
    exact cleanQuery_parse_qsl ((urlparseRaw u).query)

theorem tracking_strip_amended_witness :
    urlparseE (strOf "https://example.com/article?utm_source=x&a=1&b=2&a=3")
      = some ⟨strOf "https", strOf "example.com", strOf "/article", [],
          strOf "utm_source=x&a=1&b=2&a=3", []⟩ ∧
    strOf "example.com" ≠ ([] : Str) ∧
    (((urlparseRaw (clean_url
          (strOf "https://example.com/article?utm_source=x&a=1&b=2&a=3"))).scheme
        = strOf "https" ∧
      (urlparseRaw (clean_url
          (strOf "https://example.com/article?utm_source=x&a=1&b=2&a=3"))).netloc
        = strOf "example.com" ∧
      (urlparseRaw (clean_url
          (strOf "https://example.com/article?utm_source=x&a=1&b=2&a=3"))).path
        = strOf "/article" ∧
      (urlparseRaw (clean_url
          (strOf "https://example.com/article?utm_source=x&a=1&b=2&a=3"))).params
        = ([] : Str) ∧
      (urlparseRaw (clean_url
          (strOf "https://example.com/article?utm_source=x&a=1&b=2&a=3"))).fragment
        = ([] : Str)) ∧
     (∀ pr ∈ parse_qsl_kb ((urlparseRaw (clean_url
          (strOf "https://example.com/article?utm_source=x&a=1&b=2&a=3"))).query),
        asciiLower pr.1 ∉ TRACKING_PARAMS) ∧
     parse_qsl_kb ((urlparseRaw (clean_url
          (strOf "https://example.com/article?utm_source=x&a=1&b=2&a=3"))).query)
       = flattenGroups ((parse_qs_kb (strOf "utm_source=x&a=1&b=2&a=3")).filter
           (fun g => decide (asciiLower g.1 ∉ TRACKING_PARAMS)))) :=
  ⟨by decide, by decide,
   tracking_strip_amended
     (strOf "https://example.com/article?utm_source=x&a=1&b=2&a=3")
     ⟨strOf "https", strOf "example.com", strOf "/article", [],
       strOf "utm_source=x&a=1&b=2&a=3", []⟩
     (by decide) (Or.inl (by decide))⟩
